import Mathlib

/-!
Verification of the job-orchestration and artifact-normalization pipeline of the
ai-agents backend (src/backend/main.py, src/backend/code_validator.py).

Python strings are modelled as `List Char`.  Python's `in` operator on strings is
`pyIn`, `str.replace` is `replaceAll`, and each `re.sub` call of the source is
modelled by a deterministic scanner (`subScan` with a match function per regex);
the concrete regexes of the source contain no constructs that require
backtracking beyond the single `\s*\n` case, which is resolved explicitly.
External runtimes (json.loads, compile(), subprocess linters) are oracles passed
as parameters.  Python whitespace (`\s`, `str.strip`) is modelled over the six
ASCII whitespace characters.
-/

namespace AIAgents

/-- Predicate form of substring occurrence: `pat` occurs contiguously in `hay`. -/
def occursIn (pat hay : List Char) : Prop := ∃ u v, hay = u ++ pat ++ v

/-- Python's `pat in hay` operator on strings (substring test). -/
def pyIn (pat : List Char) : List Char → Bool
  | [] => pat.isEmpty
  | c :: t => pat.isPrefixOf (c :: t) || pyIn pat t

/-- Python's `hay.replace(pat, rep)` (all occurrences, leftmost, non-overlapping).
The source never calls `replace` with an empty pattern; for `pat = []` this model
leaves the string unchanged. -/
def replaceAll (pat rep : List Char) : List Char → List Char
  | [] => []
  | c :: rest =>
    if h : pat ≠ [] ∧ pat.isPrefixOf (c :: rest) then
      rep ++ replaceAll pat rep ((c :: rest).drop pat.length)
    else
      c :: replaceAll pat rep rest
termination_by s => s.length
decreasing_by
  · simp only [List.length_drop, List.length_cons]
    have hp : pat.length ≠ 0 := fun hz => h.1 (List.eq_nil_of_length_eq_zero hz)
    omega
  · simp

/-- Python `\s` over ASCII: the six whitespace characters. -/
def pyIsSpace (c : Char) : Bool :=
  c = ' ' || c = '\t' || c = '\n' || c = '\r' || c = '\x0b' || c = '\x0c'

/-- Python's `str.strip()`: remove leading and trailing whitespace. -/
def pyStrip (s : List Char) : List Char :=
  ((s.dropWhile pyIsSpace).reverse.dropWhile pyIsSpace).reverse

/-- Python's `str.lower()` (ASCII model). -/
def pyLower (s : List Char) : List Char := s.map Char.toLower

/-- Generic model of `re.sub` for a deterministic pattern: scan left to right,
at each position try the match function, emit its replacement and continue after
the consumed text on success, otherwise emit one character.  The match function
returns the replacement text and the unconsumed remainder.  The length guard is
a totality guard; every match function used here consumes at least one
character, so the guard always holds at a match. -/
def subScan (M : List Char → Option (List Char × List Char)) : List Char → List Char
  | [] => []
  | c :: rest =>
    match M (c :: rest) with
    | some (rep, rem) =>
      if h : rem.length < rest.length + 1 then
        rep ++ subScan M rem
      else
        c :: subScan M rest
    | none => c :: subScan M rest
termination_by s => s.length
decreasing_by
  all_goals first
  | simpa using h
  | simp

/-- Length of the leading run of dots (used to reason about ellipsis tokens). -/
def leadDots (l : List Char) : Nat := (l.takeWhile (fun c => c = '.')).length

/-- Consume an exact literal, returning the remainder. -/
def eatLit (lit s : List Char) : Option (List Char) :=
  if lit.isPrefixOf s then some (s.drop lit.length) else none

/-- Consume a nonempty maximal run of characters satisfying `p` (a greedy
`[class]+` regex component followed by a character outside the class). -/
def eatWhile1 (p : Char → Bool) (s : List Char) : Option (List Char × List Char) :=
  let g := s.takeWhile p
  if g.isEmpty then none else some (g, s.dropWhile p)

-- String constants of the repairer (src/backend/main.py, fix_incomplete_code).

/-- The ellipsis placeholder token. -/
def strDots : List Char := "...".toList

/-- The bracketed-ellipsis placeholder token. -/
def strBracketDots : List Char := "[...]".toList

/-- The continue-implementation comment marker. -/
def strContinueImpl : List Char := "# Continue implementation".toList

/-- Replacement comment for remaining ellipsis tokens. -/
def strImplProvided : List Char := "/* Implementation provided */".toList

/-- Replacement comment for remaining bracketed-ellipsis tokens. -/
def strCompleteImpl : List Char := "/* Complete implementation */".toList

/-- Literal "def " of the Python function regexes. -/
def strDefSp : List Char := "def ".toList

/-- Literal "(". -/
def strLParen : List Char := "(".toList

/-- Literal "):" closing the parameter list of the def regexes. -/
def strRParenColon : List Char := "):".toList

/-- Literal "@app." of the route-handler regex. -/
def strAtApp : List Char := "@app.".toList

/-- Literal open parenthesis and double quote. -/
def strLParenQuote : List Char := "(\"".toList

/-- Literal double quote and close parenthesis. -/
def strQuoteRParen : List Char := "\")".toList

/-- Trigger substring for the database-setup fix. -/
def strCreateOrCreate : List Char := "createorcreate".toList

/-- Full pattern of the database-setup fix. -/
def strCreatePat : List Char := "createorcreate(database_url=DATABASE0DB)".toList

/-- Replacement of the database-setup fix. -/
def strCreateRep : List Char := "create_engine(DATABASE_URL or \x27sqlite:///./app.db\x27)".toList

/-- Pattern of the missing-os-import fix. -/
def strImportDotenv : List Char := "import dotenv".toList

/-- Presence test of the missing-os-import fix. -/
def strImportOs : List Char := "import os".toList

/-- Replacement of the missing-os-import fix. -/
def strImportOsDotenv : List Char := "import os\nimport dotenv".toList

/-- Extension list gating the structural fixes. -/
def strPy : List Char := "py".toList

/-- Extension "js". -/
def strJs : List Char := "js".toList

/-- Extension "jsx". -/
def strJsx : List Char := "jsx".toList

/-- Extension "ts". -/
def strTs : List Char := "ts".toList

/-- Extension "tsx". -/
def strTsx : List Char := "tsx".toList

/-- The extension list `['py', 'js', 'jsx', 'ts', 'tsx']`. -/
def extsPyJs : List (List Char) := [strPy, strJs, strJsx, strTs, strTsx]

/-- Replacement text of the empty-function-body rewrite (Python), as a function
of the captured function name. -/
def defStub (g1 : List Char) : List Char :=
  strDefSp ++ g1 ++ "():\n    \"\"\"Implementation for ".toList ++ g1 ++
    "\"\"\"\n    pass\n\n".toList

/-- Match function of the regex `def ([^(]+)\([^)]*\):\s*\.\.\.\s*` at the head
of the input, returning the replacement and the remainder. -/
def defMatchAt (s : List Char) : Option (List Char × List Char) := do
  let s1 ← eatLit strDefSp s
  let (g1, s2) ← eatWhile1 (fun c => c != '(') s1
  let s3 ← eatLit strLParen s2
  let s4 := s3.dropWhile (fun c => c != ')')
  let s5 ← eatLit strRParenColon s4
  let s6 := s5.dropWhile pyIsSpace
  let s7 ← eatLit strDots s6
  let s8 := s7.dropWhile pyIsSpace
  pure (defStub g1, s8)

/-- Replacement text of the route-handler rewrite. -/
def routeStub (g1 g2 g3 : List Char) : List Char :=
  strAtApp ++ g1 ++ strLParenQuote ++ g2 ++
    "\")\ndef ".toList ++ g3 ++
    "():\n    \"\"\"Handler for ".toList ++ g2 ++
    "\"\"\"\n    return \x7b\"message\": \"Endpoint for ".toList ++ g2 ++
    "\"\x7d\n\n".toList

/-- Fixed segment of the route stub between g2 and g3. -/
def routeSegA2 : List Char := "\")\ndef ".toList

/-- Fixed segment of the route stub between g3 and the second g2. -/
def routeSegA3 : List Char := "():\n    \"\"\"Handler for ".toList

/-- Fixed segment of the route stub between the second and third g2. -/
def routeSegA4 : List Char := "\"\"\"\n    return \x7b\"message\": \"Endpoint for ".toList

/-- Closing fixed segment of the route stub. -/
def routeSegA5 : List Char := "\"\x7d\n\n".toList

/-- Separation of a token q from a fixed text F: q does not occur in F, F
does not occur in q, no proper start of q ends F, and no nonempty end of q
starts F — so an occurrence of q can neither lie inside an inserted copy of F
nor cross one of its boundaries. -/
def SegSafe (q F : List Char) : Prop :=
  ¬ occursIn q F ∧ ¬ occursIn F q ∧
  (∀ p, p <+: q → p ≠ [] → p ≠ q → ¬ p <:+ F) ∧
  (∀ p, p <:+ q → p ≠ [] → ¬ p <+: F)

/-- Match function of the regex
`@app\.([a-z]+)\("([^"]+)"\)\s*\ndef ([^(]+)\([^)]*\):\s*\.\.\.\s*`.
The component `\s*\n` is resolved deterministically: the maximal whitespace run
after `")` must end with a newline (regex backtracking admits exactly this
split, since the following literal starts with a non-whitespace character). -/
def routeMatchAt (s : List Char) : Option (List Char × List Char) := do
  let s1 ← eatLit strAtApp s
  let (g1, s2) ← eatWhile1 (fun c => 'a' ≤ c && c ≤ 'z') s1
  let s3 ← eatLit strLParenQuote s2
  let (g2, s4) ← eatWhile1 (fun c => c != '"') s3
  let s5 ← eatLit strQuoteRParen s4
  let w := s5.takeWhile pyIsSpace
  let _ ← (if w.getLast? = some '\n' then some () else none)
  let s6 := s5.dropWhile pyIsSpace
  let s7 ← eatLit strDefSp s6
  let (g3, s8) ← eatWhile1 (fun c => c != '(') s7
  let s9 ← eatLit strLParen s8
  let s10 := s9.dropWhile (fun c => c != ')')
  let s11 ← eatLit strRParenColon s10
  let s12 := s11.dropWhile pyIsSpace
  let s13 ← eatLit strDots s12
  let s14 := s13.dropWhile pyIsSpace
  pure (routeStub g1 g2 g3, s14)

/-- Replacement text of the empty-JS-function rewrite. -/
def jsFunStub (g1 : List Char) : List Char :=
  "function ".toList ++ g1 ++ "() \x7b\n  // Implementation for ".toList ++ g1 ++
    "\n  return null;\n\x7d".toList

/-- Match function of the regex `function ([^(]+)\([^)]*\)\s*{\s*\.\.\.\s*}`. -/
def jsFunMatchAt (s : List Char) : Option (List Char × List Char) := do
  let s1 ← eatLit ("function ".toList) s
  let (g1, s2) ← eatWhile1 (fun c => c != '(') s1
  let s3 ← eatLit strLParen s2
  let s4 := s3.dropWhile (fun c => c != ')')
  let s5 ← eatLit (")".toList) s4
  let s6 := s5.dropWhile pyIsSpace
  let s7 ← eatLit ("\x7b".toList) s6
  let s8 := s7.dropWhile pyIsSpace
  let s9 ← eatLit strDots s8
  let s10 := s9.dropWhile pyIsSpace
  let s11 ← eatLit ("\x7d".toList) s10
  pure (jsFunStub g1, s11)

/-- Replacement text of the empty-React-component rewrite. -/
def reactStub (g1 : List Char) : List Char :=
  "const ".toList ++ g1 ++
    " = () => \x7b\n  return (\n    <div>\n      <h1>".toList ++ g1 ++
    " Component</h1>\n    </div>\n  );\n\x7d".toList

/-- Match function of the regex `const ([A-Z][a-zA-Z]*) = \(\) => {\s*\.\.\.\s*}`. -/
def reactMatchAt (s : List Char) : Option (List Char × List Char) := do
  let s1 ← eatLit ("const ".toList) s
  match s1 with
  | [] => none
  | c0 :: s1' =>
    if 'A' ≤ c0 && c0 ≤ 'Z' then do
      let tail := s1'.takeWhile (fun c => ('a' ≤ c && c ≤ 'z') || ('A' ≤ c && c ≤ 'Z'))
      let s2 := s1'.dropWhile (fun c => ('a' ≤ c && c ≤ 'z') || ('A' ≤ c && c ≤ 'Z'))
      let g1 := c0 :: tail
      let s3 ← eatLit (" = () => \x7b".toList) s2
      let s4 := s3.dropWhile pyIsSpace
      let s5 ← eatLit strDots s4
      let s6 := s5.dropWhile pyIsSpace
      let s7 ← eatLit ("\x7d".toList) s6
      pure (reactStub g1, s7)
    else none

/-- Test `has_placeholders` of `fix_incomplete_code`. -/
def hasPlaceholders (code : List Char) : Bool :=
  pyIn strDots code || pyIn strBracketDots code || pyIn strContinueImpl code

/-- The extension of a filename: `filename.split('.')[-1].lower()` when the
name contains a dot, else the empty string. -/
def extOf (filename : List Char) : List Char :=
  if filename.contains '.' then
    pyLower (filename.reverse.takeWhile (fun c => c != '.')).reverse
  else []

/-- The placeholder repairer `fix_incomplete_code(code, filename)` of
src/backend/main.py.  The leading guard `if not code or not isinstance(code,
str): return code` reduces, for string input, to returning empty input
unchanged. -/
def fix_incomplete_code (code filename : List Char) : List Char :=
  if code = [] then code
  else if ¬ hasPlaceholders code then code
  else
    let ext := extOf filename
    let fixed1 :=
      if ext ∈ extsPyJs then
        if ext = strPy then
          let a := subScan defMatchAt code
          let b := if pyIn strCreateOrCreate a then replaceAll strCreatePat strCreateRep a else a
          let c := if pyIn strImportDotenv b ∧ ¬ pyIn strImportOs b then
              replaceAll strImportDotenv strImportOsDotenv b
            else b
          subScan routeMatchAt c
        else
          subScan reactMatchAt (subScan jsFunMatchAt code)
      else code
    replaceAll strBracketDots strCompleteImpl (replaceAll strDots strImplProvided fixed1)

-- Markdown fenced-block extraction (src/backend/main.py, extract_code_files_from_markdown).

/-- Literal triple backtick. -/
def strFence : List Char := "```".toList

/-- Literal "File:" annotation. -/
def strFileColon : List Char := "File:".toList

/-- Python `\w` over ASCII: letters, digits, underscore. -/
def isWordChar (c : Char) : Bool := c.isAlphanum || c = '_'

/-- Index of the first occurrence of `pat` in the list, if any. -/
def firstIndexOf (pat : List Char) : List Char → Option Nat
  | [] => if pat.isEmpty then some 0 else none
  | c :: t =>
    if pat.isPrefixOf (c :: t) then some 0
    else (firstIndexOf pat t).map (fun i => i + 1)

/-- Parse the regex fragment `File:\s*([^\n]+)\n` at the head of the input,
honouring Python's backtracking: the greedy `\s*` gives back characters until
the nonempty `[^\n]+` followed by a newline can match.  `fileBodyAt k` tries
the split with `\s*` consuming `k` characters. -/
def fileBodyAt (k : Nat) (t : List Char) : Option (List Char × List Char) := do
  let u := t.drop k
  let (nm, u') ← eatWhile1 (fun c => c != '\n') u
  let u'' ← eatLit ("\n".toList) u'
  pure (nm, u'')

/-- Descend over `\s*` lengths, longest first (Python's greedy backtracking). -/
def fileBodyDescend : Nat → List Char → Option (List Char × List Char)
  | 0, t => fileBodyAt 0 t
  | k + 1, t =>
    match fileBodyAt (k + 1) t with
    | some r => some r
    | none => fileBodyDescend k t

/-- Parse `File:\s*([^\n]+)\n` at the head of the input. -/
def parseFileClause (s : List Char) : Option (List Char × List Char) := do
  let s1 ← eatLit strFileColon s
  fileBodyDescend (s1.takeWhile pyIsSpace).length s1

/-- One backtracking step of the fragment `\s*(?:File:\s*([^\n]+))?\n` with the
outer `\s*` consuming exactly `k` characters; the optional File group is
preferred present. -/
def wsnlAt (k : Nat) (t : List Char) : Option (Option (List Char) × List Char) :=
  let u := t.drop k
  match parseFileClause u with
  | some (nm, rem) => some (some nm, rem)
  | none =>
    match u with
    | '\n' :: rem => some (none, rem)
    | _ => none

/-- Descend over the outer `\s*` lengths, longest first. -/
def wsnlDescend : Nat → List Char → Option (Option (List Char) × List Char)
  | 0, t => wsnlAt 0 t
  | k + 1, t =>
    match wsnlAt (k + 1) t with
    | some r => some r
    | none => wsnlDescend k t

/-- Decimal rendering of a natural number. -/
def natChars (n : Nat) : List Char := (toString n).toList

/-- The language-to-extension map of the extractor. -/
def extMap : List (List Char × List Char) :=
  [("python".toList, "py".toList), ("javascript".toList, "js".toList),
   ("typescript".toList, "ts".toList), ("jsx".toList, "jsx".toList),
   ("tsx".toList, "tsx".toList), ("html".toList, "html".toList),
   ("css".toList, "css".toList), ("json".toList, "json".toList),
   ("yaml".toList, "yml".toList), ("bash".toList, "sh".toList),
   ("dockerfile".toList, "Dockerfile".toList), ("markdown".toList, "md".toList)]

/-- Lookup `ext_map.get(lang, lang)`. -/
def extLookup (lang : List Char) : List Char :=
  match extMap.find? (fun kv => kv.1 == lang) with
  | some kv => kv.2
  | none => lang

/-- Python dict assignment on an association list: update the existing key in
place, else append (insertion order preserved, as for Python dicts). -/
def dictInsert {α : Type} (m : List (List Char × α)) (k : List Char) (v : α) :
    List (List Char × α) :=
  match m with
  | [] => [(k, v)]
  | (k', v') :: t => if k' = k then (k, v) :: t else (k', v') :: dictInsert t k v

/-- Match of the fence regex
`` ```(?:\w+)?\s*(?:File:\s*([^\n]+))?\n([\s\S]*?)``` `` at the head of the
input.  Returns (optional explicit filename, language word run, body, rest).
Backtracking of the optional greedy `(?:\w+)?` succeeds for at most one
shorter split: cutting the suffix "File" off the word run with ':' following,
since any other cut leaves a word character where `\s*`, `File:` or `\n` must
match.  The lazy body extends to the first closing fence; without one the
whole match fails. -/
def fenceMatchAt (s : List Char) :
    Option (Option (List Char) × List Char × List Char × List Char) := do
  let s1 ← eatLit strFence s
  let run := s1.takeWhile isWordChar
  let t := s1.dropWhile isWordChar
  let (nameOpt, rem) ←
    (match wsnlDescend (t.takeWhile pyIsSpace).length t with
     | some r => some r
     | none =>
       if run.length ≥ 4 ∧ run.drop (run.length - 4) = "File".toList then
         match parseFileClause (("File".toList) ++ t) with
         | some r => some (some r.1, r.2)
         | none => none
       else none)
  let i ← firstIndexOf strFence rem
  pure (nameOpt, run, rem.take i, rem.drop (i + 3))

/-- Scanner of `re.finditer` for the fence regex, threading the unnamed-file
counter and the accumulated file dict.  The length guard is a totality guard;
a fence match always consumes at least the opening backticks. -/
def mdScanAux : List Char → Nat → List (List Char × List Char) →
    List (List Char × List Char)
  | [], _, acc => acc
  | c :: rest, counter, acc =>
    match fenceMatchAt (c :: rest) with
    | some (nameOpt, run, body, rem) =>
      if h : rem.length < rest.length + 1 then
        match nameOpt with
        | some nm => mdScanAux rem counter (dictInsert acc nm (pyStrip body))
        | none =>
          let lang := if run.isEmpty then "txt".toList else run
          let fname := "file_".toList ++ natChars counter ++ ['.'] ++ extLookup (pyLower lang)
          mdScanAux rem (counter + 1) (dictInsert acc fname (pyStrip body))
      else mdScanAux rest counter acc
    | none => mdScanAux rest counter acc
termination_by s _ _ => s.length
decreasing_by
  all_goals first
  | simpa using h
  | simp

/-- The extractor `extract_code_files_from_markdown(markdown)` of
src/backend/main.py; the unnamed counter starts at 1. -/
def extract_code_files_from_markdown (md : List Char) : List (List Char × List Char) :=
  mdScanAux md 1 []

-- Model of Python values reaching extract_code_from_output.

/-- Shallow model of the Python values the normalizer dispatches on: None,
strings, dicts with string keys, lists, attribute-bearing objects (optional
`code` and `raw_output` attributes plus their `str()` rendering), and any
other value (its truthiness and `str()` rendering). -/
inductive PyVal where
  | pyNone : PyVal
  | pyStr : List Char → PyVal
  | pyDict : List (List Char × PyVal) → PyVal
  | pyList : List PyVal → PyVal
  | pyObj : Option PyVal → Option PyVal → List Char → PyVal
  | pyOther : Bool → List Char → PyVal

/-- Python truthiness of a modelled value. -/
def truthy : PyVal → Bool
  | .pyNone => false
  | .pyStr s => !s.isEmpty
  | .pyDict d => !d.isEmpty
  | .pyList l => !l.isEmpty
  | .pyObj _ _ _ => true
  | .pyOther b _ => b

/-- Python `repr()` of a modelled value (objects and opaque values carry their
rendering; nested strings are quoted, escape subtleties elided). -/
def pyReprOf : PyVal → List Char
  | .pyNone => "None".toList
  | .pyStr s => '\x27' :: (s ++ ['\x27'])
  | .pyObj _ _ r => r
  | .pyOther _ r => r
  | .pyDict d =>
    '\x7b' :: ((List.intercalate (", ".toList)
      (d.attach.map (fun kv =>
        ('\x27' :: (kv.1.1 ++ ['\x27'])) ++ (": ".toList ++ pyReprOf kv.1.2)))) ++ ['\x7d'])
  | .pyList l =>
    '[' :: ((List.intercalate (", ".toList)
      (l.attach.map (fun it => pyReprOf it.1))) ++ [']'])
termination_by v => sizeOf v
decreasing_by
  all_goals first
  | (have hm := List.sizeOf_lt_of_mem kv.2
     obtain ⟨⟨k1, v1⟩, hmem⟩ := kv
     simp only [PyVal.pyDict.sizeOf_spec, Prod.mk.sizeOf_spec] at *
     omega)
  | (have hm := List.sizeOf_lt_of_mem it.2
     simp only [PyVal.pyList.sizeOf_spec] at *
     omega)

/-- Python `str()` of a modelled value. -/
def pyStrOf (v : PyVal) : List Char :=
  match v with
  | .pyStr s => s
  | w => pyReprOf w

/-- Result of the normalizer: a file mapping, a bare string (one fallback of
the object branch returns a string rather than a dict), or an uncaught Python
exception. -/
inductive ExtractResult where
  | files : List (List Char × PyVal) → ExtractResult
  | text : List Char → ExtractResult
  | raised : List Char → ExtractResult

/-- Test `isinstance(v, str)` on a modelled value. -/
def isStrVal : PyVal → Bool
  | .pyStr _ => true
  | _ => false

/-- Test `all(isinstance(v, str) for v in result.values())`. -/
def allStrVals (d : List (List Char × PyVal)) : Bool :=
  d.all (fun kv => isStrVal kv.2)

/-- The per-entry repair loop `fixed[filename] = fix_incomplete_code(code,
filename)`: the repairer's leading isinstance guard passes non-strings through
unchanged. -/
def fix_val (v : PyVal) (filename : List Char) : PyVal :=
  match v with
  | .pyStr s => .pyStr (fix_incomplete_code s filename)
  | w => w

/-- Repair every entry of a value dict. -/
def repairEntries (d : List (List Char × PyVal)) : List (List Char × PyVal) :=
  d.map (fun kv => (kv.1, fix_val kv.2 kv.1))

/-- Repair every entry of a string dict (markdown-extracted files). -/
def repairFilesStr (d : List (List Char × List Char)) : List (List Char × PyVal) :=
  d.map (fun kv => (kv.1, PyVal.pyStr (fix_incomplete_code kv.2 kv.1)))

/-- Embed markdown-extracted files as values without repair. -/
def filesOfMd (d : List (List Char × List Char)) : List (List Char × PyVal) :=
  d.map (fun kv => (kv.1, PyVal.pyStr kv.2))

/-- Dict lookup `d[k]` (first matching key). -/
def lookupVal (d : List (List Char × PyVal)) (k : List Char) : Option PyVal :=
  match d.find? (fun kv => kv.1 == k) with
  | some kv => some kv.2
  | none => none

/-- Key "code". -/
def strCode : List Char := "code".toList

/-- Key "raw_output". -/
def strRawOutput : List Char := "raw_output".toList

/-- Default filename "main.py". -/
def strMainPy : List Char := "main.py".toList

/-- Default filename "main.js". -/
def strMainJs : List Char := "main.js".toList

/-- Default filename "unknown.py". -/
def strUnknownPy : List Char := "unknown.py".toList

/-- Default filename "output.txt". -/
def strOutputTxt : List Char := "output.txt".toList

/-- Default filename "code.txt". -/
def strCodeTxt : List Char := "code.txt".toList

/-- Default filename "combined_output.txt". -/
def strCombinedTxt : List Char := "combined_output.txt".toList

/-- The stage keys recognised by the task-output sub-branch. -/
def stageKeys : List (List Char) :=
  ["planner".toList, "frontend".toList, "backend".toList, "tester".toList,
   "deployment".toList]

/-- Branch for a string `code` field (attribute or dict key): markdown blocks
are returned as extracted without repair; with no blocks the whole string is
stored repaired under main.py (src/backend/main.py lines 399-406 and 460-467). -/
def codeStrBranch (cs : List Char) : List (List Char × PyVal) :=
  let cf := extract_code_files_from_markdown cs
  if cf.isEmpty then [(strMainPy, .pyStr (fix_incomplete_code cs strMainPy))]
  else filesOfMd cf

/-- Branch for a truthy string `raw_output`: JSON dict of strings is repaired
per entry; else markdown blocks are extracted and repaired; else the stripped
text is stored repaired under output.txt (lines 410-438). -/
def rawOutputStrBranch (J : List Char → Option PyVal) (rs : List Char) : ExtractResult :=
  match J rs with
  | some (.pyDict pd) =>
    if allStrVals pd then .files (repairEntries pd)
    else
      let cf := extract_code_files_from_markdown rs
      if cf.isEmpty then .files [(strOutputTxt, .pyStr (fix_incomplete_code (pyStrip rs) strOutputTxt))]
      else .files (repairFilesStr cf)
  | _ =>
    let cf := extract_code_files_from_markdown rs
    if cf.isEmpty then .files [(strOutputTxt, .pyStr (fix_incomplete_code (pyStrip rs) strOutputTxt))]
    else .files (repairFilesStr cf)

/-- The task-output key loop of the dict branch (lines 483-498): the first key
containing "task" (case-insensitive) or naming a stage whose string value
yields markdown blocks, or whose dict value has string entries, returns those
files prefixed with the key — without repair. -/
def taskKeyLoop (d : List (List Char × PyVal)) :
    List (List Char × PyVal) → Option (List (List Char × PyVal))
  | [] => none
  | (k, _) :: rest =>
    if pyIn ("task".toList) (pyLower k) || k ∈ stageKeys then
      match lookupVal d k with
      | some (.pyStr ts) =>
        let cf := extract_code_files_from_markdown ts
        if cf.isEmpty then taskKeyLoop d rest
        else some (cf.map (fun kv => (k ++ ['/'] ++ kv.1, PyVal.pyStr kv.2)))
      | some (.pyDict td) =>
        let pf := (td.filter (fun kv => isStrVal kv.2)).map
          (fun kv => (k ++ ['/'] ++ kv.1, kv.2))
        if pf.isEmpty then taskKeyLoop d rest
        else some pf
      | _ => taskKeyLoop d rest
    else taskKeyLoop d rest

/-- Join of the list fallback: `'\n\n'.join(str(item) for item in result)`. -/
def joinItems (items : List PyVal) : List Char :=
  List.intercalate ("\n\n".toList) (items.map pyStrOf)

/-- Branch for an absent or falsy `code` attribute: dispatch on `raw_output`.
A truthy non-string `raw_output` raises: `json.loads` raising TypeError is
swallowed by the bare except, but `re.finditer` then raises TypeError
uncaught.  With no usable attribute the value falls through to the final
stringify fallback. -/
def extractRawFallback (J : List Char → Option PyVal) (rawA : Option PyVal)
    (reprS : List Char) : Option ExtractResult :=
  match rawA with
  | some rv =>
    if truthy rv then
      match rv with
      | .pyStr rs => some (rawOutputStrBranch J rs)
      | _ => some (.raised ("TypeError".toList))
    else some (.files [(strOutputTxt, .pyStr reprS)])
  | none => some (.files [(strOutputTxt, .pyStr reprS)])

/-- Call descriptor for the normalizer recursion: either normalize a value, or
run the list-branch loop (item index, pending items, accumulated files). -/
inductive ExtractCall where
  | val : PyVal → ExtractCall
  | loop : Nat → List PyVal → List (List Char × PyVal) → ExtractCall

/-- The normalizer `extract_code_from_output(result)` of src/backend/main.py,
parameterised by the `json.loads` oracle `J` (returning `none` where parsing
raises) and fuel bounding the recursion depth through parsed JSON, nested dict
values and list items; `none` means the fuel ran out (the Python recursion
terminates on real inputs because parsed values shrink). -/
def extractAux (J : List Char → Option PyVal) :
    Nat → ExtractCall → Option ExtractResult
  | 0, _ => none
  | Nat.succ n, .loop i pending acc =>
    match pending with
    | [] => some (.files acc)
    | it :: rest =>
      match extractAux J n (.val it) with
      | none => none
      | some (.raised e) => some (.raised e)
      | some (.text t) =>
        extractAux J n (.loop (i + 1) rest
          (dictInsert acc ("item_".toList ++ natChars i ++ ".txt".toList) (.pyStr t)))
      | some (.files m) =>
        extractAux J n (.loop (i + 1) rest
          (m.foldl (fun a kv => dictInsert a ("item_".toList ++ natChars i ++ ['_'] ++ kv.1) kv.2) acc))
  | Nat.succ n, .val v =>
    match v with
    | .pyNone => some (.files [])
    | .pyDict d =>
      if allStrVals d then some (.files (repairEntries d))
      else
        -- the later all-string-pairs test (line 443) is unreachable: it implies
        -- the line 382 test that just failed
        match lookupVal d strCode with
        | some (.pyDict cd) => some (.files (repairEntries cd))
        | some (.pyStr cs) => some (.files (codeStrBranch cs))
        | some cv => some (.files [(strUnknownPy, .pyStr (fix_incomplete_code (pyStrOf cv) strUnknownPy))])
        | none =>
          if d.length = 1 then
            match d with
            | [(_, v1)] => extractAux J n (.val v1)
            | _ => some (.files [])
          else
            match lookupVal d strRawOutput with
            | some rv => extractAux J n (.val rv)
            | none =>
              match taskKeyLoop d d with
              | some pf => some (.files pf)
              | none => some (.files [(strOutputTxt, .pyStr (pyStrOf (PyVal.pyDict d)))])
    | .pyObj codeA rawA reprS =>
      match codeA with
      | some cv =>
        if truthy cv then
          match cv with
          | .pyDict cd => some (.files (repairEntries cd))
          | .pyStr cs => some (.files (codeStrBranch cs))
          | w => some (.text (fix_incomplete_code (pyStrOf w) strUnknownPy))
        else
          extractRawFallback J rawA reprS
      | none => extractRawFallback J rawA reprS
    | .pyStr s =>
      match J s with
      | some (.pyDict pd) => extractAux J n (.val (.pyDict pd))
      | _ =>
        let cf := extract_code_files_from_markdown s
        if !cf.isEmpty then some (.files (repairFilesStr cf))
        else if pyIn strDefSp s || pyIn ("class ".toList) s || pyIn ("import ".toList) s
            || pyIn ("function".toList) s then
          if pyIn strDefSp s || pyIn ("import ".toList) s then
            some (.files [(strMainPy, .pyStr (fix_incomplete_code (pyStrip s) strMainPy))])
          else if pyIn ("function".toList) s || pyIn ("const ".toList) s
              || pyIn ("let ".toList) s then
            some (.files [(strMainJs, .pyStr (fix_incomplete_code (pyStrip s) strMainJs))])
          else
            some (.files [(strCodeTxt, .pyStr (fix_incomplete_code (pyStrip s) strCodeTxt))])
        else
          some (.files [(strOutputTxt, .pyStr (pyStrip s))])
    | .pyList items =>
      match extractAux J n (.loop 0 items []) with
      | none => none
      | some (.raised e) => some (.raised e)
      | some (.text t) => some (.text t)
      | some (.files acc) =>
        if acc.isEmpty then
          some (.files [(strCombinedTxt, .pyStr (fix_incomplete_code (joinItems items) strCombinedTxt))])
        else some (.files acc)
    | .pyOther _ reprS => some (.files [(strOutputTxt, .pyStr reprS)])

/-- The normalizer applied to a value, with fuel. -/
def extract_code_from_output (J : List Char → Option PyVal) (fuel : Nat)
    (v : PyVal) : Option ExtractResult :=
  extractAux J fuel (.val v)

-- Validator (src/backend/code_validator.py).

/-- Outcome of a Python computation: a value, or an uncaught exception carrying
the exception name or message. -/
inductive PyResult (α : Type) where
  | ok : α → PyResult α
  | exc : List Char → PyResult α

/-- Outcome of a `subprocess.run` call: completed with return code, stderr
lines and stdout lines, or raised (timeout expired, missing binary) with the
exception text. -/
inductive SubprocResult where
  | completed : Int → List (List Char) → List (List Char) → SubprocResult
  | failed : List Char → SubprocResult

/-- Oracles for the external runtimes the validator invokes: Python's
`compile` builtin (`some (lineno, msg)` models a SyntaxError), and the pylint,
eslint and node subprocesses. -/
structure RuntimeOracle where
  pyCompile : List Char → Option (Option Nat × List Char)
  pylint : List Char → SubprocResult
  eslint : List Char → SubprocResult
  nodeCheck : List Char → SubprocResult

/-- Line filter `[line for line in ... if line.strip()]`. -/
def filterBlankLines (ls : List (List Char)) : List (List Char) :=
  ls.filter (fun l => !(pyStrip l).isEmpty)

/-- Model of the `finally` cleanup `if os.path.exists(temp_file): ...`: when
the local `temp_file` was never assigned on the path reaching the finally
block, referencing it raises UnboundLocalError, which discards the in-flight
return value and propagates (a `finally` exception is not caught by the
`except` clauses of the same try statement). -/
def pyFinallyGuard {α : Type} (tempFileBound : Bool) (r : PyResult α) : PyResult α :=
  if tempFileBound then r else .exc ("UnboundLocalError".toList)

/-- Rendering of `e.lineno if hasattr(e, 'lineno') else '?'`. -/
def lineNoChars : Option Nat → List Char
  | some n => natChars n
  | none => ['?']

/-- The validator `CodeValidator.validate_python(code)`.  The `temp_file`
local is assigned only after the `compile` call, so the SyntaxError path
reaches the `finally` cleanup with the local unbound. -/
def validate_python (R : RuntimeOracle) (code : List Char) :
    PyResult (Bool × List (List Char)) :=
  match R.pyCompile code with
  | some (lineNo, msg) =>
    pyFinallyGuard false
      (.ok (false, ["Syntax error at line ".toList ++ lineNoChars lineNo ++ ": ".toList ++ msg]))
  | none =>
    pyFinallyGuard true
      (match R.pylint code with
       | .completed rc errLines outLines =>
         if rc ≠ 0 then .ok (false, filterBlankLines (errLines ++ outLines))
         else .ok (true, [])
       | .failed _ => .ok (true, []))

/-- The validator `CodeValidator.validate_javascript(code)`: eslint reported
first when it completes with a nonzero code, else node --check; a raising node
call is caught by the outer handler.  Here `temp_file` is assigned first in
the try block, so the finally cleanup is harmless. -/
def validate_javascript (R : RuntimeOracle) (code : List Char) :
    PyResult (Bool × List (List Char)) :=
  let eslintStep : Option (Bool × List (List Char)) :=
    match R.eslint code with
    | .completed rc errLines _ =>
      if rc ≠ 0 then some (false, filterBlankLines errLines) else none
    | .failed _ => none
  pyFinallyGuard true
    (match eslintStep with
     | some r => .ok r
     | none =>
       match R.nodeCheck code with
       | .completed rc errLines _ =>
         if rc ≠ 0 then .ok (false, filterBlankLines errLines) else .ok (true, [])
       | .failed e => .ok (false, ["Validation error: ".toList ++ e]))

/-- Lazy scan of the tag regex tail `.*?(/?)>`: shortest extension, over
non-newline characters, reaching `/>` (self-closing) or `>`. -/
def lazyToGt : List Char → Option (Bool × List Char)
  | [] => none
  | '/' :: '>' :: rest => some (true, rest)
  | '>' :: rest => some (false, rest)
  | c :: rest => if c = '\n' then none else lazyToGt rest

/-- Match of the tag regex `<(/?)(\w+).*?(/?)>` at the head of the input:
(closing?, tag name, self-closing?, rest). -/
def tagMatchAt (s : List Char) : Option (Bool × List Char × Bool × List Char) :=
  match s with
  | '<' :: s1 =>
    let p : Bool × List Char :=
      match s1 with
      | '/' :: t => (true, t)
      | _ => (false, s1)
    match eatWhile1 isWordChar p.2 with
    | none => none
    | some (nm, s3) =>
      match lazyToGt s3 with
      | some (selfC, rem) => some (p.1, nm, selfC, rem)
      | none => none
  | _ => none

/-- Tags exempt from balance tracking. -/
def selfClosingTags : List (List Char) :=
  ["meta".toList, "link".toList, "input".toList, "img".toList, "br".toList,
   "hr".toList]

/-- HTML error message for a closing tag with no opening tag. -/
def htmlNoOpenMsg (nm : List Char) : List Char :=
  "Found closing tag </\x27".toList ++ nm ++ "\x27> without matching opening tag".toList

/-- HTML error message for a mismatched closing tag. -/
def htmlMismatchMsg (expected found : List Char) : List Char :=
  "Expected closing tag </\x27".toList ++ expected ++ "\x27> but found </\x27".toList ++
    found ++ "\x27>".toList

/-- HTML error message for a tag still open at end of input. -/
def htmlUnclosedMsg (nm : List Char) : List Char :=
  "Unclosed tag <\x27".toList ++ nm ++ "\x27>".toList

/-- Scanner of `finditer` for the tag regex, folding the open-tag stack (top at
head, i.e. the last appended) and the error list. -/
def htmlScanAux : List Char → List (List Char) → List (List Char) →
    List (List Char) × List (List Char)
  | [], stack, errors => (stack, errors)
  | c :: rest, stack, errors =>
    match tagMatchAt (c :: rest) with
    | some (isClosing, nm, selfC, rem) =>
      if h : rem.length < rest.length + 1 then
        if selfC || nm ∈ selfClosingTags then htmlScanAux rem stack errors
        else if isClosing then
          match stack with
          | [] => htmlScanAux rem [] (errors ++ [htmlNoOpenMsg nm])
          | top :: stTail =>
            if top ≠ nm then htmlScanAux rem stTail (errors ++ [htmlMismatchMsg top nm])
            else htmlScanAux rem stTail errors
        else htmlScanAux rem (nm :: stack) errors
      else htmlScanAux rest stack errors
    | none => htmlScanAux rest stack errors
termination_by s _ _ => s.length
decreasing_by
  all_goals first
  | simpa using h
  | simp

/-- The validator `CodeValidator.validate_html(code)`. -/
def validate_html (code : List Char) : PyResult (Bool × List (List Char)) :=
  let r := htmlScanAux code [] []
  let errors := r.2 ++ r.1.map htmlUnclosedMsg
  .ok (errors.isEmpty, errors)

/-- CSS error message for an unexpected closing brace. -/
def cssUnexpectedMsg (i : Nat) : List Char :=
  "Unexpected closing brace at position ".toList ++ natChars i

/-- CSS error message for unclosed braces at end of input. -/
def cssMissingMsg (n : Nat) : List Char :=
  "Missing ".toList ++ natChars n ++ " closing brace(s)".toList

/-- Brace-balance fold of `validate_css`: a negative-going closing brace is
reported and the counter reset to zero. -/
def cssScanAux : List Char → Nat → Nat → List (List Char) →
    Nat × List (List Char)
  | [], _, opened, errors => (opened, errors)
  | c :: rest, i, opened, errors =>
    if c = '\x7b' then cssScanAux rest (i + 1) (opened + 1) errors
    else if c = '\x7d' then
      if opened = 0 then cssScanAux rest (i + 1) 0 (errors ++ [cssUnexpectedMsg i])
      else cssScanAux rest (i + 1) (opened - 1) errors
    else cssScanAux rest (i + 1) opened errors

/-- The validator `CodeValidator.validate_css(code)`. -/
def validate_css (code : List Char) : PyResult (Bool × List (List Char)) :=
  let r := cssScanAux code 0 0 []
  let errors := if r.1 > 0 then r.2 ++ [cssMissingMsg r.1] else r.2
  .ok (errors.isEmpty, errors)

/-- Basename after the last path separator. -/
def basenameOf (f : List Char) : List Char :=
  (f.reverse.takeWhile (fun c => c != '/')).reverse

/-- Lowercased extension per `os.path.splitext(filename)[1].lower()`: the part
from the last dot of the basename, with leading dots never starting an
extension. -/
def splitextExt (f : List Char) : List Char :=
  let b := (basenameOf f).dropWhile (fun c => c = '.')
  if b.contains '.' then
    pyLower ('.' :: (b.reverse.takeWhile (fun c => c != '.')).reverse)
  else []

/-- The dispatcher `CodeValidator.validate_file(filename, content)`. -/
def validate_file (R : RuntimeOracle) (filename content : List Char) :
    PyResult (Bool × List (List Char)) :=
  let ext := splitextExt filename
  if ext ∈ [".js".toList, ".jsx".toList, ".ts".toList, ".tsx".toList] then
    validate_javascript R content
  else if ext = ".py".toList then
    validate_python R content
  else if ext ∈ [".html".toList, ".htm".toList] then
    validate_html content
  else if ext = ".css".toList then
    validate_css content
  else .ok (true, [])

/-- Python `str.endswith` on a single suffix. -/
def endsWithStr (suffixStr s : List Char) : Bool := suffixStr.isSuffixOf s

/-- The suggestion generator `CodeValidator.generate_fix_suggestion`. -/
def generate_fix_suggestion (filename : List Char) (_content : List Char)
    (errors : List (List Char)) : List (List Char) :=
  let s0 : List (List Char) := []
  let s1 :=
    if endsWithStr (".js".toList) filename || endsWithStr (".jsx".toList) filename then
      let a := if errors.any (fun e => pyIn ("Unexpected token".toList) e) then
          s0 ++ ["Check for missing semicolons, parentheses, or brackets".toList] else s0
      let b := if errors.any (fun e => pyIn ("undefined".toList) (pyLower e)) then
          a ++ ["Check for undefined variables or imports".toList] else a
      if errors.any (fun e => pyIn ("import".toList) (pyLower e)) then
        b ++ ["Make sure all imports are properly defined and modules are installed".toList] else b
    else s0
  let s2 :=
    if endsWithStr (".py".toList) filename then
      let a := if errors.any (fun e => pyIn ("IndentationError".toList) e) then
          s1 ++ ["Check for consistent indentation (spaces vs tabs)".toList] else s1
      let b := if errors.any (fun e => pyIn ("NameError".toList) e) then
          a ++ ["Verify all variables are defined before use".toList] else a
      if errors.any (fun e => pyIn ("ImportError".toList) e) then
        b ++ ["Ensure all imported modules are available and correctly spelled".toList] else b
    else s1
  if s2.isEmpty then ["Review the code for syntax errors and typos".toList] else s2

/-- The validation report dict of `validate_project`. -/
structure ValidationReport where
  valid : Bool
  file_count : Nat
  error_count : Nat
  errors : List (List Char × List (List Char))
  warnings : List (List Char)
  fix_suggestions : List (List Char × List (List Char))

/-- The initial report of `validate_project`. -/
def initReport : ValidationReport :=
  { valid := true, file_count := 0, error_count := 0, errors := [],
    warnings := [], fix_suggestions := [] }

/-- Inner file loop of `validate_project` over one category; an exception from
`validate_file` propagates. -/
def projectFoldFiles (R : RuntimeOracle) (category : List Char) :
    List (List Char × List Char) → ValidationReport → PyResult ValidationReport
  | [], rep => .ok rep
  | (fname, content) :: rest, rep =>
    let rep1 := { rep with file_count := rep.file_count + 1 }
    match validate_file R fname content with
    | .exc e => .exc e
    | .ok (success, errs) =>
      if success then projectFoldFiles R category rest rep1
      else
        let key := category ++ ['/'] ++ fname
        let rep2 := { rep1 with
          valid := false,
          error_count := rep1.error_count + errs.length,
          errors := dictInsert rep1.errors key errs,
          fix_suggestions :=
            if errs.length > 0 then
              dictInsert rep1.fix_suggestions key (generate_fix_suggestion fname content errs)
            else rep1.fix_suggestions }
        projectFoldFiles R category rest rep2

/-- Outer category loop of `validate_project`. -/
def projectFoldCats (R : RuntimeOracle) :
    List (List Char × List (List Char × List Char)) → ValidationReport →
    PyResult ValidationReport
  | [], rep => .ok rep
  | (category, filesDict) :: rest, rep =>
    match projectFoldFiles R category filesDict rep with
    | .exc e => .exc e
    | .ok rep' => projectFoldCats R rest rep'

/-- The general warning appended when errors were found. -/
def validationWarning : List Char :=
  "Validation errors detected. Code may not run correctly.".toList

/-- The validator `CodeValidator.validate_project(files)` over a category →
filename → content mapping. -/
def validate_project (R : RuntimeOracle)
    (files : List (List Char × List (List Char × List Char))) :
    PyResult ValidationReport :=
  match projectFoldCats R files initReport with
  | .exc e => .exc e
  | .ok rep =>
    .ok (if rep.valid then rep else { rep with warnings := rep.warnings ++ [validationWarning] })

-- Connection manager, progress tracker and websocket endpoint
-- (src/backend/main.py, ConnectionManager and websocket_endpoint).

/-- Generic dict lookup on an association list (first matching key). -/
def dictGet {α : Type} (m : List (List Char × α)) (k : List Char) : Option α :=
  match m.find? (fun kv => kv.1 == k) with
  | some kv => some kv.2
  | none => none

/-- One log entry as built by `send_log`. -/
structure LogEntry where
  timestamp : List Char
  agent : List Char
  message : List Char
  status : List Char
  progress : Option Nat
deriving DecidableEq

/-- The five progress-tracking stage keys. -/
inductive Stage where
  | planner | backend | frontend | tester | deployment
deriving DecidableEq

/-- Per-job progress dict: stage key → percentage. -/
structure ProgressMap where
  planner : Nat
  backend : Nat
  frontend : Nat
  tester : Nat
  deployment : Nat
deriving DecidableEq

/-- The all-zero progress dict installed on connect. -/
def zeroProgress : ProgressMap :=
  { planner := 0, backend := 0, frontend := 0, tester := 0, deployment := 0 }

/-- Read one stage's value. -/
def getP (p : ProgressMap) : Stage → Nat
  | .planner => p.planner
  | .backend => p.backend
  | .frontend => p.frontend
  | .tester => p.tester
  | .deployment => p.deployment

/-- Write one stage's value. -/
def setP (p : ProgressMap) : Stage → Nat → ProgressMap
  | .planner, v => { p with planner := v }
  | .backend, v => { p with backend := v }
  | .frontend, v => { p with frontend := v }
  | .tester, v => { p with tester := v }
  | .deployment, v => { p with deployment := v }

/-- The role mapper `ConnectionManager._get_agent_key(agent_name)`. -/
def getAgentKey (agent : List Char) : Option Stage :=
  let al := pyLower agent
  if pyIn ("planning".toList) al || pyIn ("architect".toList) al then some .planner
  else if pyIn ("front".toList) al then some .frontend
  else if pyIn ("back".toList) al then some .backend
  else if pyIn ("quality".toList) al || pyIn ("qa".toList) al || pyIn ("test".toList) al then
    some .tester
  else if pyIn ("devops".toList) al || pyIn ("deploy".toList) al then some .deployment
  else none

/-- Per-role set-to-100 chain of the crew-status and task-completion branches. -/
def roleSet100 (msg : List Char) (p : ProgressMap) : ProgressMap :=
  if pyIn ("Planning Architect".toList) msg then setP p .planner 100
  else if pyIn ("Backend Engineer".toList) msg then setP p .backend 100
  else if pyIn ("Frontend Developer".toList) msg then setP p .frontend 100
  else if pyIn ("Quality".toList) msg || pyIn ("QA".toList) msg then setP p .tester 100
  else if pyIn ("DevOps".toList) msg then setP p .deployment 100
  else p

/-- Per-role raise-to-50 chain of the crew-in-progress branch. -/
def roleMax50 (msg : List Char) (p : ProgressMap) : ProgressMap :=
  if pyIn ("Planning Architect".toList) msg then setP p .planner (max (getP p .planner) 50)
  else if pyIn ("Backend Engineer".toList) msg then setP p .backend (max (getP p .backend) 50)
  else if pyIn ("Frontend Developer".toList) msg then setP p .frontend (max (getP p .frontend) 50)
  else if pyIn ("Quality".toList) msg || pyIn ("QA".toList) msg then
    setP p .tester (max (getP p .tester) 50)
  else if pyIn ("DevOps".toList) msg then setP p .deployment (max (getP p .deployment) 50)
  else p

/-- The progress update of `ConnectionManager.send_log` (lines 101-164) for a
resolved agent key: a completed status forces 100; a running status applies
keyword floors via max, the crew and task-completion message branches, or the
generic small increment `min(95, current + 5)`; other statuses leave progress
unchanged. -/
def updateProgress (p : ProgressMap) (key : Stage) (message status : List Char) :
    ProgressMap :=
  if status = "completed".toList then setP p key 100
  else if status = "running".toList then
    let ml := pyLower message
    let cur := getP p key
    if pyIn ("started".toList) ml || pyIn ("initializing".toList) ml then setP p key (max cur 10)
    else if pyIn ("thinking".toList) ml then setP p key (max cur 30)
    else if pyIn ("executing".toList) ml then setP p key (max cur 50)
    else if pyIn ("generating".toList) ml || pyIn ("creating".toList) ml then setP p key (max cur 70)
    else if pyIn ("finalizing".toList) ml || pyIn ("reviewing".toList) ml then setP p key (max cur 90)
    else if pyIn ("🚀 Crew:".toList) message then
      if pyIn ("Status: ✅".toList) message then roleSet100 message p
      else roleMax50 message p
    else if pyIn ("Task Completion".toList) message then roleSet100 message p
    else setP p key (min 95 (cur + 5))
  else p

/-- State of the `ConnectionManager`: attached websockets (as the set of job
ids), per-job logs, per-job progress. -/
structure ConnManager where
  active_connections : List (List Char)
  job_logs : List (List Char × List LogEntry)
  agent_progress : List (List Char × ProgressMap)

/-- Messages pushed over a websocket. -/
inductive WsMessage where
  | logMsg : LogEntry → WsMessage
  | progressMsg : ProgressMap → WsMessage
deriving DecidableEq

/-- The method `ConnectionManager.connect(websocket, job_id)`: registers the
socket, and resets the job's log list to empty and its progress to all zeros. -/
def connect (m : ConnManager) (job : List Char) : ConnManager :=
  { active_connections :=
      if job ∈ m.active_connections then m.active_connections
      else m.active_connections ++ [job],
    job_logs := dictInsert m.job_logs job [],
    agent_progress := dictInsert m.agent_progress job zeroProgress }

/-- The method `ConnectionManager.get_logs(job_id)`. -/
def get_logs (m : ConnManager) (job : List Char) : List LogEntry :=
  match dictGet m.job_logs job with
  | some l => l
  | none => []

/-- The method `ConnectionManager.send_log(job_id, agent, message, status)`:
updates progress when the agent resolves to a stage key and the job has a
progress dict, appends the log entry, and pushes the entry followed by a
progress snapshot when a socket is attached.  The wall-clock timestamp is a
parameter.  Returns the new state and the pushed messages. -/
def send_log (m : ConnManager) (job agent message status ts : List Char) :
    ConnManager × List WsMessage :=
  let keyOpt := getAgentKey agent
  let m1 : ConnManager :=
    match keyOpt, dictGet m.agent_progress job with
    | some key, some p =>
      { m with agent_progress :=
          dictInsert m.agent_progress job (updateProgress p key message status) }
    | _, _ => m
  let entry : LogEntry :=
    { timestamp := ts, agent := agent, message := message, status := status,
      progress :=
        match keyOpt, dictGet m1.agent_progress job with
        | some key, some p => some (getP p key)
        | _, _ => none }
  let logs0 := match dictGet m1.job_logs job with
    | some l => l
    | none => []
  let m2 := { m1 with job_logs := dictInsert m1.job_logs job (logs0 ++ [entry]) }
  let pushed :=
    if job ∈ m2.active_connections then
      [WsMessage.logMsg entry] ++
        (match dictGet m2.agent_progress job with
         | some p => [WsMessage.progressMsg p]
         | none => [])
    else []
  (m2, pushed)

/-- The connection phase of `websocket_endpoint(websocket, job_id)` (lines
835-849): `manager.connect`, then the initial progress snapshot, then the
replay of the logs as read after connecting.  Returns the new state and the
replayed messages. -/
def websocketConnectReplay (m : ConnManager) (job : List Char) :
    ConnManager × List WsMessage :=
  let m1 := connect m job
  let initialProgress :=
    match dictGet m1.agent_progress job with
    | some p => [WsMessage.progressMsg p]
    | none => []
  let replayedLogs := (get_logs m1 job).map WsMessage.logMsg
  (m1, initialProgress ++ replayedLogs)

-- Jobs store and its read endpoints (src/backend/main.py, jobs dict,
-- get_job, get_job_logs).

/-- One record of the module-level `jobs` dict. -/
structure JobRecord where
  job_id : Option (List Char)
  status : List Char
  results : Option (List (List Char × PyVal))
  error : Option (List Char)
deriving Inhabited

/-- Key "processed_code". -/
def strProcessedCode : List Char := "processed_code".toList

/-- Conversion of a normalizer result to the stored value. -/
def valOfExtract : ExtractResult → PyVal
  | .files m => .pyDict m
  | .text t => .pyStr t
  | .raised _ => .pyNone

/-- The record transformation performed by the read endpoint
`GET /api/jobs/{job_id}` (lines 694-714): with truthy results, copy
processed_code over code when present, else cache code extracted from
raw_output when code is absent; the mutation is applied to the stored record
itself.  An exception from the normalizer propagates; `none` means the
normalizer fuel ran out. -/
def getJobTransform (J : List Char → Option PyVal) (fuel : Nat)
    (jr : JobRecord) : Option (PyResult JobRecord) :=
  match jr.results with
  | none => some (.ok jr)
  | some res =>
    if res.isEmpty then some (.ok jr)
    else if (dictGet res strProcessedCode).isSome then
      match dictGet res strProcessedCode with
      | some pv => some (.ok { jr with results := some (dictInsert res strCode pv) })
      | none => some (.ok jr)
    else
      match dictGet res strRawOutput with
      | some rawv =>
        if (dictGet res strCode).isNone then
          match extract_code_from_output J fuel rawv with
          | none => none
          | some (.raised e) => some (.exc e)
          | some r => some (.ok { jr with results := some (dictInsert res strCode (valOfExtract r)) })
        else some (.ok jr)
      | none => some (.ok jr)

/-- The endpoint `GET /api/jobs/{job_id}` over the store: 404 (`.ok` with no
record) for an unknown id, else the transformed record is both returned and
written back into the store (it is the same dict object). -/
def get_job (J : List Char → Option PyVal) (fuel : Nat)
    (store : List (List Char × JobRecord)) (jid : List Char) :
    Option (PyResult (Option JobRecord) × List (List Char × JobRecord)) :=
  match dictGet store jid with
  | none => some (.ok none, store)
  | some jr =>
    match getJobTransform J fuel jr with
    | none => none
    | some (.exc e) => some (.exc e, store)
    | some (.ok jr') => some (.ok (some jr'), dictInsert store jid jr')

/-- The endpoint `GET /api/jobs/{job_id}/logs`: a pure read of the manager's
log list; the store and manager are unchanged. -/
def get_job_logs (m : ConnManager) (job : List Char) :
    List LogEntry × ConnManager :=
  (get_logs m job, m)

-- Orchestrator error paths (src/backend/main.py, process_app_request).

/-- Outcome of the external requirement analyzer: structured requirements with
an enhanced prompt, or an exception (recovered with the raw prompt). -/
inductive AnalyzerOutcome where
  | analyzed : PyVal → List Char → AnalyzerOutcome
  | failed : List Char → AnalyzerOutcome

/-- Outcome of the agent-executor run `crew.kickoff()`: a result value, an
`APIConnectionError` with its message, or any other exception. -/
inductive CrewOutcome where
  | ok : PyVal → CrewOutcome
  | apiConnError : List Char → CrewOutcome
  | otherError : List Char → CrewOutcome

/-- One log line as (agent, message, status). -/
structure LogLine where
  agent : List Char
  message : List Char
  status : List Char
deriving DecidableEq

/-- The timeout log line of the APIConnectionError handler. -/
def timeoutErrLog (timeoutVal : List Char) : LogLine :=
  { agent := "System".toList,
    message := "❌ Error: LLM connection timed out after ".toList ++ timeoutVal ++
      " seconds. The task is too complex for the current timeout setting.".toList,
    status := "failed".toList }

/-- The timeout remediation-hint log line of the APIConnectionError handler. -/
def timeoutHintLog : LogLine :=
  { agent := "System".toList,
    message := "💡 Suggestion: Try running with USE_MOCK_DATA=true environment variable for testing, or increase OLLAMA_TIMEOUT in .env file.".toList,
    status := "failed".toList }

/-- The generic connection-error log line. -/
def connErrLog (msg : List Char) : LogLine :=
  { agent := "System".toList,
    message := "❌ Error: Connection issue with LLM. Details: ".toList ++ msg,
    status := "failed".toList }

/-- The generic crew-error log line. -/
def crewErrLog (msg : List Char) : LogLine :=
  { agent := "System".toList,
    message := "❌ Error: ".toList ++ msg,
    status := "failed".toList }

/-- Control-flow skeleton of the background task `process_app_request(job_id,
prompt)` in real (non-mock) mode, from the crew run onward; the requirement
analysis phase precedes it and is never fatal.  Parameters abstract the
ambient computations that cannot raise into the modelled paths: the assembled
results of a successful crew run, and whether the post-processing block (which
contains the completed-status assignment) runs to completion.  Returns the
final job record and the log lines of the modelled paths. -/
def process_app_request (jid : List Char) (analyzerOut : AnalyzerOutcome)
    (crewOut : CrewOutcome) (assembledResults : List (List Char × PyVal))
    (postProcessOk : Bool) (timeoutVal : List Char) :
    JobRecord × List LogLine :=
  let base : JobRecord :=
    { job_id := some jid, status := "analyzing".toList, results := none, error := none }
  let afterAnalysis : JobRecord :=
    match analyzerOut with
    | .analyzed _ _ => { base with status := "running".toList }
    | .failed _ => { base with status := "running".toList }
  match crewOut with
  | .apiConnError msg =>
    let logs :=
      if pyIn ("timeout".toList) (pyLower msg) then [timeoutErrLog timeoutVal, timeoutHintLog]
      else [connErrLog msg]
    ({ afterAnalysis with
        status := "failed".toList
        error := some ("LLM connection error: ".toList ++ msg) }, logs)
  | .otherError msg =>
    ({ afterAnalysis with status := "failed".toList, error := some msg }, [crewErrLog msg])
  | .ok _ =>
    if postProcessOk then
      ({ job_id := some jid, status := "completed".toList,
         results := some assembledResults, error := none }, [])
    else
      (afterAnalysis, [])

-- Auxiliary predicates and concrete inputs used by the claim theorems.

/-- The `json.loads` oracle on which every parse raises (no claim below
depends on successful JSON parses; theorems that quantify over the oracle say
so). -/
def noParse : List Char → Option PyVal := fun _ => none

/-- Values free of attribute-bearing objects, recursively. -/
inductive ObjFree : PyVal → Prop
  | noneVal : ObjFree .pyNone
  | strVal (s : List Char) : ObjFree (.pyStr s)
  | otherVal (b : Bool) (r : List Char) : ObjFree (.pyOther b r)
  | dictVal (d : List (List Char × PyVal))
      (h : ∀ kv, kv ∈ d → ObjFree kv.2) : ObjFree (.pyDict d)
  | listVal (l : List PyVal) (h : ∀ x, x ∈ l → ObjFree x) : ObjFree (.pyList l)

/-- Object-freeness of a normalizer call: the value, or every pending item. -/
def CallObjFree : ExtractCall → Prop
  | .val v => ObjFree v
  | .loop _ pending _ => ∀ x, x ∈ pending → ObjFree x

/-- A value that has passed through the placeholder repairer for filename `f`:
it is the repair of some source text. -/
def repairedStr (f : List Char) (v : PyVal) : Prop :=
  ∃ src, v = .pyStr (fix_incomplete_code src f)

/-- Total number of files across all categories of a validate_project input. -/
def totalFiles (files : List (List Char × List (List Char × List Char))) : Nat :=
  (files.map (fun c => c.2.length)).sum

/-- The stored code value of a job record, when it is a string. -/
def codeStrOf (jr : JobRecord) : Option (List Char) :=
  match jr.results with
  | some r =>
    match dictGet r strCode with
    | some (.pyStr s) => some s
    | _ => none
  | none => none

/-- A log entry predating the websocket connection (claim C1). -/
def c1Entry : LogEntry :=
  { timestamp := "t0".toList, agent := "System".toList,
    message := "Starting AI agents".toList, status := "running".toList,
    progress := none }

/-- The job id of the C1 scenario. -/
def c1Job : List Char := "job1".toList

/-- A manager state holding one pre-connection log entry for the job. -/
def c1Manager : ConnManager :=
  { active_connections := [], job_logs := [(c1Job, [c1Entry])],
    agent_progress := [] }

/-- A markdown string with one fenced block whose body contains a placeholder. -/
def c2Markdown : List Char := "```python\nx = ...\n```".toList

/-- The body of that block after stripping. -/
def c2Body : List Char := "x = ...".toList

/-- An agent result exposing the markdown through its `code` attribute. -/
def c2Obj : PyVal := .pyObj (some (.pyStr c2Markdown)) none ("CrewOutput".toList)

/-- A Python source with a syntax error (claim C3). -/
def c3BadPy : List Char := "def f(:".toList

/-- A runtime oracle under which compiling `c3BadPy` raises a SyntaxError and
the linters are absent. -/
def c3Oracle : RuntimeOracle :=
  { pyCompile := fun c => if c = c3BadPy then some (some 1, "invalid syntax".toList) else none,
    pylint := fun _ => .failed ("pylint unavailable".toList),
    eslint := fun _ => .failed ("npx unavailable".toList),
    nodeCheck := fun _ => .completed 0 [] [] }

/-- An agent result whose truthy `code` attribute is neither dict nor string. -/
def c4Obj : PyVal := .pyObj (some (.pyOther true ("1".toList))) none ("CrewOutput".toList)

/-- An agent result whose truthy `raw_output` attribute is not a string. -/
def c4RaisingObj : PyVal :=
  .pyObj none (some (.pyList [.pyOther true ("1".toList)])) ("CrewOutput".toList)

/-- An object-free file mapping input. -/
def c4GoodDict : PyVal := .pyDict [("a.py".toList, .pyStr ("x = 1".toList))]

/-- An object-free dict whose `code` key holds a dict with a non-string
value. -/
def c4CodeDict : PyVal :=
  .pyDict [(strCode, .pyDict [("f".toList, .pyNone)])]

/-- A manager state with a progress dict for job "j" (claim C7). -/
def c7Manager : ConnManager :=
  { active_connections := [], job_logs := [("j".toList, [])],
    agent_progress := [("j".toList, zeroProgress)] }

/-- The manager state after a completed log for the backend stage. -/
def c7After1 : ConnManager :=
  (send_log c7Manager ("j".toList) ("Backend Engineer".toList)
    ("task done".toList) ("completed".toList) ("t1".toList)).1

/-- The manager state after a subsequent generic running log. -/
def c7After2 : ConnManager :=
  (send_log c7After1 ("j".toList) ("Backend Engineer".toList)
    ("working hard".toList) ("running".toList) ("t2".toList)).1

/-- The role mapper of `process_app_request.callback_handler` (lines 911-922):
containment tests on the raw role name. -/
def callbackAgentKey (agent_role : List Char) : Option Stage :=
  if pyIn ("Planning Architect".toList) agent_role then some .planner
  else if pyIn ("Backend Engineer".toList) agent_role then some .backend
  else if pyIn ("Frontend Developer".toList) agent_role then some .frontend
  else if pyIn ("Quality Assurance".toList) agent_role ||
      pyIn ("QA Engineer".toList) agent_role then some .tester
  else if pyIn ("DevOps Engineer".toList) agent_role then some .deployment
  else none

/-- The direct progress assignment in the callback's scripted step loop
(lines 957-959): `manager.agent_progress[job_id][agent_key] = progress`,
guarded by the job having a progress dict and the role key being resolved. -/
def callbackStepAssign (m : ConnManager) (job : List Char)
    (keyOpt : Option Stage) (v : Nat) : ConnManager :=
  match keyOpt, dictGet m.agent_progress job with
  | some key, some p =>
    { m with agent_progress := dictInsert m.agent_progress job (setP p key v) }
  | _, _ => m

/-- The scripted step values of the callback's progress loop (lines 948-954). -/
def progressStepVals : List Nat := [30, 40, 50, 70, 90]

/-- The callback's fixed instruction message (line 930). -/
def c7Instruction : List Char :=
  ("Generating complete, functional code with no placeholders or " ++
    "\x27...\x27 ellipses. All code will be fully executable.").toList

/-- The manager state after the callback's start message for the backend. -/
def c7CbMgr1 : ConnManager :=
  (send_log c7Manager ("j".toList) ("Backend Engineer".toList)
    ("Started working on: task".toList) ("running".toList) ("t1".toList)).1

/-- The manager state after the callback's instruction message. -/
def c7CbMgr2 : ConnManager :=
  (send_log c7CbMgr1 ("j".toList) ("Backend Engineer".toList)
    c7Instruction ("running".toList) ("t2".toList)).1

/-- The manager state after the first scripted step assignment. -/
def c7CbMgr3 : ConnManager :=
  callbackStepAssign c7CbMgr2 ("j".toList)
    (callbackAgentKey ("Backend Engineer".toList)) 30

/-- The job id of the C9 scenario. -/
def c9Jid : List Char := "J".toList

/-- Results holding distinct processed_code and code values. -/
def c9Results : List (List Char × PyVal) :=
  [(strProcessedCode, PyVal.pyStr ("NEW".toList)), (strCode, PyVal.pyStr ("OLD".toList))]

/-- A completed job record with those results. -/
def c9Record : JobRecord :=
  { job_id := some c9Jid, status := "completed".toList, results := some c9Results,
    error := none }

/-- The results dict after the get_job mutation. -/
def c9ResultsAfter : List (List Char × PyVal) :=
  [(strProcessedCode, PyVal.pyStr ("NEW".toList)), (strCode, PyVal.pyStr ("NEW".toList))]

/-- The record as mutated by the get_job endpoint. -/
def c9After : JobRecord :=
  { c9Record with results := some c9ResultsAfter }

/-- The store holding the C9 record. -/
def c9Store : List (List Char × JobRecord) := [(c9Jid, c9Record)]

/-- A runtime oracle under which everything compiles and the linters are
absent (claim C10 witness). -/
def c10Oracle : RuntimeOracle :=
  { pyCompile := fun _ => none,
    pylint := fun _ => .failed ("pylint unavailable".toList),
    eslint := fun _ => .failed ("npx unavailable".toList),
    nodeCheck := fun _ => .completed 0 [] [] }

/-- A one-file project input. -/
def c10Files : List (List Char × List (List Char × List Char)) :=
  [("backend".toList, [("notes.txt".toList, "hello".toList)])]

/-- The report validate_project produces for it. -/
def c10Report : ValidationReport :=
  { valid := true, file_count := 1, error_count := 0, errors := [],
    warnings := [], fix_suggestions := [] }

/-- A timeout-classified connection-error message (claim C8 witness). -/
def c8Msg : List Char := "Request timeout after 300 seconds".toList

/-- The tail of the def stub's fixed middle segment, after the parenthesis. -/
def defSegTail : List Char := "):\n    \"\"\"Implementation for ".toList

/-- The closing fixed segment of the def stub. -/
def defSegEnd : List Char := "\"\"\"\n    pass\n\n".toList

/-- The fixed middle segment of the def stub (parenthesis, colon, docstring
opening). -/
def defSegMid : List Char := "():\n    \"\"\"Implementation for ".toList

/-- Context invariant of the def-scan output: every suffix where the def regex
matches is immediately preceded by the stub's docstring segment and a
parenthesis-free fragment of a captured name. -/
def StubStruct (u : List Char) : Prop :=
  ∀ pre T r, u = pre ++ T → defMatchAt T = some r →
    ∃ E0 gp, (∀ c ∈ gp, (c != '(') = true) ∧ pre = E0 ++ (defSegMid ++ gp)

/-- Tail of `defMatchAt` from the `"):"` literal on (phases after the
parameter list): consumes `"):"`, whitespace, `"..."`, whitespace. -/
def defTail5 (s4 : List Char) : Option (List Char) := do
  let s5 ← eatLit strRParenColon s4
  let s6 := s5.dropWhile pyIsSpace
  let s7 ← eatLit strDots s6
  pure (s7.dropWhile pyIsSpace)

/-- Tail of `defMatchAt` from the `"("` literal on: consumes `"("`, the
parameter run, then `defTail5`. -/
def defTail3 (s2 : List Char) : Option (List Char) :=
  (eatLit strLParen s2).bind fun s3 => defTail5 (s3.dropWhile (fun c => c != ')'))

-- Lemmas about the string model.

/-- Boolean prefix test agrees with the existence of a completing suffix. -/
theorem isPre_iff (p s : List Char) : p.isPrefixOf s = true ↔ ∃ t, s = p ++ t := by
  induction p generalizing s with
  | nil => simp [List.isPrefixOf]
  | cons a p' ih =>
    cases s with
    | nil => simp [List.isPrefixOf]
    | cons b s' =>
      simp only [List.isPrefixOf, Bool.and_eq_true, beq_iff_eq, ih, List.cons_append,
        List.cons.injEq]
      constructor
      · rintro ⟨rfl, t, rfl⟩
        exact ⟨t, rfl, rfl⟩
      · rintro ⟨t, rfl, rfl⟩
        exact ⟨rfl, t, rfl⟩

/-- Occurrence in the empty string forces an empty pattern. -/
theorem occursIn_nil (p : List Char) : occursIn p [] ↔ p = [] := by
  constructor
  · rintro ⟨u, v, h⟩
    have h' := h.symm
    simp only [List.append_eq_nil] at h'
    exact h'.1.2
  · rintro rfl
    exact ⟨[], [], rfl⟩

/-- Occurrence in a cons: at the head, or in the tail. -/
theorem occursIn_cons (p : List Char) (c : Char) (t : List Char) :
    occursIn p (c :: t) ↔ (∃ v, c :: t = p ++ v) ∨ occursIn p t := by
  constructor
  · rintro ⟨u, v, h⟩
    cases u with
    | nil => exact Or.inl ⟨v, by simpa using h⟩
    | cons x u' =>
      simp only [List.cons_append, List.cons.injEq, List.append_assoc] at h
      exact Or.inr ⟨u', v, by simp [h.2]⟩
  · rintro (⟨v, hv⟩ | ⟨u, v, h⟩)
    · exact ⟨[], v, by simpa using hv⟩
    · exact ⟨c :: u, v, by simp [h]⟩

/-- The Python `in` operator decides occurrence. -/
theorem pyIn_iff (p hay : List Char) : pyIn p hay = true ↔ occursIn p hay := by
  induction hay with
  | nil => simp [pyIn, occursIn_nil, List.isEmpty_iff]
  | cons c t ih =>
    simp only [pyIn, Bool.or_eq_true, ih, occursIn_cons, isPre_iff]

/-- Occurrence is transitive. -/
theorem occursIn_trans {p q r : List Char} (h1 : occursIn p q) (h2 : occursIn q r) :
    occursIn p r := by
  obtain ⟨u1, v1, rfl⟩ := h1
  obtain ⟨u2, v2, rfl⟩ := h2
  exact ⟨u2 ++ u1, v1 ++ v2, by simp⟩

/-- Occurrence in a left part. -/
theorem occursIn_append_left {p a : List Char} (b : List Char) (h : occursIn p a) :
    occursIn p (a ++ b) := by
  obtain ⟨u, v, rfl⟩ := h
  exact ⟨u, v ++ b, by simp⟩

/-- Occurrence in a right part. -/
theorem occursIn_append_right {p b : List Char} (a : List Char) (h : occursIn p b) :
    occursIn p (a ++ b) := by
  obtain ⟨u, v, rfl⟩ := h
  exact ⟨a ++ u, v, by simp⟩

/-- Splitting an occurrence in a concatenation: it lies in the left part, in
the right part, or straddles the boundary, splitting the pattern into a
nonempty suffix of the left part and a nonempty prefix of the right part. -/
theorem occursIn_append (p a b : List Char) (h : occursIn p (a ++ b)) :
    occursIn p a ∨ occursIn p b ∨
      ∃ p1 p2, p = p1 ++ p2 ∧ p1 ≠ [] ∧ p2 ≠ [] ∧
        (∃ u, a = u ++ p1) ∧ (∃ v, b = p2 ++ v) := by
  obtain ⟨u, v, h⟩ := h
  rw [List.append_assoc] at h
  rcases List.append_eq_append_iff.mp h with ⟨w, hw1, hw2⟩ | ⟨w, hw1, hw2⟩
  · exact Or.inr (Or.inl ⟨w, v, by rw [hw2, List.append_assoc]⟩)
  · rcases List.append_eq_append_iff.mp hw2.symm with ⟨x, hx1, hx2⟩ | ⟨x, hx1, hx2⟩
    · rcases x with _ | ⟨xc, xs⟩
      · exact Or.inl ⟨u, [], by simp [hw1, hx1]⟩
      · rcases w with _ | ⟨wc, ws⟩
        · exact Or.inr (Or.inl ⟨[], v, by simpa [hx1] using hx2⟩)
        · refine Or.inr (Or.inr ⟨wc :: ws, xc :: xs, hx1, by simp, by simp, ⟨u, hw1⟩, ⟨v, hx2⟩⟩)
    · exact Or.inl ⟨u, x, by rw [hw1, hx1, List.append_assoc]⟩

/-- A character of an occurring pattern is a character of the string. -/
theorem occursIn_head_mem {c : Char} {p' s : List Char} (h : occursIn (c :: p') s) :
    c ∈ s := by
  obtain ⟨u, v, rfl⟩ := h
  simp

/-- Replacement of an absent pattern is the identity. -/
theorem replaceAll_id {pat rep : List Char} :
    ∀ {s : List Char}, ¬ occursIn pat s → replaceAll pat rep s = s := by
  intro s
  induction s with
  | nil => intro _; rw [replaceAll]
  | cons c rest ih =>
    intro h
    rw [replaceAll, dif_neg, ih]
    · intro hocc
      exact h ((occursIn_cons pat c rest).mpr (Or.inr hocc))
    · rintro ⟨-, hpre⟩
      obtain ⟨t, ht⟩ := (isPre_iff pat (c :: rest)).mp hpre
      exact h ⟨[], t, by simpa using ht⟩

-- Lemmas for claim C5: the final generic pass removes every ellipsis token.

/-- Unfolding of the leading-dot count on a cons. -/
theorem lead_cons (c : Char) (l : List Char) :
    leadDots (c :: l) = if c = '.' then leadDots l + 1 else 0 := by
  simp only [leadDots, List.takeWhile_cons, decide_eq_true_eq]
  split_ifs with h <;> simp

/-- A string with at least two leading dots starts with two dots. -/
theorem lead_ge_two {l : List Char} (h : 2 ≤ leadDots l) :
    ∃ l', l = '.' :: '.' :: l' := by
  cases l with
  | nil => simp [leadDots] at h
  | cons a l1 =>
    rw [lead_cons] at h
    by_cases ha : a = '.'
    · rw [if_pos ha] at h
      cases l1 with
      | nil => simp [leadDots] at h
      | cons b l2 =>
        rw [lead_cons] at h
        by_cases hb : b = '.'
        · exact ⟨l2, by rw [ha, hb]⟩
        · rw [if_neg hb] at h
          omega
    · rw [if_neg ha] at h
      omega

/-- Replacing every ellipsis token leaves no ellipsis token and at most two
leading dots (joint induction invariant). -/
theorem replace_dots_aux :
    ∀ (n : Nat) (s : List Char), s.length ≤ n →
      ¬ occursIn strDots (replaceAll strDots strImplProvided s) ∧
      leadDots (replaceAll strDots strImplProvided s) ≤ min (leadDots s) 2 := by
  intro n
  induction n with
  | zero =>
    intro s hs
    have hnil : s = [] := List.eq_nil_of_length_eq_zero (Nat.le_zero.mp hs)
    subst hnil
    rw [replaceAll]
    refine ⟨fun h => ?_, by simp [leadDots]⟩
    rw [occursIn_nil] at h
    exact absurd h (by decide)
  | succ n ih =>
    intro s hs
    cases s with
    | nil =>
      rw [replaceAll]
      refine ⟨fun h => ?_, by simp [leadDots]⟩
      rw [occursIn_nil] at h
      exact absurd h (by decide)
    | cons c rest =>
      rw [replaceAll]
      by_cases hpre : strDots.isPrefixOf (c :: rest) = true
      · rw [dif_pos ⟨by decide, hpre⟩]
        obtain ⟨t, ht⟩ := (isPre_iff _ _).mp hpre
        have hdrop : (c :: rest).drop strDots.length = t := by
          rw [ht, List.drop_left]
        have hlen : t.length ≤ n := by
          have hl := congrArg List.length ht
          simp only [List.length_cons, List.length_append] at hl
          have hd3 : strDots.length = 3 := by decide
          rw [hd3] at hl
          simp only [List.length_cons] at hs
          omega
        obtain ⟨ih1, ih2⟩ := ih t hlen
        rw [hdrop]
        constructor
        · intro hocc
          rcases occursIn_append _ _ _ hocc with h1 | h2 | hstr
          · have hm : ('.' : Char) ∈ strImplProvided :=
              occursIn_head_mem (show occursIn ('.' :: ['.', '.']) strImplProvided from h1)
            exact absurd hm (by decide)
          · exact ih1 h2
          · obtain ⟨p1, p2, hp, hp1, hp2, ⟨u, hu⟩, -⟩ := hstr
            obtain ⟨x, hx⟩ := List.exists_mem_of_ne_nil p1 hp1
            have hxdots : x ∈ strDots := by
              rw [hp]
              exact List.mem_append_left _ hx
            have hxdot : x = '.' := by
              rw [show strDots = ['.', '.', '.'] from rfl] at hxdots
              simpa using hxdots
            have hxin : x ∈ strImplProvided := by
              rw [hu]
              exact List.mem_append_right _ hx
            rw [hxdot] at hxin
            exact absurd hxin (by decide)
        · have h0 : leadDots (strImplProvided ++ replaceAll strDots strImplProvided t) = 0 := by
            rw [show strImplProvided = '/' :: ("* Implementation provided */".toList) from rfl]
            rw [List.cons_append, lead_cons, if_neg (by decide)]
          rw [h0]
          simp
      · rw [dif_neg (by rintro ⟨-, hp⟩; exact hpre hp)]
        have hrest : rest.length ≤ n := by
          simp only [List.length_cons] at hs
          omega
        obtain ⟨ih1, ih2⟩ := ih rest hrest
        have hlr : c = '.' → leadDots rest ≤ 1 := by
          intro hc
          by_contra hgt
          push_neg at hgt
          obtain ⟨l', rfl⟩ := lead_ge_two hgt
          apply hpre
          rw [hc]
          exact (isPre_iff _ _).mpr ⟨l', rfl⟩
        constructor
        · intro hocc
          rcases (occursIn_cons _ _ _).mp hocc with ⟨v, hv⟩ | htail
          · have hv' : c :: replaceAll strDots strImplProvided rest = '.' :: '.' :: '.' :: v := hv
            obtain ⟨hc, hfr⟩ :
                c = '.' ∧ replaceAll strDots strImplProvided rest = '.' :: '.' :: v := by
              simpa using hv'
            have hge : 2 ≤ leadDots (replaceAll strDots strImplProvided rest) := by
              rw [hfr, lead_cons, if_pos rfl, lead_cons, if_pos rfl]
              omega
            have hA := le_trans ih2 (min_le_left _ _)
            have hB := hlr hc
            omega
          · exact ih1 htail
        · by_cases hc : c = '.'
          · subst hc
            rw [lead_cons, if_pos rfl, lead_cons, if_pos rfl]
            have hA := le_trans ih2 (min_le_left _ _)
            have hB := le_trans ih2 (min_le_right _ _)
            have hC := hlr rfl
            refine le_min_iff.mpr ⟨?_, ?_⟩
            · omega
            · omega
          · rw [lead_cons, if_neg hc]
            simp

/-- No ellipsis token survives the generic ellipsis replacement. -/
theorem replace_dots_clean (s : List Char) :
    ¬ occursIn strDots (replaceAll strDots strImplProvided s) :=
  (replace_dots_aux s.length s le_rfl).1

/-- The ellipsis token occurs in the bracketed-ellipsis token. -/
theorem dots_occursIn_bracket : occursIn strDots strBracketDots :=
  ⟨['['], [']'], by decide⟩

/-- A string without the ellipsis token contains neither placeholder token. -/
theorem no_dots_no_tokens {x : List Char} (hx : ¬ occursIn strDots x) :
    pyIn strDots x = false ∧ pyIn strBracketDots x = false := by
  constructor
  · rw [Bool.eq_false_iff]
    intro h
    exact hx ((pyIn_iff _ _).mp h)
  · rw [Bool.eq_false_iff]
    intro h
    exact hx (occursIn_trans dots_occursIn_bracket ((pyIn_iff _ _).mp h))

/-- The bracketed-ellipsis pass after the ellipsis pass is the identity. -/
theorem bracket_pass_id (x : List Char) :
    replaceAll strBracketDots strCompleteImpl (replaceAll strDots strImplProvided x) =
      replaceAll strDots strImplProvided x :=
  replaceAll_id (fun hb => replace_dots_clean x (occursIn_trans dots_occursIn_bracket hb))

/-- The two generic passes leave neither placeholder token. -/
theorem pipeline_clean (x : List Char) :
    pyIn strDots
        (replaceAll strBracketDots strCompleteImpl (replaceAll strDots strImplProvided x)) = false ∧
      pyIn strBracketDots
        (replaceAll strBracketDots strCompleteImpl (replaceAll strDots strImplProvided x)) = false := by
  rw [bracket_pass_id]
  exact no_dots_no_tokens (replace_dots_clean x)

/-- C5 (confirmed): for every input string and filename, the repairer's output
contains no ellipsis token "..." and no bracketed-ellipsis token "[...]": the
final generic pass replaces every remaining occurrence. -/
theorem C5_repair_leaves_no_placeholder (code filename : List Char) :
    pyIn strDots (fix_incomplete_code code filename) = false ∧
    pyIn strBracketDots (fix_incomplete_code code filename) = false := by
  by_cases h1 : code = []
  · unfold fix_incomplete_code
    rw [if_pos h1]
    subst h1
    exact ⟨rfl, rfl⟩
  · by_cases h2 : hasPlaceholders code = true
    · unfold fix_incomplete_code
      rw [if_neg h1, if_neg (by simpa using h2)]
      exact pipeline_clean _
    · unfold fix_incomplete_code
      rw [if_neg h1, if_pos (by simpa using h2)]
      simp only [hasPlaceholders, Bool.or_eq_true, not_or, Bool.not_eq_true] at h2
      exact ⟨h2.1.1, h2.1.2⟩

/-- C1 (code_bug): on connection of a live subscriber, `ConnectionManager.connect`
resets the job's stored log history to empty and its progress to zeros, so the
endpoint's replay sends only the freshly-reset progress snapshot and no log
entries — although a log entry had been appended before the connection. -/
theorem C1_connect_wipes_history :
    get_logs c1Manager c1Job = [c1Entry] ∧
    (websocketConnectReplay c1Manager c1Job).2 = [WsMessage.progressMsg zeroProgress] ∧
    (websocketConnectReplay c1Manager c1Job).1.job_logs = [(c1Job, [])] :=
  ⟨rfl, rfl, rfl⟩

/-- C3 (code_bug): a file whose compilation raises a SyntaxError makes
`validate_python` — and through it `validate_project` — raise
UnboundLocalError from the `finally` cleanup (the `temp_file` local is
assigned only after the `compile` call), instead of contributing the prepared
syntax-error message to the result. -/
theorem C3_validator_raises_on_syntax_error :
    validate_python c3Oracle c3BadPy = .exc ("UnboundLocalError".toList) ∧
    validate_project c3Oracle [("backend".toList, [("main.py".toList, c3BadPy)])] =
      .exc ("UnboundLocalError".toList) :=
  ⟨rfl, rfl⟩

/-- C7 (counterexample): both lowering paths realized concretely.  After the
backend stage reaches 100 through an explicit completion event, a later
generic running log applies `min(95, current + 5)` and lowers the stored value
to 95; and in the callback's scripted loop, its own instruction message floors
the backend stage to 70, after which the first scripted step directly assigns
30. -/
theorem C7_progress_lowering_both_paths :
    (dictGet c7After1.agent_progress ("j".toList)).map (fun p => p.backend) = some 100 ∧
    (dictGet c7After2.agent_progress ("j".toList)).map (fun p => p.backend) = some 95 ∧
    (dictGet c7CbMgr2.agent_progress ("j".toList)).map (fun p => p.backend) = some 70 ∧
    (dictGet c7CbMgr3.agent_progress ("j".toList)).map (fun p => p.backend) = some 30 :=
  ⟨rfl, rfl, rfl, rfl⟩

/-- C9 (counterexample): the read endpoint `GET /api/jobs/{job_id}` mutates
the stored record: with processed_code present it overwrites the stored code
value, so the stored job record changes from holding code "OLD" to holding
code "NEW". -/
theorem C9_get_job_mutates_record :
    get_job noParse 1 c9Store c9Jid = some (.ok (some c9After), [(c9Jid, c9After)]) ∧
    codeStrOf c9Record = some ("OLD".toList) ∧
    codeStrOf c9After = some ("NEW".toList) :=
  ⟨rfl, rfl, rfl⟩

/-- Reading a stage after writing one. -/
theorem getP_setP (p : ProgressMap) (k : Stage) (v : Nat) (st : Stage) :
    getP (setP p k v) st = if st = k then v else getP p st := by
  cases st <;> cases k <;> simp [getP, setP]

/-- The set-to-100 chain never lowers a value bounded by 100. -/
theorem roleSet100_mono (msg : List Char) (p : ProgressMap) (st : Stage)
    (hb : getP p st ≤ 100) : getP p st ≤ getP (roleSet100 msg p) st := by
  unfold roleSet100
  split_ifs <;>
    first
    | (rw [getP_setP]
       split_ifs <;> omega)
    | exact le_rfl

/-- The raise-to-50 chain never lowers a value. -/
theorem roleMax50_mono (msg : List Char) (p : ProgressMap) (st : Stage) :
    getP p st ≤ getP (roleMax50 msg p) st := by
  unfold roleMax50
  split_ifs <;>
    first
    | (rw [getP_setP]
       split_ifs with hst
       · subst hst
         exact le_max_left _ _
       · exact le_rfl)
    | exact le_rfl

/-- Looking up a key just inserted. -/
theorem dictGet_insert_self {α : Type} (m : List (List Char × α)) (k : List Char)
    (v : α) : dictGet (dictInsert m k v) k = some v := by
  induction m with
  | nil => simp [dictInsert, dictGet, List.find?]
  | cons kv t ih =>
    obtain ⟨k', v'⟩ := kv
    simp only [dictInsert]
    split_ifs with h
    · simp [dictGet, List.find?]
    · simp only [dictGet, List.find?] at ih ⊢
      rw [show (k' == k) = false from beq_eq_false_iff_ne.mpr h]
      exact ih

/-- C7 (amended, corrected): each progress update either does not lower a
stage's value — `send_log`'s keyword floors via max, the explicit completion
event forcing exactly 100, and the crew-message branches — or takes one of the
two lowering paths: `send_log`'s generic fallback writing `min(95, current+5)`
to the resolved stage, and the callback's scripted step loop overwriting the
resolved stage with the scripted value directly (other stages unchanged). -/
theorem C7_update_monotone_except_two_paths :
    (∀ (p : ProgressMap) (key : Stage) (message status : List Char) (st : Stage),
      (∀ s, getP p s ≤ 100) →
      getP p st ≤ getP (updateProgress p key message status) st ∨
        (st = key ∧ getP (updateProgress p key message status) st =
          min 95 (getP p st + 5))) ∧
    (∀ (m : ConnManager) (job : List Char) (keyOpt : Option Stage) (v : Nat)
        (p p' : ProgressMap) (st : Stage),
      dictGet m.agent_progress job = some p →
      dictGet (callbackStepAssign m job keyOpt v).agent_progress job = some p' →
      getP p' st = getP p st ∨ (keyOpt = some st ∧ getP p' st = v)) := by
  constructor
  · intro p key message status st hb
    dsimp only [updateProgress]
    split_ifs
    all_goals first
    | (left
       rw [getP_setP]
       split_ifs with hst
       · have := hb st
         omega
       · exact le_rfl)
    | (left
       rw [getP_setP]
       split_ifs with hst
       · subst hst
         exact le_max_left _ _
       · exact le_rfl)
    | (left
       exact roleSet100_mono _ _ _ (hb st))
    | (left
       exact roleMax50_mono _ _ _)
    | (rw [getP_setP]
       split_ifs with hst
       · subst hst
         exact Or.inr ⟨rfl, rfl⟩
       · exact Or.inl le_rfl)
    | exact Or.inl le_rfl
  · intro m job keyOpt v p p' st hp hp'
    cases keyOpt with
    | none =>
      rw [show callbackStepAssign m job none v = m from by
        unfold callbackStepAssign
        cases dictGet m.agent_progress job <;> rfl] at hp'
      rw [hp] at hp'
      left
      cases hp'
      rfl
    | some key =>
      have hred : callbackStepAssign m job (some key) v =
          { m with agent_progress :=
              dictInsert m.agent_progress job (setP p key v) } := by
        unfold callbackStepAssign
        rw [hp]
      rw [hred] at hp'
      simp only at hp'
      rw [dictGet_insert_self] at hp'
      injection hp' with hp2
      subst hp2
      rw [getP_setP]
      split_ifs with hst
      · exact Or.inr ⟨by rw [hst], rfl⟩
      · exact Or.inl rfl

/-- Witness for the amended C7 theorem: a concrete generic update and a
concrete scripted-step assignment. -/
theorem C7_update_monotone_except_two_paths_witness :
    (getP zeroProgress Stage.backend ≤
        getP (updateProgress zeroProgress Stage.backend ("go".toList)
          ("running".toList)) Stage.backend ∨
      (Stage.backend = Stage.backend ∧
        getP (updateProgress zeroProgress Stage.backend ("go".toList)
          ("running".toList)) Stage.backend =
          min 95 (getP zeroProgress Stage.backend + 5))) ∧
    (getP (setP zeroProgress Stage.backend 30) Stage.backend =
        getP zeroProgress Stage.backend ∨
      (some Stage.backend = some Stage.backend ∧
        getP (setP zeroProgress Stage.backend 30) Stage.backend = 30)) :=
  ⟨C7_update_monotone_except_two_paths.1 zeroProgress Stage.backend ("go".toList)
    ("running".toList) Stage.backend (fun s => by cases s <;> decide),
   C7_update_monotone_except_two_paths.2 c7Manager ("j".toList)
    (some Stage.backend) 30 zeroProgress (setP zeroProgress Stage.backend 30)
    Stage.backend rfl (by rfl)⟩

/-- C8 (confirmed): when the agent executor raises — a connectivity/timeout
failure (APIConnectionError) or a generic failure — the job ends failed with a
recorded human-readable error, never completed, and a timeout-classified
message additionally logs the timeout remediation hint. -/
theorem C8_executor_failure_fails_job (jid msg : List Char) (a : AnalyzerOutcome)
    (res : List (List Char × PyVal)) (post : Bool) (tv : List Char)
    (crewOut : CrewOutcome)
    (h : crewOut = .apiConnError msg ∨ crewOut = .otherError msg) :
    (process_app_request jid a crewOut res post tv).1.status = "failed".toList ∧
    (process_app_request jid a crewOut res post tv).1.status ≠ "completed".toList ∧
    ((process_app_request jid a crewOut res post tv).1.error =
        some ("LLM connection error: ".toList ++ msg) ∨
      (process_app_request jid a crewOut res post tv).1.error = some msg) ∧
    (crewOut = CrewOutcome.apiConnError msg →
      pyIn ("timeout".toList) (pyLower msg) = true →
      timeoutHintLog ∈ (process_app_request jid a crewOut res post tv).2) := by
  rcases h with rfl | rfl
  · refine ⟨rfl, ?_, Or.inl rfl, ?_⟩
    · have hst : (process_app_request jid a (.apiConnError msg) res post tv).1.status =
          "failed".toList := rfl
      rw [hst]
      decide
    · intro _ hT
      show timeoutHintLog ∈
        (if pyIn ("timeout".toList) (pyLower msg) = true then [timeoutErrLog tv, timeoutHintLog]
         else [connErrLog msg])
      rw [if_pos hT]
      simp
  · refine ⟨rfl, ?_, Or.inr rfl, ?_⟩
    · have hst : (process_app_request jid a (.otherError msg) res post tv).1.status =
          "failed".toList := rfl
      rw [hst]
      decide
    · intro h'
      exact absurd h' (by simp)

/-- Witness for C8 at a concrete timeout-classified executor failure. -/
theorem C8_executor_failure_fails_job_witness :
    (process_app_request ("J".toList) (.failed ("x".toList)) (.apiConnError c8Msg) [] true
        ("300".toList)).1.status = "failed".toList ∧
    (process_app_request ("J".toList) (.failed ("x".toList)) (.apiConnError c8Msg) [] true
        ("300".toList)).1.status ≠ "completed".toList ∧
    ((process_app_request ("J".toList) (.failed ("x".toList)) (.apiConnError c8Msg) [] true
        ("300".toList)).1.error = some ("LLM connection error: ".toList ++ c8Msg) ∨
      (process_app_request ("J".toList) (.failed ("x".toList)) (.apiConnError c8Msg) [] true
        ("300".toList)).1.error = some c8Msg) ∧
    (CrewOutcome.apiConnError c8Msg = CrewOutcome.apiConnError c8Msg →
      pyIn ("timeout".toList) (pyLower c8Msg) = true →
      timeoutHintLog ∈ (process_app_request ("J".toList) (.failed ("x".toList))
        (.apiConnError c8Msg) [] true ("300".toList)).2) :=
  C8_executor_failure_fails_job ("J".toList) c8Msg (.failed ("x".toList)) [] true
    ("300".toList) (.apiConnError c8Msg) (Or.inl rfl)

/-- C9 (amended, corrected): the logs read endpoint leaves the manager state
unchanged; the get_job read endpoint preserves a record's identifier, status
and error — its only mutation is (re)writing the results' code entry. -/
theorem C9_reads_preserve_status_and_error (m : ConnManager) (job : List Char)
    (J : List Char → Option PyVal) (fuel : Nat) (jr jr' : JobRecord)
    (h : getJobTransform J fuel jr = some (.ok jr')) :
    (get_job_logs m job).2 = m ∧
    jr'.job_id = jr.job_id ∧ jr'.status = jr.status ∧ jr'.error = jr.error := by
  refine ⟨rfl, ?_⟩
  unfold getJobTransform at h
  repeat' split at h
  all_goals first
  | (simp only [Option.some.injEq, PyResult.ok.injEq] at h
     subst h
     exact ⟨rfl, rfl, rfl⟩)
  | simp at h

/-- Witness for the amended C9 theorem at the concrete mutated record. -/
theorem C9_reads_preserve_status_and_error_witness :
    (get_job_logs c1Manager c1Job).2 = c1Manager ∧
    c9After.job_id = c9Record.job_id ∧ c9After.status = c9Record.status ∧
    c9After.error = c9Record.error :=
  C9_reads_preserve_status_and_error c1Manager c1Job noParse 1 c9Record c9After rfl

/-- Inserting into a dict never empties it. -/
theorem dictInsert_ne_nil {α : Type} (m : List (List Char × α)) (k : List Char) (v : α) :
    dictInsert m k v ≠ [] := by
  cases m with
  | nil => simp [dictInsert]
  | cons kv t =>
    obtain ⟨k', v'⟩ := kv
    simp only [dictInsert]
    split_ifs <;> simp

/-- Invariant of the inner file loop of validate_project: validity mirrors the
emptiness of the error map, and the file count grows by the number of files. -/
theorem projectFoldFiles_inv (R : RuntimeOracle) (cat : List Char) :
    ∀ (fs : List (List Char × List Char)) (rep rep' : ValidationReport),
      projectFoldFiles R cat fs rep = .ok rep' →
      (rep.valid = true ↔ rep.errors = []) →
      (rep'.valid = true ↔ rep'.errors = []) ∧
        rep'.file_count = rep.file_count + fs.length := by
  intro fs
  induction fs with
  | nil =>
    intro rep rep' h hinv
    simp only [projectFoldFiles, PyResult.ok.injEq] at h
    subst h
    exact ⟨hinv, by simp⟩
  | cons f rest ih =>
    intro rep rep' h hinv
    obtain ⟨fname, content⟩ := f
    simp only [projectFoldFiles] at h
    split at h
    · exact absurd h (by simp)
    · split_ifs at h with hsucc herrs
      · obtain ⟨h1, h2⟩ := ih _ _ h hinv
        have h2' : rep'.file_count = rep.file_count + 1 + rest.length := h2
        refine ⟨h1, ?_⟩
        simp only [List.length_cons]
        omega
      · obtain ⟨h1, h2⟩ := ih _ _ h (by simp [dictInsert_ne_nil])
        have h2' : rep'.file_count = rep.file_count + 1 + rest.length := h2
        refine ⟨h1, ?_⟩
        simp only [List.length_cons]
        omega
      · obtain ⟨h1, h2⟩ := ih _ _ h (by simp [dictInsert_ne_nil])
        have h2' : rep'.file_count = rep.file_count + 1 + rest.length := h2
        refine ⟨h1, ?_⟩
        simp only [List.length_cons]
        omega

/-- Invariant of the outer category loop of validate_project. -/
theorem projectFoldCats_inv (R : RuntimeOracle) :
    ∀ (cats : List (List Char × List (List Char × List Char)))
      (rep rep' : ValidationReport),
      projectFoldCats R cats rep = .ok rep' →
      (rep.valid = true ↔ rep.errors = []) →
      (rep'.valid = true ↔ rep'.errors = []) ∧
        rep'.file_count = rep.file_count + totalFiles cats := by
  intro cats
  induction cats with
  | nil =>
    intro rep rep' h hinv
    simp only [projectFoldCats, PyResult.ok.injEq] at h
    subst h
    exact ⟨hinv, by simp [totalFiles]⟩
  | cons cat rest ih =>
    intro rep rep' h hinv
    obtain ⟨cname, fdict⟩ := cat
    simp only [projectFoldCats] at h
    split at h
    · exact absurd h (by simp)
    · rename_i rep1 hrep1
      obtain ⟨h1, h2⟩ := projectFoldFiles_inv R cname fdict rep rep1 hrep1 hinv
      obtain ⟨h3, h4⟩ := ih _ _ h h1
      refine ⟨h3, ?_⟩
      have h5 : totalFiles ((cname, fdict) :: rest) = fdict.length + totalFiles rest := by
        simp [totalFiles]
      omega

/-- C10 (confirmed): whenever validate_project returns a report, the report's
valid flag is true exactly when its error map is empty, and its file count is
the total number of files across all categories of the input. -/
theorem C10_report_invariants (R : RuntimeOracle)
    (files : List (List Char × List (List Char × List Char)))
    (rep : ValidationReport) (h : validate_project R files = .ok rep) :
    (rep.valid = true ↔ rep.errors = []) ∧ rep.file_count = totalFiles files := by
  unfold validate_project at h
  split at h
  · exact absurd h (by simp)
  · rename_i rep0 hrep0
    obtain ⟨h1, h2⟩ := projectFoldCats_inv R files initReport rep0 hrep0 (by simp [initReport])
    simp only [Option.some.injEq, PyResult.ok.injEq] at h
    split_ifs at h
    · subst h
      exact ⟨h1, by simpa [initReport] using h2⟩
    · subst h
      exact ⟨h1, by simpa [initReport] using h2⟩

/-- Witness for C10 at a concrete one-file project. -/
theorem C10_report_invariants_witness :
    (c10Report.valid = true ↔ c10Report.errors = []) ∧
      c10Report.file_count = totalFiles c10Files :=
  C10_report_invariants c10Oracle c10Files c10Report rfl

/-- Every entry of a repaired all-strings dict has passed through the
repairer. -/
theorem repairEntries_repaired (d : List (List Char × PyVal))
    (hd : allStrVals d = true) :
    ∀ kv ∈ repairEntries d, repairedStr kv.1 kv.2 := by
  intro kv hkv
  simp only [repairEntries, List.mem_map] at hkv
  obtain ⟨⟨k, v⟩, hmem, rfl⟩ := hkv
  simp only [allStrVals, List.all_eq_true] at hd
  have hv := hd _ hmem
  cases v with
  | pyStr s => exact ⟨s, rfl⟩
  | pyNone => exact absurd hv (by simp [isStrVal])
  | pyDict d' => exact absurd hv (by simp [isStrVal])
  | pyList l => exact absurd hv (by simp [isStrVal])
  | pyObj a b c => exact absurd hv (by simp [isStrVal])
  | pyOther a b => exact absurd hv (by simp [isStrVal])

/-- Every entry of a repaired markdown file dict has passed through the
repairer. -/
theorem repairFilesStr_repaired (d : List (List Char × List Char)) :
    ∀ kv ∈ repairFilesStr d, repairedStr kv.1 kv.2 := by
  intro kv hkv
  simp only [repairFilesStr, List.mem_map] at hkv
  obtain ⟨⟨k, v⟩, hmem, rfl⟩ := hkv
  exact ⟨v, rfl⟩

/-- C2 counterexample: the markdown file extracted from a truthy string `code`
attribute is returned verbatim — its body still holds the ellipsis
placeholder, which the repairer would have rewritten. -/
theorem C2_code_attr_markdown_skips_repair :
    extract_code_from_output noParse 2 c2Obj =
      some (.files [("file_1.py".toList, PyVal.pyStr c2Body)]) ∧
    pyIn strDots c2Body = true ∧
    fix_incomplete_code c2Body ("file_1.py".toList) ≠ c2Body := by
  refine ⟨?_, by decide, ?_⟩
  · simp +decide [extract_code_from_output, extractAux, codeStrBranch,
      extract_code_files_from_markdown, mdScanAux, fenceMatchAt, eatLit, eatWhile1,
      wsnlDescend, wsnlAt, parseFileClause, fileBodyDescend, fileBodyAt,
      firstIndexOf, strFence, strFileColon, isWordChar, pyIsSpace, natChars,
      extLookup, extMap, dictInsert, pyStrip, pyLower, filesOfMd, c2Obj,
      c2Markdown, c2Body, truthy, noParse, String.toList, List.isPrefixOf,
      Option.bind, List.takeWhile, List.dropWhile]
  · simp +decide [fix_incomplete_code, hasPlaceholders, extOf, extsPyJs, strPy,
      strJs, strJsx, strTs, strTsx, subScan, defMatchAt, routeMatchAt, eatLit,
      eatWhile1, replaceAll, strDots, strBracketDots, strContinueImpl,
      strImplProvided, strCompleteImpl, strDefSp, strLParen, strRParenColon,
      strAtApp, strLParenQuote, strQuoteRParen, strCreateOrCreate, strCreatePat,
      strImportDotenv, strImportOs, pyIn, pyIsSpace, pyLower, c2Body,
      String.toList, List.isPrefixOf, List.takeWhile, List.dropWhile]

/-- C2 (amended, corrected): the repairer is applied to every file of the
all-strings dict branch, to every file produced by the raw_output string
branch, and to the markdown files of the plain-string branch; the markdown
files of the code-field branch are exempt (see the counterexample). -/
theorem C2_repair_covers_dict_rawoutput_and_plain_string
    (J : List Char → Option PyVal) (n : Nat) :
    (∀ d, allStrVals d = true →
      extract_code_from_output J (n + 1) (.pyDict d) =
        some (.files (repairEntries d)) ∧
      ∀ kv ∈ repairEntries d, repairedStr kv.1 kv.2) ∧
    (∀ rs m, rawOutputStrBranch J rs = .files m →
      ∀ kv ∈ m, repairedStr kv.1 kv.2) ∧
    (∀ s, J s = none → (extract_code_files_from_markdown s).isEmpty = false →
      extract_code_from_output J (n + 1) (.pyStr s) =
        some (.files (repairFilesStr (extract_code_files_from_markdown s))) ∧
      ∀ kv ∈ repairFilesStr (extract_code_files_from_markdown s),
        repairedStr kv.1 kv.2) := by
  refine ⟨fun d hd => ⟨?_, repairEntries_repaired d hd⟩, ?_,
    fun s hJ hne => ⟨?_, repairFilesStr_repaired _⟩⟩
  · simp [extract_code_from_output, extractAux, hd]
  · intro rs m hm
    simp only [rawOutputStrBranch] at hm
    repeat' split at hm
    all_goals simp only [ExtractResult.files.injEq] at hm
    all_goals subst hm
    · exact repairEntries_repaired _ (by assumption)
    all_goals first
    | (intro kv hkv
       rcases List.mem_singleton.mp hkv with rfl
       exact ⟨pyStrip rs, rfl⟩)
    | exact repairFilesStr_repaired _
  · simp [extract_code_from_output, extractAux, hJ, hne]

/-- Witness for the amended C2 theorem at a concrete markdown string. -/
theorem C2_repair_covers_witness :
    extract_code_from_output noParse 1 (.pyStr c2Markdown) =
      some (.files (repairFilesStr (extract_code_files_from_markdown c2Markdown))) ∧
    ∀ kv ∈ repairFilesStr (extract_code_files_from_markdown c2Markdown),
      repairedStr kv.1 kv.2 :=
  (C2_repair_covers_dict_rawoutput_and_plain_string noParse 0).2.2 c2Markdown rfl
    (by simp +decide [extract_code_files_from_markdown, mdScanAux, fenceMatchAt,
      eatLit, eatWhile1, wsnlDescend, wsnlAt, parseFileClause, fileBodyDescend,
      fileBodyAt, firstIndexOf, strFence, strFileColon, isWordChar, pyIsSpace,
      natChars, extLookup, extMap, dictInsert, pyStrip, pyLower, c2Markdown,
      String.toList, List.isPrefixOf, Option.bind, List.takeWhile,
      List.dropWhile])

/-- A successful dict lookup names a member entry. -/
theorem lookupVal_mem (d : List (List Char × PyVal)) (k : List Char) (v : PyVal)
    (h : lookupVal d k = some v) : ∃ kv, kv ∈ d ∧ kv.2 = v := by
  unfold lookupVal at h
  split at h
  · rename_i kv hkv
    simp only [Option.some.injEq] at h
    exact ⟨kv, List.mem_of_find?_eq_some hkv, h⟩
  · exact absurd h (by simp)

/-- C4 counterexample: a truthy `code` attribute that is neither a dict nor a
string makes the normalizer return a bare string; a truthy non-string
`raw_output` attribute raises a TypeError out of the normalizer; and the
object-free input whose `code` key holds the dict with value None is returned
as a mapping carrying the non-string value None — so even the object-free
return values need not be source-text strings. -/
theorem C4_contract_violations :
    extract_code_from_output noParse 1 c4Obj = some (.text ("1".toList)) ∧
    extract_code_from_output noParse 1 c4RaisingObj =
      some (.raised ("TypeError".toList)) ∧
    extract_code_from_output noParse 1 c4CodeDict =
      some (.files [("f".toList, PyVal.pyNone)]) := by
  refine ⟨?_, rfl, rfl⟩
  have h1 : pyStrOf (PyVal.pyOther true ("1".toList)) = "1".toList := by
    simp [pyStrOf, pyReprOf]
  show some (ExtractResult.text
    (fix_incomplete_code (pyStrOf (PyVal.pyOther true ("1".toList))) strUnknownPy)) = _
  rw [h1]
  rfl

/-- Under object-free inputs and an object-free JSON oracle the normalizer
only ever produces file mappings. -/
theorem extractAux_objfree_files (J : List Char → Option PyVal)
    (hJ : ∀ s v, J s = some v → ObjFree v) :
    ∀ (fuel : Nat) (c : ExtractCall) (r : ExtractResult),
      CallObjFree c → extractAux J fuel c = some r →
      ∃ m, r = ExtractResult.files m := by
  intro fuel
  induction fuel with
  | zero =>
    intro c r _ h
    simp [extractAux] at h
  | succ n ih =>
    intro c r hc h
    cases c with
    | loop i pending acc =>
      have hc' : ∀ x ∈ pending, ObjFree x := hc
      cases pending with
      | nil =>
        simp only [extractAux, Option.some.injEq] at h
        exact ⟨acc, h.symm⟩
      | cons it rest =>
        have hit : ObjFree it := hc' it (by simp)
        have hrest : ∀ x, x ∈ rest → ObjFree x := fun x hx => hc' x (by simp [hx])
        simp only [extractAux] at h
        split at h
        · simp at h
        · rename_i e heq
          obtain ⟨m, hm⟩ := ih (.val it) _ hit heq
          simp at hm
        · refine ih _ _ ?_ h
          exact hrest
        · refine ih _ _ ?_ h
          exact hrest
    | val v =>
      cases v with
      | pyNone =>
        simp only [extractAux, Option.some.injEq] at h
        exact ⟨[], h.symm⟩
      | pyStr s =>
        simp only [extractAux] at h
        repeat' split at h
        all_goals first
        | (simp only [Option.some.injEq] at h
           exact ⟨_, h.symm⟩)
        | (refine ih _ _ ?_ h
           exact hJ s _ (by assumption))
        | simp at h
      | pyDict d =>
        have hall : ∀ kv, kv ∈ d → ObjFree kv.2 := by
          cases hc with | dictVal d h => exact h
        simp only [extractAux] at h
        repeat' split at h
        all_goals first
        | (simp only [Option.some.injEq] at h
           exact ⟨_, h.symm⟩)
        | (refine ih _ _ ?_ h
           exact hall _ (List.mem_singleton_self _))
        | (rename_i rv heq
           refine ih _ _ ?_ h
           obtain ⟨kv, hmem, hkv⟩ := lookupVal_mem _ _ _ heq
           exact hkv ▸ hall kv hmem)
        | simp at h
      | pyList items =>
        have hall : ∀ x, x ∈ items → ObjFree x := by
          cases hc with | listVal l h => exact h
        simp only [extractAux] at h
        repeat' split at h
        all_goals first
        | (simp only [Option.some.injEq] at h
           exact ⟨_, h.symm⟩)
        | (rename_i heq
           obtain ⟨m, hm⟩ := ih (.loop 0 items []) _ hall heq
           simp at hm)
        | simp at h
      | pyObj codeA rawA reprS => cases hc
      | pyOther b reprS =>
        simp only [extractAux, Option.some.injEq] at h
        exact ⟨_, h.symm⟩

/-- C4 (amended, corrected): for inputs free of attribute-bearing objects,
parsed by an object-free JSON oracle, the normalizer returns a file mapping
whenever it returns at all — never a bare string and never an exception; the
original unconditional claim fails on object inputs (see the
counterexample). -/
theorem C4_objfree_inputs_yield_file_maps (J : List Char → Option PyVal)
    (hJ : ∀ s v, J s = some v → ObjFree v) (fuel : Nat) (v : PyVal)
    (r : ExtractResult) (hv : ObjFree v)
    (h : extract_code_from_output J fuel v = some r) :
    ∃ m, r = ExtractResult.files m :=
  extractAux_objfree_files J hJ fuel (.val v) r hv h

/-- Witness for the amended C4 theorem at a concrete object-free dict. -/
theorem C4_objfree_inputs_yield_file_maps_witness :
    ∃ m, ExtractResult.files
        (repairEntries [("a.py".toList, PyVal.pyStr ("x = 1".toList))]) =
      ExtractResult.files m :=
  C4_objfree_inputs_yield_file_maps noParse
    (fun s w hw => by simp [noParse] at hw) 1 c4GoodDict _
    (ObjFree.dictVal _ (by
      intro kv hkv
      rcases List.mem_singleton.mp hkv with rfl
      exact ObjFree.strVal _))
    rfl

-- Lemmas for claim C6: idempotence of the repairer.

/-- A successful literal consume decomposes the input. -/
theorem eatLit_eq {lit s s' : List Char} (h : eatLit lit s = some s') :
    s = lit ++ s' := by
  unfold eatLit at h
  split_ifs at h with hp
  obtain ⟨t, ht⟩ := (isPre_iff lit s).mp hp
  simp only [Option.some.injEq] at h
  subst h
  rw [ht, List.drop_left]

/-- The remainder of a literal consume is a suffix. -/
theorem suffix_of_eatLit {lit s s' : List Char} (h : eatLit lit s = some s') :
    s' <:+ s :=
  ⟨lit, (eatLit_eq h).symm⟩

/-- The remainder of a class consume is a suffix. -/
theorem suffix_of_eatWhile1 {p : Char → Bool} {s g s' : List Char}
    (h : eatWhile1 p s = some (g, s')) : s' <:+ s := by
  simp only [eatWhile1] at h
  split_ifs at h with hg
  simp only [Option.some.injEq, Prod.mk.injEq] at h
  rw [← h.2]
  exact List.dropWhile_suffix p

/-- A pattern that is a prefix of a suffix occurs in the whole. -/
theorem occursIn_of_prefix_suffix {pat t s : List Char} (h1 : pat <+: t)
    (h2 : t <:+ s) : occursIn pat s := by
  obtain ⟨w, hw⟩ := h1
  obtain ⟨u, hu⟩ := h2
  exact ⟨u, w, by rw [← hu, ← hw, List.append_assoc]⟩

/-- An occurrence in a suffix is an occurrence in the whole. -/
theorem occursIn_of_suffix {pat t s : List Char} (h1 : occursIn pat t)
    (h2 : t <:+ s) : occursIn pat s := by
  obtain ⟨u, hu⟩ := h2
  rw [← hu]
  exact occursIn_append_right u h1

/-- The dropWhile remainder is a suffix (specialisation). -/
theorem dropWhile_suffix_of {p : Char → Bool} {t s : List Char} (h : t <:+ s) :
    t.dropWhile p <:+ s :=
  (List.dropWhile_suffix p).trans h

/-- A match of the empty-function regex requires an ellipsis token. -/
theorem defMatchAt_dots {s : List Char} {r : List Char × List Char}
    (h : defMatchAt s = some r) : occursIn strDots s := by
  unfold defMatchAt at h
  cases h1 : eatLit strDefSp s with
  | none => rw [h1] at h; exact absurd h (by simp)
  | some s1 =>
  rw [h1] at h
  simp only [Option.bind_eq_bind, Option.some_bind] at h
  cases h2 : eatWhile1 (fun c => c != '(') s1 with
  | none => rw [h2] at h; exact absurd h (by simp)
  | some gs2 =>
  obtain ⟨g1, s2⟩ := gs2
  rw [h2] at h
  simp only [Option.some_bind] at h
  cases h3 : eatLit strLParen s2 with
  | none => rw [h3] at h; exact absurd h (by simp)
  | some s3 =>
  rw [h3] at h
  simp only [Option.some_bind] at h
  cases h5 : eatLit strRParenColon (s3.dropWhile (fun c => c != ')')) with
  | none => rw [h5] at h; exact absurd h (by simp)
  | some s5 =>
  rw [h5] at h
  simp only [Option.some_bind] at h
  cases h7 : eatLit strDots (s5.dropWhile pyIsSpace) with
  | none => rw [h7] at h; exact absurd h (by simp)
  | some s7 =>
  have hs1 : s1 <:+ s := suffix_of_eatLit h1
  have hs2 : s2 <:+ s := (suffix_of_eatWhile1 h2).trans hs1
  have hs3 : s3 <:+ s := (suffix_of_eatLit h3).trans hs2
  have hs4 : s3.dropWhile (fun c => c != ')') <:+ s := dropWhile_suffix_of hs3
  have hs5 : s5 <:+ s := (suffix_of_eatLit h5).trans hs4
  have hs6 : s5.dropWhile pyIsSpace <:+ s := dropWhile_suffix_of hs5
  have hpre : strDots <+: s5.dropWhile pyIsSpace := ⟨s7, (eatLit_eq h7).symm⟩
  exact occursIn_of_prefix_suffix hpre hs6

/-- A match of the route regex requires an ellipsis token. -/
theorem routeMatchAt_dots {s : List Char} {r : List Char × List Char}
    (h : routeMatchAt s = some r) : occursIn strDots s := by
  unfold routeMatchAt at h
  cases h1 : eatLit strAtApp s with
  | none => rw [h1] at h; exact absurd h (by simp)
  | some s1 =>
  rw [h1] at h
  simp only [Option.bind_eq_bind, Option.some_bind] at h
  cases h2 : eatWhile1 (fun c => 'a' ≤ c && c ≤ 'z') s1 with
  | none => rw [h2] at h; exact absurd h (by simp)
  | some gs2 =>
  obtain ⟨g1, s2⟩ := gs2
  rw [h2] at h
  simp only [Option.some_bind] at h
  cases h3 : eatLit strLParenQuote s2 with
  | none => rw [h3] at h; exact absurd h (by simp)
  | some s3 =>
  rw [h3] at h
  simp only [Option.some_bind] at h
  cases h4 : eatWhile1 (fun c => c != '"') s3 with
  | none => rw [h4] at h; exact absurd h (by simp)
  | some gs4 =>
  obtain ⟨g2, s4⟩ := gs4
  rw [h4] at h
  simp only [Option.some_bind] at h
  cases h5 : eatLit strQuoteRParen s4 with
  | none => rw [h5] at h; exact absurd h (by simp)
  | some s5 =>
  rw [h5] at h
  simp only [Option.some_bind] at h
  split_ifs at h with hnl
  swap
  · exact absurd h (by simp)
  simp only [Option.some_bind] at h
  cases h6 : eatLit strDefSp (s5.dropWhile pyIsSpace) with
  | none => rw [h6] at h; exact absurd h (by simp)
  | some s6 =>
  rw [h6] at h
  simp only [Option.some_bind] at h
  cases h7 : eatWhile1 (fun c => c != '(') s6 with
  | none => rw [h7] at h; exact absurd h (by simp)
  | some gs7 =>
  obtain ⟨g3, s8⟩ := gs7
  rw [h7] at h
  simp only [Option.some_bind] at h
  cases h8 : eatLit strLParen s8 with
  | none => rw [h8] at h; exact absurd h (by simp)
  | some s9 =>
  rw [h8] at h
  simp only [Option.some_bind] at h
  cases h9 : eatLit strRParenColon (s9.dropWhile (fun c => c != ')')) with
  | none => rw [h9] at h; exact absurd h (by simp)
  | some s11 =>
  rw [h9] at h
  simp only [Option.some_bind] at h
  cases h10 : eatLit strDots (s11.dropWhile pyIsSpace) with
  | none => rw [h10] at h; exact absurd h (by simp)
  | some s13 =>
  have t1 : s1 <:+ s := suffix_of_eatLit h1
  have t2 : s2 <:+ s := (suffix_of_eatWhile1 h2).trans t1
  have t3 : s3 <:+ s := (suffix_of_eatLit h3).trans t2
  have t4 : s4 <:+ s := (suffix_of_eatWhile1 h4).trans t3
  have t5 : s5 <:+ s := (suffix_of_eatLit h5).trans t4
  have t6 : s5.dropWhile pyIsSpace <:+ s := dropWhile_suffix_of t5
  have t7 : s6 <:+ s := (suffix_of_eatLit h6).trans t6
  have t8 : s8 <:+ s := (suffix_of_eatWhile1 h7).trans t7
  have t9 : s9 <:+ s := (suffix_of_eatLit h8).trans t8
  have t10 : s9.dropWhile (fun c => c != ')') <:+ s := dropWhile_suffix_of t9
  have t11 : s11 <:+ s := (suffix_of_eatLit h9).trans t10
  have t12 : s11.dropWhile pyIsSpace <:+ s := dropWhile_suffix_of t11
  exact occursIn_of_prefix_suffix ⟨s13, (eatLit_eq h10).symm⟩ t12

/-- A match of the empty-JS-function regex requires an ellipsis token. -/
theorem jsFunMatchAt_dots {s : List Char} {r : List Char × List Char}
    (h : jsFunMatchAt s = some r) : occursIn strDots s := by
  unfold jsFunMatchAt at h
  cases h1 : eatLit ("function ".toList) s with
  | none => rw [h1] at h; exact absurd h (by simp)
  | some s1 =>
  rw [h1] at h
  simp only [Option.bind_eq_bind, Option.some_bind] at h
  cases h2 : eatWhile1 (fun c => c != '(') s1 with
  | none => rw [h2] at h; exact absurd h (by simp)
  | some gs2 =>
  obtain ⟨g1, s2⟩ := gs2
  rw [h2] at h
  simp only [Option.some_bind] at h
  cases h3 : eatLit strLParen s2 with
  | none => rw [h3] at h; exact absurd h (by simp)
  | some s3 =>
  rw [h3] at h
  simp only [Option.some_bind] at h
  cases h5 : eatLit (")".toList) (s3.dropWhile (fun c => c != ')')) with
  | none => rw [h5] at h; exact absurd h (by simp)
  | some s5 =>
  rw [h5] at h
  simp only [Option.some_bind] at h
  cases h7 : eatLit ("\x7b".toList) (s5.dropWhile pyIsSpace) with
  | none => rw [h7] at h; exact absurd h (by simp)
  | some s7 =>
  rw [h7] at h
  simp only [Option.some_bind] at h
  cases h9 : eatLit strDots (s7.dropWhile pyIsSpace) with
  | none => rw [h9] at h; exact absurd h (by simp)
  | some s9 =>
  have t1 : s1 <:+ s := suffix_of_eatLit h1
  have t2 : s2 <:+ s := (suffix_of_eatWhile1 h2).trans t1
  have t3 : s3 <:+ s := (suffix_of_eatLit h3).trans t2
  have t4 : s3.dropWhile (fun c => c != ')') <:+ s := dropWhile_suffix_of t3
  have t5 : s5 <:+ s := (suffix_of_eatLit h5).trans t4
  have t6 : s5.dropWhile pyIsSpace <:+ s := dropWhile_suffix_of t5
  have t7 : s7 <:+ s := (suffix_of_eatLit h7).trans t6
  have t8 : s7.dropWhile pyIsSpace <:+ s := dropWhile_suffix_of t7
  exact occursIn_of_prefix_suffix ⟨s9, (eatLit_eq h9).symm⟩ t8

/-- A match of the empty-React-component regex requires an ellipsis token. -/
theorem reactMatchAt_dots {s : List Char} {r : List Char × List Char}
    (h : reactMatchAt s = some r) : occursIn strDots s := by
  unfold reactMatchAt at h
  cases h1 : eatLit ("const ".toList) s with
  | none => rw [h1] at h; exact absurd h (by simp)
  | some s1 =>
  rw [h1] at h
  simp only [Option.bind_eq_bind, Option.some_bind] at h
  cases s1 with
  | nil => exact absurd h (by simp)
  | cons c0 s1t =>
  simp only at h
  split_ifs at h with hc0
  cases h3 : eatLit (" = () => \x7b".toList)
      (s1t.dropWhile fun c => 'a' ≤ c && c ≤ 'z' || ('A' ≤ c && c ≤ 'Z')) with
  | none => rw [h3] at h; exact absurd h (by simp)
  | some s3 =>
  rw [h3] at h
  simp only [Option.some_bind] at h
  cases h5 : eatLit strDots (s3.dropWhile pyIsSpace) with
  | none => rw [h5] at h; exact absurd h (by simp)
  | some s5 =>
  have t1 : (c0 :: s1t) <:+ s := suffix_of_eatLit h1
  have t2 : s1t <:+ s := (List.suffix_cons c0 s1t).trans t1
  have t3 : (s1t.dropWhile fun c => 'a' ≤ c && c ≤ 'z' || ('A' ≤ c && c ≤ 'Z')) <:+ s :=
    dropWhile_suffix_of t2
  have t4 : s3 <:+ s := (suffix_of_eatLit h3).trans t3
  have t5 : s3.dropWhile pyIsSpace <:+ s := dropWhile_suffix_of t4
  exact occursIn_of_prefix_suffix ⟨s5, (eatLit_eq h5).symm⟩ t5

/-- A scan whose match function fails on every suffix is the identity. -/
theorem subScan_id {M : List Char → Option (List Char × List Char)} :
    ∀ {s : List Char}, (∀ t, t <:+ s → M t = none) → subScan M s = s := by
  intro s
  induction s with
  | nil => intro _; rw [subScan]
  | cons c rest ih =>
    intro h
    rw [subScan, h (c :: rest) (List.suffix_refl _), ih]
    intro t ht
    exact h t (ht.trans (List.suffix_cons c rest))

/-- Without an ellipsis token the Python empty-function pass is the identity. -/
theorem defSub_id {s : List Char} (h : ¬ occursIn strDots s) :
    subScan defMatchAt s = s := by
  refine subScan_id (fun t ht => ?_)
  cases hm : defMatchAt t with
  | none => rfl
  | some r => exact absurd (occursIn_of_suffix (defMatchAt_dots hm) ht) h

/-- Without an ellipsis token the route pass is the identity. -/
theorem routeSub_id {s : List Char} (h : ¬ occursIn strDots s) :
    subScan routeMatchAt s = s := by
  refine subScan_id (fun t ht => ?_)
  cases hm : routeMatchAt t with
  | none => rfl
  | some r => exact absurd (occursIn_of_suffix (routeMatchAt_dots hm) ht) h

/-- Without an ellipsis token the JS-function pass is the identity. -/
theorem jsFunSub_id {s : List Char} (h : ¬ occursIn strDots s) :
    subScan jsFunMatchAt s = s := by
  refine subScan_id (fun t ht => ?_)
  cases hm : jsFunMatchAt t with
  | none => rfl
  | some r => exact absurd (occursIn_of_suffix (jsFunMatchAt_dots hm) ht) h

/-- Without an ellipsis token the React-component pass is the identity. -/
theorem reactSub_id {s : List Char} (h : ¬ occursIn strDots s) :
    subScan reactMatchAt s = s := by
  refine subScan_id (fun t ht => ?_)
  cases hm : reactMatchAt t with
  | none => rfl
  | some r => exact absurd (occursIn_of_suffix (reactMatchAt_dots hm) ht) h

/-- On a string free of both placeholder tokens, with the database pattern
absent and the import fix already paired (for Python files), the repairer is
the identity. -/
theorem fix_id_of_clean (x f : List Char)
    (hd : ¬ occursIn strDots x)
    (hcc : extOf f = strPy → ¬ occursIn strCreatePat x)
    (hio : extOf f = strPy → occursIn strImportDotenv x → occursIn strImportOs x) :
    fix_incomplete_code x f = x := by
  simp only [fix_incomplete_code]
  by_cases h1 : x = []
  · rw [if_pos h1]
  · rw [if_neg h1]
    by_cases h2 : ¬ (hasPlaceholders x = true)
    · rw [if_pos h2]
    · rw [if_neg h2, bracket_pass_id]
      by_cases hjs : extOf f ∈ extsPyJs
      · rw [if_pos hjs]
        by_cases hpy : extOf f = strPy
        · rw [if_pos hpy, defSub_id hd]
          have hA : (if pyIn strCreateOrCreate x = true then
              replaceAll strCreatePat strCreateRep x else x) = x := by
            split_ifs with hc
            · exact replaceAll_id (hcc hpy)
            · rfl
          rw [hA]
          have hnd : ¬ (pyIn strImportDotenv x = true ∧ ¬ pyIn strImportOs x = true) := by
            rintro ⟨hdv, hos⟩
            exact hos ((pyIn_iff _ _).mpr (hio hpy ((pyIn_iff _ _).mp hdv)))
          rw [if_neg hnd, routeSub_id hd]
          exact replaceAll_id hd
        · rw [if_neg hpy, jsFunSub_id hd, reactSub_id hd]
          exact replaceAll_id hd
      · rw [if_neg hjs]
        exact replaceAll_id hd

/-- The empty list starts every list. -/
theorem pre_nil {s : List Char} : [] <+: s := ⟨s, rfl⟩

/-- Unfolding a cons-cons starts-with. -/
theorem pre_cons_iff {pc c : Char} {pt y : List Char} :
    (pc :: pt) <+: (c :: y) ↔ pc = c ∧ pt <+: y := by
  constructor
  · rintro ⟨t, ht⟩
    simp only [List.cons_append, List.cons.injEq] at ht
    exact ⟨ht.1, t, ht.2⟩
  · rintro ⟨rfl, t, ht⟩
    exact ⟨t, by rw [List.cons_append, ht]⟩

/-- A start of a concatenation stays in the left part or covers it. -/
theorem pre_append_cases {p a b : List Char} (h : p <+: a ++ b) :
    p <+: a ∨ a <+: p := by
  obtain ⟨t, ht⟩ := h
  rcases List.append_eq_append_iff.mp ht with ⟨w, hw1, hw2⟩ | ⟨w, hw1, hw2⟩
  · exact Or.inl ⟨w, hw1.symm⟩
  · exact Or.inr ⟨w, hw1.symm⟩

/-- The tail of an ending piece still ends the whole. -/
theorem suffix_tail_of {pc : Char} {pt q : List Char} (h : (pc :: pt) <:+ q) :
    pt <:+ q := by
  obtain ⟨u, hu⟩ := h
  exact ⟨u ++ [pc], by rw [← hu]; simp⟩

/-- A pattern starting a suffix occurs in the whole. -/
theorem occursIn_of_pre_sub {rep p q : List Char} (h1 : rep <+: p) (h2 : p <:+ q) :
    occursIn rep q := by
  obtain ⟨w, hw⟩ := h1
  obtain ⟨u, hu⟩ := h2
  exact ⟨u, w, by rw [← hu, ← hw, List.append_assoc]⟩

/-- Suffixhood through reversal. -/
theorem suf_iff_rev {p s : List Char} : p <:+ s ↔ p.reverse <+: s.reverse := by
  constructor
  · rintro ⟨u, rfl⟩
    exact ⟨u.reverse, by simp⟩
  · rintro ⟨t, ht⟩
    refine ⟨t.reverse, ?_⟩
    have := congrArg List.reverse ht
    simpa using this

/-- Bridge from a boolean scan over all suffixes. -/
theorem cond_of_tails {q rep : List Char}
    (h : q.tails.all (fun p => p.isEmpty || !(p.isPrefixOf rep)) = true) :
    ∀ p, p <:+ q → p ≠ [] → ¬ p <+: rep := by
  intro p hs hne hpre
  have hz := List.all_eq_true.mp h p ((List.mem_tails p q).mpr hs)
  simp only [Bool.or_eq_true, List.isEmpty_iff, Bool.not_eq_true'] at hz
  rcases hz with h1 | h1
  · exact hne h1
  · obtain ⟨t, ht⟩ := hpre
    rw [(isPre_iff p rep).mpr ⟨t, ht.symm⟩] at h1
    exact absurd h1 (by simp)

/-- Bridge from a boolean scan over all proper starts. -/
theorem cond_of_inits {q rep : List Char}
    (h : q.inits.all (fun p => p.isEmpty || p == q || !(p.reverse.isPrefixOf rep.reverse)) = true) :
    ∀ p, p <+: q → p ≠ [] → p ≠ q → ¬ p <:+ rep := by
  intro p hp hne hnq hsuf
  have hz := List.all_eq_true.mp h p ((List.mem_inits p q).mpr hp)
  simp only [Bool.or_eq_true, List.isEmpty_iff, beq_iff_eq, Bool.not_eq_true'] at hz
  rcases hz with (h1 | h1) | h1
  · exact hne h1
  · exact hnq h1
  · have hrev : p.reverse <+: rep.reverse := suf_iff_rev.mp hsuf
    obtain ⟨t, ht⟩ := hrev
    rw [(isPre_iff _ _).mpr ⟨t, ht.symm⟩] at h1
    exact absurd h1 (by simp)

/-- Prefix transfer out of a replacement: under the separation conditions, a
suffix of q that starts the output already starts the input. -/
theorem replaceAll_pre_transfer {pat rep q : List Char}
    (hpr : ∀ p, p <:+ q → p ≠ [] → ¬ p <+: rep)
    (hrq : ¬ occursIn rep q) :
    ∀ (n : Nat) (s : List Char), s.length ≤ n → ∀ p, p <:+ q →
      p <+: replaceAll pat rep s → p <+: s := by
  intro n
  induction n with
  | zero =>
    intro s hs p hp hpre
    have hnil : s = [] := List.eq_nil_of_length_eq_zero (Nat.le_zero.mp hs)
    subst hnil
    rw [replaceAll] at hpre
    exact hpre
  | succ n ih =>
    intro s hs p hp hpre
    cases s with
    | nil =>
      rw [replaceAll] at hpre
      exact hpre
    | cons c t =>
      rw [replaceAll] at hpre
      by_cases hm : pat ≠ [] ∧ pat.isPrefixOf (c :: t)
      · rw [dif_pos hm] at hpre
        rcases pre_append_cases hpre with hA | hB
        · rcases List.eq_nil_or_concat p with rfl | -
          · exact pre_nil
          · by_cases hpe : p = []
            · subst hpe; exact pre_nil
            · exact absurd hA (hpr p hp hpe)
        · by_cases hpe : p = []
          · subst hpe; exact pre_nil
          · exact absurd (occursIn_of_pre_sub hB hp) hrq
      · rw [dif_neg hm] at hpre
        cases p with
        | nil => exact pre_nil
        | cons pc pt =>
          obtain ⟨rfl, hpt⟩ := pre_cons_iff.mp hpre
          have hq : pt <:+ q := suffix_tail_of hp
          have hlen : t.length ≤ n := by
            simp only [List.length_cons] at hs; omega
          exact pre_cons_iff.mpr ⟨rfl, ih t hlen pt hq hpt⟩

/-- Absence of q is preserved by a replacement that cannot rebuild it. -/
theorem replaceAll_absent {pat rep q : List Char} (hq : q ≠ [])
    (hqrep : ¬ occursIn q rep)
    (hpr : ∀ p, p <:+ q → p ≠ [] → ¬ p <+: rep)
    (hR : ∀ p, p <+: q → p ≠ [] → p ≠ q → ¬ p <:+ rep)
    (hrq : ¬ occursIn rep q) :
    ∀ (n : Nat) (s : List Char), s.length ≤ n → ¬ occursIn q s →
      ¬ occursIn q (replaceAll pat rep s) := by
  intro n
  induction n with
  | zero =>
    intro s hs hqs
    have hnil : s = [] := List.eq_nil_of_length_eq_zero (Nat.le_zero.mp hs)
    subst hnil
    rw [replaceAll]
    exact hqs
  | succ n ih =>
    intro s hs hqs hocc
    cases s with
    | nil =>
      rw [replaceAll] at hocc
      exact hqs hocc
    | cons c t =>
      rw [replaceAll] at hocc
      by_cases hm : pat ≠ [] ∧ pat.isPrefixOf (c :: t)
      · rw [dif_pos hm] at hocc
        have hlen : ((c :: t).drop pat.length).length ≤ n := by
          simp only [List.length_drop, List.length_cons]
          have : pat.length ≠ 0 := fun hz => hm.1 (List.eq_nil_of_length_eq_zero hz)
          simp only [List.length_cons] at hs
          omega
        have hsub : ¬ occursIn q ((c :: t).drop pat.length) := by
          intro hx
          exact hqs (occursIn_of_suffix hx (List.drop_suffix _ _))
        rcases occursIn_append _ _ _ hocc with h1 | h2 | hstr
        · exact hqrep h1
        · exact ih _ hlen hsub h2
        · obtain ⟨p1, p2, hsplit, hp1, hp2, ⟨u, hu⟩, -⟩ := hstr
          have hp1q : p1 <+: q := ⟨p2, hsplit.symm⟩
          have hp1r : p1 <:+ rep := ⟨u, hu.symm⟩
          have hp1nq : p1 ≠ q := by
            intro hx
            rw [hx] at hsplit
            have : p2 = [] := by
              have := congrArg List.length hsplit
              simp only [List.length_append] at this
              exact List.eq_nil_of_length_eq_zero (by omega)
            exact hp2 this
          exact hR p1 hp1q hp1 hp1nq hp1r
      · rw [dif_neg hm] at hocc
        have hlen : t.length ≤ n := by
          simp only [List.length_cons] at hs; omega
        have hqt : ¬ occursIn q t := by
          intro hx
          exact hqs ((occursIn_cons q c t).mpr (Or.inr hx))
        rcases (occursIn_cons _ _ _).mp hocc with ⟨v, hv⟩ | htail
        · cases q with
          | nil => exact hq rfl
          | cons qc qt =>
            obtain ⟨rfl, hqt'⟩ := pre_cons_iff.mp ⟨v, hv.symm⟩
            have hqtq : qt <:+ qc :: qt := suffix_tail_of (List.suffix_refl _)
            have := replaceAll_pre_transfer hpr hrq t.length t le_rfl qt hqtq hqt'
            exact hqs ⟨[], by obtain ⟨w, hw⟩ := this; exact ⟨w, by simp [← hw]⟩⟩
        · exact ih t hlen hqt htail

/-- The replaced pattern itself does not occur in the output when the
replacement cannot rebuild it. -/
theorem replaceAll_self_absent {pat rep : List Char} (hpat : pat ≠ [])
    (hqrep : ¬ occursIn pat rep)
    (hpr : ∀ p, p <:+ pat → p ≠ [] → ¬ p <+: rep)
    (hR : ∀ p, p <+: pat → p ≠ [] → p ≠ pat → ¬ p <:+ rep)
    (hrq : ¬ occursIn rep pat) :
    ∀ (n : Nat) (s : List Char), s.length ≤ n →
      ¬ occursIn pat (replaceAll pat rep s) := by
  intro n
  induction n with
  | zero =>
    intro s hs hocc
    have hnil : s = [] := List.eq_nil_of_length_eq_zero (Nat.le_zero.mp hs)
    subst hnil
    rw [replaceAll] at hocc
    rw [occursIn_nil] at hocc
    exact hpat hocc
  | succ n ih =>
    intro s hs hocc
    cases s with
    | nil =>
      rw [replaceAll] at hocc
      rw [occursIn_nil] at hocc
      exact hpat hocc
    | cons c t =>
      rw [replaceAll] at hocc
      by_cases hm : pat ≠ [] ∧ pat.isPrefixOf (c :: t)
      · rw [dif_pos hm] at hocc
        have hlen : ((c :: t).drop pat.length).length ≤ n := by
          simp only [List.length_drop, List.length_cons]
          have : pat.length ≠ 0 := fun hz => hm.1 (List.eq_nil_of_length_eq_zero hz)
          simp only [List.length_cons] at hs
          omega
        rcases occursIn_append _ _ _ hocc with h1 | h2 | hstr
        · exact hqrep h1
        · exact ih _ hlen h2
        · obtain ⟨p1, p2, hsplit, hp1, hp2, ⟨u, hu⟩, -⟩ := hstr
          have hp1q : p1 <+: pat := ⟨p2, hsplit.symm⟩
          have hp1r : p1 <:+ rep := ⟨u, hu.symm⟩
          have hp1nq : p1 ≠ pat := by
            intro hx
            rw [hx] at hsplit
            have : p2 = [] := by
              have := congrArg List.length hsplit
              simp only [List.length_append] at this
              exact List.eq_nil_of_length_eq_zero (by omega)
            exact hp2 this
          exact hR p1 hp1q hp1 hp1nq hp1r
      · rw [dif_neg hm] at hocc
        have hlen : t.length ≤ n := by
          simp only [List.length_cons] at hs; omega
        rcases (occursIn_cons _ _ _).mp hocc with ⟨v, hv⟩ | htail
        · obtain ⟨qc, qt, rfl⟩ : ∃ qc qt, pat = qc :: qt := by
            cases pat with
            | nil => exact absurd rfl hpat
            | cons a b => exact ⟨a, b, rfl⟩
          obtain ⟨hqc, hqt'⟩ := pre_cons_iff.mp ⟨v, hv.symm⟩
          have hqtq : qt <:+ qc :: qt := suffix_tail_of (List.suffix_refl _)
          have hqt2 := replaceAll_pre_transfer hpr hrq t.length t le_rfl qt hqtq hqt'
          apply hm
          refine ⟨hpat, ?_⟩
          obtain ⟨w, hw⟩ := hqt2
          refine (isPre_iff _ _).mpr ⟨w, ?_⟩
          rw [hqc, ← hw]
          rfl
        · exact ih t hlen htail

/-- The route stub in right-associated segment form. -/
theorem routeStub_eq (g1 g2 g3 : List Char) :
    routeStub g1 g2 g3 =
      strAtApp ++ (g1 ++ (strLParenQuote ++ (g2 ++ (routeSegA2 ++ (g3 ++
        (routeSegA3 ++ (g2 ++ (routeSegA4 ++ (g2 ++ routeSegA5))))))))) := by
  simp [routeStub, routeSegA2, routeSegA3, routeSegA4, routeSegA5]

/-- The route stub starts with the at sign. -/
theorem routeStub_head (g1 g2 g3 : List Char) :
    ∃ tl, routeStub g1 g2 g3 = '@' :: tl := by
  refine ⟨"app.".toList ++ g1 ++ strLParenQuote ++ g2 ++
    "\")\ndef ".toList ++ g3 ++
    "():\n    \"\"\"Handler for ".toList ++ g2 ++
    "\"\"\"\n    return \x7b\"message\": \"Endpoint for ".toList ++ g2 ++
    "\"\x7d\n\n".toList, ?_⟩
  simp [routeStub, strAtApp]

/-- The route stub ends with a newline. -/
theorem routeStub_last (g1 g2 g3 : List Char) :
    ∃ Y, routeStub g1 g2 g3 = Y ++ ['\n'] := by
  refine ⟨strAtApp ++ g1 ++ strLParenQuote ++ g2 ++
    "\")\ndef ".toList ++ g3 ++
    "():\n    \"\"\"Handler for ".toList ++ g2 ++
    "\"\"\"\n    return \x7b\"message\": \"Endpoint for ".toList ++ g2 ++
    "\"\x7d\n".toList, ?_⟩
  simp [routeStub, List.append_assoc]

/-- An ending piece of a list closed by one element contains that element. -/
theorem mem_last_of_suffix {x : Char} {Y q1 : List Char}
    (h : q1 <:+ Y ++ [x]) (hne : q1 ≠ []) : x ∈ q1 := by
  have hrev : q1.reverse <+: (Y ++ [x]).reverse := suf_iff_rev.mp h
  rw [List.reverse_append] at hrev
  cases hq : q1.reverse with
  | nil => exact absurd (by simpa using congrArg List.reverse hq) hne
  | cons a b =>
    rw [hq] at hrev
    have : a = x := by
      simp only [List.reverse_cons, List.reverse_nil, List.nil_append,
        List.singleton_append] at hrev
      exact (pre_cons_iff.mp hrev).1
    have hmem : x ∈ q1.reverse := by rw [hq, this]; simp
    simpa using hmem

/-- A starting piece that fits inside q preserves presence when the pattern
shares no character with q. -/
theorem replaceAll_pre_preserve {pat rep q : List Char}
    (hdisj : ∀ ch, ch ∈ pat → ch ∉ q) :
    ∀ (n : Nat) (s : List Char), s.length ≤ n →
      ∀ p, p <:+ q → p <+: s → p <+: replaceAll pat rep s := by
  intro n
  induction n with
  | zero =>
    intro s hs p hp hpre
    have hnil : s = [] := List.eq_nil_of_length_eq_zero (Nat.le_zero.mp hs)
    subst hnil
    rw [replaceAll]
    exact hpre
  | succ n ih =>
    intro s hs p hp hpre
    cases s with
    | nil =>
      rw [replaceAll]
      exact hpre
    | cons c t =>
      rw [replaceAll]
      by_cases hm : pat ≠ [] ∧ pat.isPrefixOf (c :: t)
      · cases p with
        | nil => exact pre_nil
        | cons pc pt =>
          obtain ⟨rfl, -⟩ := pre_cons_iff.mp hpre
          obtain ⟨w, hw⟩ := (isPre_iff pat (pc :: t)).mp hm.2
          have hpc : pc ∈ pat := by
            cases hq : pat with
            | nil => exact absurd hq hm.1
            | cons a b =>
              rw [hq] at hw
              simp only [List.cons_append, List.cons.injEq] at hw
              rw [hw.1]
              simp
          have : pc ∈ q := by
            obtain ⟨u, hu⟩ := hp
            rw [← hu]
            simp
          exact absurd this (hdisj pc hpc)
      · rw [dif_neg hm]
        cases p with
        | nil => exact pre_nil
        | cons pc pt =>
          obtain ⟨rfl, hpt⟩ := pre_cons_iff.mp hpre
          have hlen : t.length ≤ n := by
            simp only [List.length_cons] at hs; omega
          exact pre_cons_iff.mpr ⟨rfl, ih t hlen pt (suffix_tail_of hp) hpt⟩

/-- Presence of q is preserved by replacement of a pattern sharing no
character with q. -/
theorem replaceAll_occ_preserve {pat rep q : List Char}
    (hdisj : ∀ ch, ch ∈ pat → ch ∉ q) :
    ∀ (n : Nat) (s : List Char), s.length ≤ n → occursIn q s →
      occursIn q (replaceAll pat rep s) := by
  intro n
  induction n with
  | zero =>
    intro s hs hq
    have hnil : s = [] := List.eq_nil_of_length_eq_zero (Nat.le_zero.mp hs)
    subst hnil
    rw [replaceAll]
    exact hq
  | succ n ih =>
    intro s hs hq
    cases s with
    | nil =>
      rw [replaceAll]
      exact hq
    | cons c t =>
      rw [replaceAll]
      by_cases hm : pat ≠ [] ∧ pat.isPrefixOf (c :: t)
      · rw [dif_pos hm]
        obtain ⟨w, hw⟩ := (isPre_iff pat (c :: t)).mp hm.2
        have hlen : ((c :: t).drop pat.length).length ≤ n := by
          simp only [List.length_drop, List.length_cons]
          have : pat.length ≠ 0 := fun hz => hm.1 (List.eq_nil_of_length_eq_zero hz)
          simp only [List.length_cons] at hs
          omega
        have hdropw : (c :: t).drop pat.length = w := by
          rw [hw, List.drop_left]
        have hqw : occursIn q w := by
          rw [hw] at hq
          rcases occursIn_append _ _ _ hq with h1 | h2 | hstr
          · cases q with
            | nil => exact ⟨[], w, by simp⟩
            | cons qc qt =>
              obtain ⟨u, v, huv⟩ := h1
              have hmem : qc ∈ pat := by rw [huv]; simp
              exact absurd (show qc ∈ qc :: qt by simp) (hdisj qc hmem)
          · exact h2
          · obtain ⟨p1, p2, hsplit, hp1, hp2, ⟨u, hu⟩, -⟩ := hstr
            obtain ⟨x, hx⟩ := List.exists_mem_of_ne_nil p1 hp1
            have hxpat : x ∈ pat := by rw [hu]; exact List.mem_append_right u hx
            have hxq : x ∈ q := by rw [hsplit]; exact List.mem_append_left p2 hx
            exact absurd hxq (hdisj x hxpat)
        rw [hdropw]
        exact occursIn_append_right rep (ih w (by rw [← hdropw]; exact hlen) hqw)
      · rw [dif_neg hm]
        have hlen : t.length ≤ n := by
          simp only [List.length_cons] at hs; omega
        rcases (occursIn_cons _ _ _).mp hq with ⟨v, hv⟩ | htail
        · cases q with
          | nil => exact ⟨[], _, rfl⟩
          | cons qc qt =>
            obtain ⟨rfl, hqt⟩ := pre_cons_iff.mp ⟨v, hv.symm⟩
            have := @replaceAll_pre_preserve pat rep (qc :: qt) hdisj t.length t le_rfl qt
              (suffix_tail_of (List.suffix_refl _)) hqt
            obtain ⟨w, hw⟩ := this
            exact ⟨[], w, by rw [← hw]; rfl⟩
        · exact (occursIn_cons _ _ _).mpr (Or.inr (ih t hlen htail))

/-- A firing replacement makes the replacement text occur. -/
theorem replaceAll_inserts {pat rep : List Char} :
    ∀ (n : Nat) (s : List Char), s.length ≤ n → occursIn pat s → pat ≠ [] →
      occursIn rep (replaceAll pat rep s) := by
  intro n
  induction n with
  | zero =>
    intro s hs hocc hpat
    have hnil : s = [] := List.eq_nil_of_length_eq_zero (Nat.le_zero.mp hs)
    subst hnil
    rw [occursIn_nil] at hocc
    exact absurd hocc hpat
  | succ n ih =>
    intro s hs hocc hpat
    cases s with
    | nil =>
      rw [occursIn_nil] at hocc
      exact absurd hocc hpat
    | cons c t =>
      rw [replaceAll]
      by_cases hm : pat ≠ [] ∧ pat.isPrefixOf (c :: t)
      · rw [dif_pos hm]
        exact ⟨[], _, rfl⟩
      · rw [dif_neg hm]
        have hlen : t.length ≤ n := by
          simp only [List.length_cons] at hs; omega
        rcases (occursIn_cons _ _ _).mp hocc with ⟨v, hv⟩ | htail
        · exact absurd ⟨hpat, (isPre_iff _ _).mpr ⟨v, hv⟩⟩ hm
        · exact (occursIn_cons _ _ _).mpr (Or.inr (ih t hlen htail hpat))

/-- A successful class consume decomposes the input. -/
theorem eatWhile1_eq {p : Char → Bool} {g s s' : List Char}
    (h : eatWhile1 p s = some (g, s')) : s = g ++ s' := by
  simp only [eatWhile1] at h
  split_ifs at h
  simp only [Option.some.injEq, Prod.mk.injEq] at h
  rw [← h.1, ← h.2, List.takeWhile_append_dropWhile]

/-- Structure of a successful route match: the input decomposes into the
regex components and the output is the stub over the captures. -/
theorem routeMatchAt_decomp {s : List Char} {r : List Char × List Char}
    (h : routeMatchAt s = some r) :
    ∃ g1 g2 g3 ws1 par ws2 ws3,
      r.1 = routeStub g1 g2 g3 ∧
      s = strAtApp ++ (g1 ++ (strLParenQuote ++ (g2 ++ (strQuoteRParen ++ (ws1 ++
        (strDefSp ++ (g3 ++ (strLParen ++ (par ++ (strRParenColon ++ (ws2 ++
          (strDots ++ (ws3 ++ r.2))))))))))))) := by
  unfold routeMatchAt at h
  cases h1 : eatLit strAtApp s with
  | none => rw [h1] at h; exact absurd h (by simp)
  | some s1 =>
  rw [h1] at h
  simp only [Option.bind_eq_bind, Option.some_bind] at h
  cases h2 : eatWhile1 (fun c => 'a' ≤ c && c ≤ 'z') s1 with
  | none => rw [h2] at h; exact absurd h (by simp)
  | some gs2 =>
  obtain ⟨g1, s2⟩ := gs2
  rw [h2] at h
  simp only [Option.some_bind] at h
  cases h3 : eatLit strLParenQuote s2 with
  | none => rw [h3] at h; exact absurd h (by simp)
  | some s3 =>
  rw [h3] at h
  simp only [Option.some_bind] at h
  cases h4 : eatWhile1 (fun c => c != '"') s3 with
  | none => rw [h4] at h; exact absurd h (by simp)
  | some gs4 =>
  obtain ⟨g2, s4⟩ := gs4
  rw [h4] at h
  simp only [Option.some_bind] at h
  cases h5 : eatLit strQuoteRParen s4 with
  | none => rw [h5] at h; exact absurd h (by simp)
  | some s5 =>
  rw [h5] at h
  simp only [Option.some_bind] at h
  split_ifs at h with hnl
  swap
  · exact absurd h (by simp)
  simp only [Option.some_bind] at h
  cases h6 : eatLit strDefSp (s5.dropWhile pyIsSpace) with
  | none => rw [h6] at h; exact absurd h (by simp)
  | some s6 =>
  rw [h6] at h
  simp only [Option.some_bind] at h
  cases h7 : eatWhile1 (fun c => c != '(') s6 with
  | none => rw [h7] at h; exact absurd h (by simp)
  | some gs7 =>
  obtain ⟨g3, s8⟩ := gs7
  rw [h7] at h
  simp only [Option.some_bind] at h
  cases h8 : eatLit strLParen s8 with
  | none => rw [h8] at h; exact absurd h (by simp)
  | some s9 =>
  rw [h8] at h
  simp only [Option.some_bind] at h
  cases h9 : eatLit strRParenColon (s9.dropWhile (fun c => c != ')')) with
  | none => rw [h9] at h; exact absurd h (by simp)
  | some s11 =>
  rw [h9] at h
  simp only [Option.some_bind] at h
  cases h10 : eatLit strDots (s11.dropWhile pyIsSpace) with
  | none => rw [h10] at h; exact absurd h (by simp)
  | some s13 =>
  rw [h10] at h
  simp only [Option.some_bind, Option.pure_def, Option.some.injEq] at h
  refine ⟨g1, g2, g3, s5.takeWhile pyIsSpace, s9.takeWhile (fun c => c != ')'),
    s11.takeWhile pyIsSpace, s13.takeWhile pyIsSpace, ?_, ?_⟩
  · rw [← h]
  · have e1 : s = strAtApp ++ s1 := eatLit_eq h1
    have e2 : s1 = g1 ++ s2 := eatWhile1_eq h2
    have e3 : s2 = strLParenQuote ++ s3 := eatLit_eq h3
    have e4 : s3 = g2 ++ s4 := eatWhile1_eq h4
    have e5 : s4 = strQuoteRParen ++ s5 := eatLit_eq h5
    have e6 : s5 = s5.takeWhile pyIsSpace ++ s5.dropWhile pyIsSpace :=
      (List.takeWhile_append_dropWhile _ _).symm
    have e7 : s5.dropWhile pyIsSpace = strDefSp ++ s6 := eatLit_eq h6
    have e8 : s6 = g3 ++ s8 := eatWhile1_eq h7
    have e9 : s8 = strLParen ++ s9 := eatLit_eq h8
    have e10 : s9 = s9.takeWhile (fun c => c != ')') ++ s9.dropWhile (fun c => c != ')') :=
      (List.takeWhile_append_dropWhile _ _).symm
    have e11 : s9.dropWhile (fun c => c != ')') = strRParenColon ++ s11 := eatLit_eq h9
    have e12 : s11 = s11.takeWhile pyIsSpace ++ s11.dropWhile pyIsSpace :=
      (List.takeWhile_append_dropWhile _ _).symm
    have e13 : s11.dropWhile pyIsSpace = strDots ++ s13 := eatLit_eq h10
    have e14 : s13 = s13.takeWhile pyIsSpace ++ s13.dropWhile pyIsSpace :=
      (List.takeWhile_append_dropWhile _ _).symm
    have e15 : r.2 = s13.dropWhile pyIsSpace := by rw [← h]
    rw [e1, e2, e3, e4, e5]
    rw [show strQuoteRParen ++ s5 = strQuoteRParen ++ (s5.takeWhile pyIsSpace ++
      s5.dropWhile pyIsSpace) from by rw [← e6]]
    rw [e7, e8, e9]
    rw [show strLParen ++ s9 = strLParen ++ (s9.takeWhile (fun c => c != ')') ++
      s9.dropWhile (fun c => c != ')')) from by rw [← e10]]
    rw [e11]
    rw [show strRParenColon ++ s11 = strRParenColon ++ (s11.takeWhile pyIsSpace ++
      s11.dropWhile pyIsSpace) from by rw [← e12]]
    rw [e13]
    rw [show strDots ++ s13 = strDots ++ (s13.takeWhile pyIsSpace ++
      s13.dropWhile pyIsSpace) from by rw [← e14]]
    rw [e15]

/-- The head of an ending piece is a member of the whole. -/
theorem head_mem_of_suffix {pc : Char} {pt q : List Char} (h : (pc :: pt) <:+ q) :
    pc ∈ q := by
  obtain ⟨u, hu⟩ := h
  rw [← hu]
  simp

/-- A proper split part is not the whole token. -/
theorem ne_of_split {q p1 p2 : List Char} (hsp : q = p1 ++ p2) (hp2 : p2 ≠ []) :
    p1 ≠ q := by
  intro hx
  rw [hx] at hsp
  have := congrArg List.length hsp
  simp only [List.length_append] at this
  exact hp2 (List.eq_nil_of_length_eq_zero (by omega))

/-- Discharge of SegSafe from boolean scans. -/
theorem segSafe_of_bools {q F : List Char}
    (h1 : pyIn q F = false) (h2 : pyIn F q = false)
    (h3 : q.inits.all
      (fun p => p.isEmpty || p == q || !(p.reverse.isPrefixOf F.reverse)) = true)
    (h4 : q.tails.all (fun p => p.isEmpty || !(p.isPrefixOf F)) = true) :
    SegSafe q F := by
  refine ⟨?_, ?_, ?_, ?_⟩
  · intro h
    rw [← pyIn_iff] at h
    rw [h1] at h
    exact absurd h (by simp)
  · intro h
    rw [← pyIn_iff] at h
    rw [h2] at h
    exact absurd h (by simp)
  · exact cond_of_inits h3
  · exact cond_of_tails h4

/-- An occurrence in the route stub that is insulated from every fixed
segment lies inside one of the captures. -/
theorem routeStub_occ {q g1 g2 g3 : List Char}
    (hsafe : ∀ F ∈ [strAtApp, strLParenQuote, routeSegA2, routeSegA3,
      routeSegA4, routeSegA5], SegSafe q F)
    (h : occursIn q (routeStub g1 g2 g3)) :
    occursIn q g1 ∨ occursIn q g2 ∨ occursIn q g3 := by
  have s0 : SegSafe q strAtApp := hsafe _ (by simp)
  have s1 : SegSafe q strLParenQuote := hsafe _ (by simp)
  have s2 : SegSafe q routeSegA2 := hsafe _ (by simp)
  have s3 : SegSafe q routeSegA3 := hsafe _ (by simp)
  have s4 : SegSafe q routeSegA4 := hsafe _ (by simp)
  have s5 : SegSafe q routeSegA5 := hsafe _ (by simp)
  rw [routeStub_eq] at h
  -- level 0: strAtApp ++ T1
  rcases occursIn_append _ _ _ h with h | h | ⟨p1, p2, hsp, hp1, hp2, ⟨u, hu⟩, -⟩
  · exact absurd h s0.1
  swap
  · exact absurd ⟨u, hu.symm⟩ (s0.2.2.1 p1 ⟨p2, hsp.symm⟩ hp1 (ne_of_split hsp hp2))
  -- level 1: g1 ++ T2, T2 = strLParenQuote ++ T3
  rcases occursIn_append _ _ _ h with h | h | ⟨p1, p2, hsp, hp1, hp2, -, ⟨v, hv⟩⟩
  · exact Or.inl h
  swap
  · have hpre : p2 <+: strLParenQuote ++ (g2 ++ (routeSegA2 ++ (g3 ++
        (routeSegA3 ++ (g2 ++ (routeSegA4 ++ (g2 ++ routeSegA5))))))) := ⟨v, hv.symm⟩
    have hp2q : p2 <:+ q := ⟨p1, hsp.symm⟩
    rcases pre_append_cases hpre with hA | hB
    · exact absurd hA (s1.2.2.2 p2 hp2q hp2)
    · exact absurd (occursIn_of_pre_sub hB hp2q) s1.2.1
  -- level 2: strLParenQuote ++ T3
  rcases occursIn_append _ _ _ h with h | h | ⟨p1, p2, hsp, hp1, hp2, ⟨u, hu⟩, -⟩
  · exact absurd h s1.1
  swap
  · exact absurd ⟨u, hu.symm⟩ (s1.2.2.1 p1 ⟨p2, hsp.symm⟩ hp1 (ne_of_split hsp hp2))
  -- level 3: g2 ++ T4, T4 = routeSegA2 ++ T5
  rcases occursIn_append _ _ _ h with h | h | ⟨p1, p2, hsp, hp1, hp2, -, ⟨v, hv⟩⟩
  · exact Or.inr (Or.inl h)
  swap
  · have hpre : p2 <+: routeSegA2 ++ (g3 ++ (routeSegA3 ++ (g2 ++
        (routeSegA4 ++ (g2 ++ routeSegA5))))) := ⟨v, hv.symm⟩
    have hp2q : p2 <:+ q := ⟨p1, hsp.symm⟩
    rcases pre_append_cases hpre with hA | hB
    · exact absurd hA (s2.2.2.2 p2 hp2q hp2)
    · exact absurd (occursIn_of_pre_sub hB hp2q) s2.2.1
  -- level 4: routeSegA2 ++ T5
  rcases occursIn_append _ _ _ h with h | h | ⟨p1, p2, hsp, hp1, hp2, ⟨u, hu⟩, -⟩
  · exact absurd h s2.1
  swap
  · exact absurd ⟨u, hu.symm⟩ (s2.2.2.1 p1 ⟨p2, hsp.symm⟩ hp1 (ne_of_split hsp hp2))
  -- level 5: g3 ++ T6, T6 = routeSegA3 ++ T7
  rcases occursIn_append _ _ _ h with h | h | ⟨p1, p2, hsp, hp1, hp2, -, ⟨v, hv⟩⟩
  · exact Or.inr (Or.inr h)
  swap
  · have hpre : p2 <+: routeSegA3 ++ (g2 ++ (routeSegA4 ++ (g2 ++ routeSegA5))) :=
      ⟨v, hv.symm⟩
    have hp2q : p2 <:+ q := ⟨p1, hsp.symm⟩
    rcases pre_append_cases hpre with hA | hB
    · exact absurd hA (s3.2.2.2 p2 hp2q hp2)
    · exact absurd (occursIn_of_pre_sub hB hp2q) s3.2.1
  -- level 6: routeSegA3 ++ T7
  rcases occursIn_append _ _ _ h with h | h | ⟨p1, p2, hsp, hp1, hp2, ⟨u, hu⟩, -⟩
  · exact absurd h s3.1
  swap
  · exact absurd ⟨u, hu.symm⟩ (s3.2.2.1 p1 ⟨p2, hsp.symm⟩ hp1 (ne_of_split hsp hp2))
  -- level 7: g2 ++ T8, T8 = routeSegA4 ++ T9
  rcases occursIn_append _ _ _ h with h | h | ⟨p1, p2, hsp, hp1, hp2, -, ⟨v, hv⟩⟩
  · exact Or.inr (Or.inl h)
  swap
  · have hpre : p2 <+: routeSegA4 ++ (g2 ++ routeSegA5) := ⟨v, hv.symm⟩
    have hp2q : p2 <:+ q := ⟨p1, hsp.symm⟩
    rcases pre_append_cases hpre with hA | hB
    · exact absurd hA (s4.2.2.2 p2 hp2q hp2)
    · exact absurd (occursIn_of_pre_sub hB hp2q) s4.2.1
  -- level 8: routeSegA4 ++ T9
  rcases occursIn_append _ _ _ h with h | h | ⟨p1, p2, hsp, hp1, hp2, ⟨u, hu⟩, -⟩
  · exact absurd h s4.1
  swap
  · exact absurd ⟨u, hu.symm⟩ (s4.2.2.1 p1 ⟨p2, hsp.symm⟩ hp1 (ne_of_split hsp hp2))
  -- level 9: g2 ++ routeSegA5
  rcases occursIn_append _ _ _ h with h | h | ⟨p1, p2, hsp, hp1, hp2, -, ⟨v, hv⟩⟩
  · exact Or.inr (Or.inl h)
  · exact absurd h s5.1
  · exact absurd ⟨v, hv.symm⟩ (s5.2.2.2 p2 ⟨p1, hsp.symm⟩ hp2)

/-- An ending piece of the right factor ends the concatenation. -/
theorem suffix_append_left {t y : List Char} (x : List Char) (h : t <:+ y) :
    t <:+ x ++ y := by
  obtain ⟨u, hu⟩ := h
  exact ⟨x ++ u, by rw [List.append_assoc, hu]⟩

/-- Prefix transfer out of the route scan: a piece of a token without the at
sign that starts the output starts the input. -/
theorem subScan_pre_transfer_route {q : List Char} (hat : ('@' : Char) ∉ q) :
    ∀ (n : Nat) (s : List Char), s.length ≤ n → ∀ p, p <:+ q →
      p <+: subScan routeMatchAt s → p <+: s := by
  intro n
  induction n with
  | zero =>
    intro s hs p hp hpre
    have hnil : s = [] := List.eq_nil_of_length_eq_zero (Nat.le_zero.mp hs)
    subst hnil
    rw [subScan] at hpre
    exact hpre
  | succ n ih =>
    intro s hs p hp hpre
    cases s with
    | nil =>
      rw [subScan] at hpre
      exact hpre
    | cons c rest =>
      have hlen : rest.length ≤ n := by
        simp only [List.length_cons] at hs; omega
      rw [subScan] at hpre
      have htail : p <+: c :: subScan routeMatchAt rest → p <+: c :: rest := by
        intro hx
        cases p with
        | nil => exact pre_nil
        | cons pc pt =>
          obtain ⟨rfl, hpt⟩ := pre_cons_iff.mp hx
          exact pre_cons_iff.mpr ⟨rfl, ih rest hlen pt (suffix_tail_of hp) hpt⟩
      cases hm : routeMatchAt (c :: rest) with
      | none =>
        rw [hm] at hpre
        exact htail hpre
      | some pr =>
        obtain ⟨rp, rem⟩ := pr
        rw [hm] at hpre
        dsimp only at hpre
        by_cases hg : rem.length < rest.length + 1
        · rw [dif_pos hg] at hpre
          obtain ⟨g1, g2, g3, ws1, par, ws2, ws3, hr1, -⟩ := routeMatchAt_decomp hm
          dsimp only at hr1
          obtain ⟨tl, htl⟩ := routeStub_head g1 g2 g3
          cases p with
          | nil => exact pre_nil
          | cons pc pt =>
            exfalso
            rcases pre_append_cases hpre with hA | hB
            · rw [hr1, htl] at hA
              obtain ⟨rfl, -⟩ := pre_cons_iff.mp hA
              exact hat (head_mem_of_suffix hp)
            · rw [hr1, htl] at hB
              obtain ⟨heq, -⟩ := pre_cons_iff.mp hB
              rw [heq] at hat
              exact hat (head_mem_of_suffix hp)
        · rw [dif_neg hg] at hpre
          exact htail hpre

/-- Absence of a token is preserved by the route scan when the token is
insulated from the stub text. -/
theorem subScan_route_absent {q : List Char} (hq : q ≠ [])
    (hat : ('@' : Char) ∉ q) (hnl : ('\n' : Char) ∉ q)
    (hsafe : ∀ F ∈ [strAtApp, strLParenQuote, routeSegA2, routeSegA3,
      routeSegA4, routeSegA5], SegSafe q F) :
    ∀ (n : Nat) (s : List Char), s.length ≤ n → ¬ occursIn q s →
      ¬ occursIn q (subScan routeMatchAt s) := by
  intro n
  induction n with
  | zero =>
    intro s hs hqs
    have hnil : s = [] := List.eq_nil_of_length_eq_zero (Nat.le_zero.mp hs)
    subst hnil
    rw [subScan]
    exact hqs
  | succ n ih =>
    intro s hs hqs
    cases s with
    | nil =>
      rw [subScan]
      exact hqs
    | cons c rest =>
      have hlen : rest.length ≤ n := by
        simp only [List.length_cons] at hs; omega
      have hqrest : ¬ occursIn q rest := fun hx =>
        hqs ((occursIn_cons q c rest).mpr (Or.inr hx))
      have htail : ¬ occursIn q (c :: subScan routeMatchAt rest) := by
        intro hx
        rcases (occursIn_cons _ _ _).mp hx with ⟨v, hv⟩ | ht
        · obtain ⟨qc, qt, rfl⟩ : ∃ qc qt, q = qc :: qt := by
            cases q with
            | nil => exact absurd rfl hq
            | cons a b => exact ⟨a, b, rfl⟩
          obtain ⟨rfl, hqt⟩ := pre_cons_iff.mp ⟨v, hv.symm⟩
          have := subScan_pre_transfer_route hat rest.length rest le_rfl qt
            (suffix_tail_of (List.suffix_refl _)) hqt
          obtain ⟨w, hw⟩ := this
          exact hqs ⟨[], w, by rw [← hw]; rfl⟩
        · exact ih rest hlen hqrest ht
      rw [subScan]
      cases hm : routeMatchAt (c :: rest) with
      | none => exact htail
      | some pr =>
        obtain ⟨rp, rem⟩ := pr
        dsimp only
        by_cases hg : rem.length < rest.length + 1
        · rw [dif_pos hg]
          intro hocc
          obtain ⟨g1, g2, g3, ws1, par, ws2, ws3, hr1, heq⟩ := routeMatchAt_decomp hm
          dsimp only at hr1 heq
          have hrem : rem <:+ (c :: rest) := by
            rw [heq]
            apply suffix_append_left
            apply suffix_append_left
            apply suffix_append_left
            apply suffix_append_left
            apply suffix_append_left
            apply suffix_append_left
            apply suffix_append_left
            apply suffix_append_left
            apply suffix_append_left
            apply suffix_append_left
            apply suffix_append_left
            apply suffix_append_left
            apply suffix_append_left
            apply suffix_append_left
            exact List.suffix_refl _
          rcases occursIn_append _ _ _ hocc with h1 | h2 | hstr
          · rw [hr1] at h1
            rcases routeStub_occ hsafe h1 with hg1 | hg2 | hg3
            · apply hqs
              rw [heq]
              exact occursIn_append_right _ (occursIn_append_left _ hg1)
            · apply hqs
              rw [heq]
              exact occursIn_append_right _ (occursIn_append_right _
                (occursIn_append_right _ (occursIn_append_left _ hg2)))
            · apply hqs
              rw [heq]
              exact occursIn_append_right _ (occursIn_append_right _
                (occursIn_append_right _ (occursIn_append_right _
                  (occursIn_append_right _ (occursIn_append_right _
                    (occursIn_append_right _ (occursIn_append_left _ hg3)))))))
          · have hlrem : rem.length ≤ n := by omega
            exact ih rem hlrem (fun hx => hqs (occursIn_of_suffix hx hrem)) h2
          · obtain ⟨p1, p2, hsp, hp1, hp2, ⟨u, hu⟩, -⟩ := hstr
            obtain ⟨Y, hY⟩ := routeStub_last g1 g2 g3
            have hp1rp : p1 <:+ rp := ⟨u, hu.symm⟩
            rw [hr1, hY] at hp1rp
            have : ('\n' : Char) ∈ p1 := mem_last_of_suffix hp1rp hp1
            have : ('\n' : Char) ∈ q := by
              rw [hsp]
              exact List.mem_append_left p2 this
            exact hnl this
        · rw [dif_neg hg]
          exact htail

/-- Occurrence is refuted by the boolean test. -/
theorem not_occ_of_pyIn {p s : List Char} (h : pyIn p s = false) :
    ¬ occursIn p s := fun hx =>
  absurd ((pyIn_iff p s).mpr hx) (by simp [h])

/-- The Python extension is in the structural-fix list. -/
theorem py_mem_exts {f : List Char} (hpy : extOf f = strPy) :
    extOf f ∈ extsPyJs := by
  rw [hpy]
  simp [extsPyJs]

/-- The database-setup trigger occurs in the database-setup pattern. -/
theorem create_in_createpat : occursIn strCreateOrCreate strCreatePat :=
  ⟨[], "(database_url=DATABASE0DB)".toList, by decide⟩

/-- The database-setup pattern does not occur in the repairer's output for a
Python file (claim C6, first obligation). -/
theorem fix_no_createpat (s f : List Char) (hpy : extOf f = strPy)
    (h1 : s ≠ []) (h2 : hasPlaceholders s = true) :
    ¬ occursIn strCreatePat (fix_incomplete_code s f) := by
  simp only [fix_incomplete_code]
  rw [if_neg h1, if_neg (by simp [h2]), bracket_pass_id,
    if_pos (py_mem_exts hpy), if_pos hpy]
  have hb : ¬ occursIn strCreatePat
      (if pyIn strCreateOrCreate (subScan defMatchAt s) = true then
        replaceAll strCreatePat strCreateRep (subScan defMatchAt s)
      else subScan defMatchAt s) := by
    split_ifs with hc
    · exact replaceAll_self_absent (by decide) (not_occ_of_pyIn (by decide))
        (cond_of_tails (by decide)) (cond_of_inits (by decide))
        (not_occ_of_pyIn (by decide)) _ _ le_rfl
    · intro hx
      exact hc ((pyIn_iff _ _).mpr (occursIn_trans create_in_createpat hx))
  generalize hbeq : (if pyIn strCreateOrCreate (subScan defMatchAt s) = true then
      replaceAll strCreatePat strCreateRep (subScan defMatchAt s)
    else subScan defMatchAt s) = b at hb ⊢
  have hcl : ¬ occursIn strCreatePat
      (if pyIn strImportDotenv b = true ∧ ¬ pyIn strImportOs b = true then
        replaceAll strImportDotenv strImportOsDotenv b
      else b) := by
    split_ifs with hd
    · exact replaceAll_absent (by decide) (not_occ_of_pyIn (by decide))
        (cond_of_tails (by decide)) (cond_of_inits (by decide))
        (not_occ_of_pyIn (by decide)) _ _ le_rfl hb
    · exact hb
  generalize hceq : (if pyIn strImportDotenv b = true ∧ ¬ pyIn strImportOs b = true then
      replaceAll strImportDotenv strImportOsDotenv b
    else b) = cval at hcl ⊢
  have hroute : ¬ occursIn strCreatePat (subScan routeMatchAt cval) := by
    refine subScan_route_absent (by decide) (by decide) (by decide) ?_ _ _ le_rfl hcl
    intro F hF
    simp only [List.mem_cons, List.not_mem_nil, or_false] at hF
    rcases hF with rfl | rfl | rfl | rfl | rfl | rfl
    · exact segSafe_of_bools (by decide) (by decide) (by decide) (by decide)
    · exact segSafe_of_bools (by decide) (by decide) (by decide) (by decide)
    · exact segSafe_of_bools (by decide) (by decide) (by decide) (by decide)
    · exact segSafe_of_bools (by decide) (by decide) (by decide) (by decide)
    · exact segSafe_of_bools (by decide) (by decide) (by decide) (by decide)
    · exact segSafe_of_bools (by decide) (by decide) (by decide) (by decide)
  exact replaceAll_absent (by decide) (not_occ_of_pyIn (by decide))
    (cond_of_tails (by decide)) (cond_of_inits (by decide))
    (not_occ_of_pyIn (by decide)) _ _ le_rfl hroute

-- Claim C6, second obligation: structure of the def-scanner output.

/-- The fixed middle segment of the def stub. -/
theorem defStub_eq (g1 : List Char) :
    defStub g1 = strDefSp ++ g1 ++ "():\n    \"\"\"Implementation for ".toList ++
      g1 ++ "\"\"\"\n    pass\n\n".toList := rfl

/-- Consuming an exact literal from a string that starts with it. -/
theorem eatLit_append (lit t : List Char) : eatLit lit (lit ++ t) = some t := by
  unfold eatLit
  rw [if_pos ((isPre_iff lit (lit ++ t)).mpr ⟨t, rfl⟩)]
  simp [List.drop_left]

/-- takeWhile over a concatenation whose left part satisfies the predicate. -/
theorem takeWhile_all_app {p : Char → Bool} {a : List Char} (b : List Char)
    (ha : ∀ c ∈ a, p c = true) :
    (a ++ b).takeWhile p = a ++ b.takeWhile p := by
  induction a with
  | nil => rfl
  | cons x xs ih =>
    simp only [List.cons_append, List.takeWhile_cons, ha x (List.mem_cons_self x xs),
      if_true]
    rw [ih (fun c hc => ha c (List.mem_cons_of_mem x hc))]

/-- dropWhile over a concatenation whose left part satisfies the predicate. -/
theorem dropWhile_all_app {p : Char → Bool} {a : List Char} (b : List Char)
    (ha : ∀ c ∈ a, p c = true) :
    (a ++ b).dropWhile p = b.dropWhile p := by
  induction a with
  | nil => rfl
  | cons x xs ih =>
    simp only [List.cons_append, List.dropWhile_cons, ha x (List.mem_cons_self x xs),
      if_true]
    rw [ih (fun c hc => ha c (List.mem_cons_of_mem x hc))]

/-- takeWhile stops at an unsatisfying head. -/
theorem takeWhile_stop {p : Char → Bool} {c : Char} (b : List Char) (hc : p c = false) :
    (c :: b).takeWhile p = [] := by
  simp [List.takeWhile_cons, hc]

/-- dropWhile stops at an unsatisfying head. -/
theorem dropWhile_stop {p : Char → Bool} {c : Char} (b : List Char) (hc : p c = false) :
    (c :: b).dropWhile p = c :: b := by
  simp [List.dropWhile_cons, hc]

/-- dropWhile consumes a satisfying run and stops at the blocking character. -/
theorem dropWhile_run {p : Char → Bool} {a : List Char} {c : Char} (b : List Char)
    (ha : ∀ x ∈ a, p x = true) (hc : p c = false) :
    (a ++ c :: b).dropWhile p = c :: b := by
  rw [dropWhile_all_app _ ha, dropWhile_stop _ hc]

/-- A greedy class consume over a run followed by a blocking character. -/
theorem eatWhile1_app {p : Char → Bool} {g : List Char} {c : Char} (t : List Char)
    (hg : g ≠ []) (hall : ∀ x ∈ g, p x = true) (hc : p c = false) :
    eatWhile1 p (g ++ c :: t) = some (g, c :: t) := by
  simp only [eatWhile1]
  rw [takeWhile_all_app _ hall, takeWhile_stop _ hc, dropWhile_run _ hall hc,
    List.append_nil]
  simp [List.isEmpty_iff, hg]

/-- Components of a greedy class consume. -/
theorem eatWhile1_parts {p : Char → Bool} {g s s' : List Char}
    (h : eatWhile1 p s = some (g, s')) :
    s = g ++ s' ∧ g ≠ [] ∧ ∀ c ∈ g, p c = true := by
  simp only [eatWhile1] at h
  split_ifs at h with hg
  simp only [Option.some.injEq, Prod.mk.injEq] at h
  refine ⟨?_, ?_, ?_⟩
  · rw [← h.1, ← h.2, List.takeWhile_append_dropWhile]
  · rw [← h.1]
    simpa [List.isEmpty_iff] using hg
  · intro c hc
    rw [← h.1] at hc
    exact List.mem_takeWhile_imp hc

/-- Membership in a takeWhile run satisfies the predicate. -/
theorem mem_takeWhile_pred {p : Char → Bool} {l : List Char} {c : Char}
    (hc : c ∈ l.takeWhile p) : p c = true :=
  List.mem_takeWhile_imp hc

/-- Structure of a successful def match: the input decomposes into the regex
components with their class constraints, and the output is the stub over the
captured name. -/
theorem defMatchAt_parts {s : List Char} {r : List Char × List Char}
    (h : defMatchAt s = some r) :
    ∃ g1 par ws2 ws3,
      r.1 = defStub g1 ∧
      s = strDefSp ++ (g1 ++ (strLParen ++ (par ++ (strRParenColon ++ (ws2 ++
        (strDots ++ (ws3 ++ r.2))))))) ∧
      g1 ≠ [] ∧ (∀ c ∈ g1, (c != '(') = true) ∧
      (∀ c ∈ par, (c != ')') = true) ∧
      (∀ c ∈ ws2, pyIsSpace c = true) ∧ (∀ c ∈ ws3, pyIsSpace c = true) := by
  unfold defMatchAt at h
  cases h1 : eatLit strDefSp s with
  | none => rw [h1] at h; exact absurd h (by simp)
  | some s1 =>
  rw [h1] at h
  simp only [Option.bind_eq_bind, Option.some_bind] at h
  cases h2 : eatWhile1 (fun c => c != '(') s1 with
  | none => rw [h2] at h; exact absurd h (by simp)
  | some gs2 =>
  obtain ⟨g1, s2⟩ := gs2
  rw [h2] at h
  simp only [Option.some_bind] at h
  cases h3 : eatLit strLParen s2 with
  | none => rw [h3] at h; exact absurd h (by simp)
  | some s3 =>
  rw [h3] at h
  simp only [Option.some_bind] at h
  cases h5 : eatLit strRParenColon (s3.dropWhile (fun c => c != ')')) with
  | none => rw [h5] at h; exact absurd h (by simp)
  | some s5 =>
  rw [h5] at h
  simp only [Option.some_bind] at h
  cases h7 : eatLit strDots (s5.dropWhile pyIsSpace) with
  | none => rw [h7] at h; exact absurd h (by simp)
  | some s7 =>
  rw [h7] at h
  simp only [Option.some_bind, Option.pure_def, Option.some.injEq] at h
  obtain ⟨e2, hg1ne, hg1all⟩ := eatWhile1_parts h2
  refine ⟨g1, s3.takeWhile (fun c => c != ')'), s5.takeWhile pyIsSpace,
    s7.takeWhile pyIsSpace, ?_, ?_, hg1ne, hg1all, ?_, ?_, ?_⟩
  · rw [← h]
  · have e1 : s = strDefSp ++ s1 := eatLit_eq h1
    have e3 : s2 = strLParen ++ s3 := eatLit_eq h3
    have e4 : s3 = s3.takeWhile (fun c => c != ')') ++ s3.dropWhile (fun c => c != ')') :=
      (List.takeWhile_append_dropWhile _ _).symm
    have e5 : s3.dropWhile (fun c => c != ')') = strRParenColon ++ s5 := eatLit_eq h5
    have e6 : s5 = s5.takeWhile pyIsSpace ++ s5.dropWhile pyIsSpace :=
      (List.takeWhile_append_dropWhile _ _).symm
    have e7 : s5.dropWhile pyIsSpace = strDots ++ s7 := eatLit_eq h7
    have e8 : s7 = s7.takeWhile pyIsSpace ++ s7.dropWhile pyIsSpace :=
      (List.takeWhile_append_dropWhile _ _).symm
    have e9 : r.2 = s7.dropWhile pyIsSpace := by rw [← h]
    rw [e1, e2, e3]
    rw [show strLParen ++ s3 = strLParen ++ (s3.takeWhile (fun c => c != ')') ++
      s3.dropWhile (fun c => c != ')')) from by rw [← e4]]
    rw [e5]
    rw [show strRParenColon ++ s5 = strRParenColon ++ (s5.takeWhile pyIsSpace ++
      s5.dropWhile pyIsSpace) from by rw [← e6]]
    rw [e7]
    rw [show strDots ++ s7 = strDots ++ (s7.takeWhile pyIsSpace ++
      s7.dropWhile pyIsSpace) from by rw [← e8]]
    rw [e9]
  · intro c hc
    have hx := mem_takeWhile_pred hc
    exact hx
  · intro c hc
    have hx := mem_takeWhile_pred hc
    exact hx
  · intro c hc
    have hx := mem_takeWhile_pred hc
    exact hx

/-- Sufficient conditions for a def match at the head: the match succeeds for
every continuation, producing the stub and consuming trailing whitespace. -/
theorem defMatchAt_complete (g1 par ws2 X : List Char)
    (hg1 : g1 ≠ []) (hg1p : ∀ c ∈ g1, (c != '(') = true)
    (hpar : ∀ c ∈ par, (c != ')') = true)
    (hws : ∀ c ∈ ws2, pyIsSpace c = true) :
    defMatchAt (strDefSp ++ (g1 ++ (strLParen ++ (par ++ (strRParenColon ++ (ws2 ++
        (strDots ++ X))))))) = some (defStub g1, X.dropWhile pyIsSpace) := by
  have hL : strLParen ++ (par ++ (strRParenColon ++ (ws2 ++ (strDots ++ X)))) =
      '(' :: (par ++ (strRParenColon ++ (ws2 ++ (strDots ++ X)))) := rfl
  unfold defMatchAt
  rw [eatLit_append]
  simp only [Option.bind_eq_bind, Option.some_bind]
  rw [hL, eatWhile1_app _ hg1 hg1p (by decide)]
  simp only [Option.some_bind]
  rw [show ('(' : Char) :: (par ++ (strRParenColon ++ (ws2 ++ (strDots ++ X)))) =
    strLParen ++ (par ++ (strRParenColon ++ (ws2 ++ (strDots ++ X)))) from rfl]
  rw [eatLit_append]
  simp only [Option.some_bind]
  rw [show (par ++ (strRParenColon ++ (ws2 ++ (strDots ++ X)))) =
    par ++ (')' :: (':' :: (ws2 ++ (strDots ++ X)))) from rfl]
  rw [dropWhile_run _ hpar (by decide)]
  rw [show (')' :: (':' :: (ws2 ++ (strDots ++ X)))) =
    strRParenColon ++ (ws2 ++ (strDots ++ X)) from rfl]
  rw [eatLit_append]
  simp only [Option.some_bind]
  rw [show ws2 ++ (strDots ++ X) = ws2 ++ ('.' :: ('.' :: ('.' :: X))) from rfl]
  rw [dropWhile_run _ hws (by decide)]
  rw [show ('.' :: ('.' :: ('.' :: X))) = strDots ++ X from rfl]
  rw [eatLit_append]
  simp only [Option.some_bind, Option.pure_def]

/-- Segmented form of the def stub, isolating the parenthesis. -/
theorem defStub_seg (g1 : List Char) :
    defStub g1 = strDefSp ++ (g1 ++ (strLParen ++ (defSegTail ++ (g1 ++ defSegEnd)))) := by
  have hMid : "():\n    \"\"\"Implementation for ".toList = strLParen ++ defSegTail := by decide
  simp only [defStub, defSegEnd, hMid, List.append_assoc]

/-- Membership implies a positive count. -/
theorem count_pos_of_mem {c : Char} {l : List Char} (h : c ∈ l) : 1 ≤ l.count c := by
  induction l with
  | nil => cases h
  | cons x xs ih =>
    rcases List.mem_cons.mp h with rfl | hm
    · simp [List.count_cons]
    · have := ih hm
      simp only [List.count_cons]
      omega

/-- A class-constrained capture contains no parenthesis. -/
theorem count_paren_zero {l : List Char} (h : ∀ c ∈ l, (c != '(') = true) :
    l.count '(' = 0 := by
  rw [List.count_eq_zero]
  intro hm
  have := h _ hm
  simp at this

/-- A whitespace run followed by the ellipsis cannot equal the stub's
post-colon text, which opens a docstring after the indent. -/
theorem wsDotsContra : ∀ (ws : List Char), (∀ c ∈ ws, pyIsSpace c = true) →
    ∀ (Z T : List Char),
      ws ++ (strDots ++ Z) = '\n' :: ' ' :: ' ' :: ' ' :: ' ' :: '"' :: T → False := by
  intro ws hws Z T h
  rcases ws with _ | ⟨w1, _ | ⟨w2, _ | ⟨w3, _ | ⟨w4, _ | ⟨w5, t5⟩⟩⟩⟩⟩
  · simp only [List.nil_append, strDots] at h
    simp at h
  · simp only [List.cons_append, List.nil_append, strDots, List.cons.injEq] at h
    simp at h
  · simp only [List.cons_append, List.nil_append, strDots, List.cons.injEq] at h
    simp at h
  · simp only [List.cons_append, List.nil_append, strDots, List.cons.injEq] at h
    simp at h
  · simp only [List.cons_append, List.nil_append, strDots, List.cons.injEq] at h
    simp at h
  · rcases t5 with _ | ⟨w6, t6⟩
    · simp only [List.cons_append, List.nil_append, strDots, List.cons.injEq] at h
      simp at h
    · have hm : pyIsSpace w6 = true := hws w6 (by simp)
      simp only [List.cons_append, List.cons.injEq] at h
      obtain ⟨-, -, -, -, -, h6, -⟩ := h
      rw [h6] at hm
      simp [pyIsSpace] at hm

/-- Cure: if the def scan succeeds at a chunk position followed by a def stub,
it also succeeds there with the raw matched text the stub replaced, for any
continuation.  The scan cannot be rescued by the substitution. -/
theorem defCure {cr g1v par ws2 : List Char} (X Y : List Char)
    {r : List Char × List Char}
    (h : defMatchAt (cr ++ (defStub g1v ++ Y)) = some r) :
    ∃ r', defMatchAt (cr ++ (strDefSp ++ (g1v ++ (strLParen ++ (par ++
      (strRParenColon ++ (ws2 ++ (strDots ++ X)))))))) = some r' := by
  obtain ⟨G1, PAR, WS2, WS3, hrep, heq, hG1ne, hG1p, hPAR, hWS2, hWS3⟩ :=
    defMatchAt_parts h
  have hLP : strLParen = ['('] := by decide
  have hTailHead : defSegTail = ')' :: ':' :: '\n' :: ' ' :: ' ' :: ' ' :: ' ' ::
      '"' :: '"' :: '"' :: "Implementation for ".toList := by decide
  have hA : cr ++ (defStub g1v ++ Y) =
      (cr ++ (strDefSp ++ (g1v ++ strLParen))) ++ (defSegTail ++ (g1v ++ (defSegEnd ++ Y))) := by
    rw [defStub_seg]
    simp only [List.append_assoc]
  have hS2 : cr ++ (defStub g1v ++ Y) =
      (strDefSp ++ (G1 ++ (strLParen ++ (PAR ++ (strRParenColon ++ (WS2 ++ strDots)))))) ++
        (WS3 ++ r.2) := by
    rw [heq]
    simp only [List.append_assoc]
  have hApre : (cr ++ (strDefSp ++ (g1v ++ strLParen))) <+: cr ++ (defStub g1v ++ Y) :=
    ⟨defSegTail ++ (g1v ++ (defSegEnd ++ Y)), hA.symm⟩
  have hDpre : (strDefSp ++ (G1 ++ (strLParen ++ (PAR ++ (strRParenColon ++
      (WS2 ++ strDots)))))) <+: cr ++ (defStub g1v ++ Y) := ⟨WS3 ++ r.2, hS2.symm⟩
  have main : (strDefSp ++ (G1 ++ (strLParen ++ (PAR ++ (strRParenColon ++
        (WS2 ++ strDots)))))) <+: (cr ++ (strDefSp ++ (g1v ++ strLParen))) →
      ∃ r', defMatchAt (cr ++ (strDefSp ++ (g1v ++ (strLParen ++ (par ++
        (strRParenColon ++ (ws2 ++ (strDots ++ X)))))))) = some r' := by
    intro hDA
    obtain ⟨w, hw⟩ := hDA
    refine ⟨(defStub G1, List.dropWhile pyIsSpace (w ++ (par ++ (strRParenColon ++
      (ws2 ++ (strDots ++ X)))))), ?_⟩
    have hRfinal : cr ++ (strDefSp ++ (g1v ++ (strLParen ++ (par ++
        (strRParenColon ++ (ws2 ++ (strDots ++ X))))))) =
        strDefSp ++ (G1 ++ (strLParen ++ (PAR ++ (strRParenColon ++ (WS2 ++
          (strDots ++ (w ++ (par ++ (strRParenColon ++ (ws2 ++ (strDots ++ X))))))))))) := by
      have e1 : cr ++ (strDefSp ++ (g1v ++ (strLParen ++ (par ++
          (strRParenColon ++ (ws2 ++ (strDots ++ X))))))) =
          (cr ++ (strDefSp ++ (g1v ++ strLParen))) ++ (par ++
          (strRParenColon ++ (ws2 ++ (strDots ++ X)))) := by
        simp only [List.append_assoc]
      rw [e1, ← hw]
      simp only [List.append_assoc]
    rw [hRfinal]
    exact defMatchAt_complete G1 PAR WS2
      (w ++ (par ++ (strRParenColon ++ (ws2 ++ (strDots ++ X))))) hG1ne hG1p hPAR hWS2
  rcases List.prefix_or_prefix_of_prefix hDpre hApre with hDA | hAD
  · exact main hDA
  obtain ⟨Drest, hDeq⟩ := hAD
  have hstail_eq : defSegTail ++ (g1v ++ (defSegEnd ++ Y)) = Drest ++ (WS3 ++ r.2) := by
    have hcat : (cr ++ (strDefSp ++ (g1v ++ strLParen))) ++
        (defSegTail ++ (g1v ++ (defSegEnd ++ Y))) =
        (cr ++ (strDefSp ++ (g1v ++ strLParen))) ++ (Drest ++ (WS3 ++ r.2)) := by
      rw [← hA, hS2, ← hDeq]
      simp only [List.append_assoc]
    exact List.append_cancel_left hcat
  have hmarch : Drest = strRParenColon ++ (WS2 ++ strDots) → False := by
    intro hform
    rw [hform, hTailHead] at hstail_eq
    have h2 : ')' :: ':' :: ('\n' :: ' ' :: ' ' :: ' ' :: ' ' :: '"' :: '"' :: '"' ::
        ("Implementation for ".toList ++ (g1v ++ (defSegEnd ++ Y)))) =
        ')' :: ':' :: (WS2 ++ (strDots ++ (WS3 ++ r.2))) := by
      simpa only [strRParenColon, List.cons_append, List.nil_append,
        List.append_assoc] using hstail_eq
    have h3 := ((List.cons.injEq _ _ _ _).mp
      (((List.cons.injEq _ _ _ _).mp h2).2)).2
    exact wsDotsContra WS2 hWS2 (WS3 ++ r.2)
      ('"' :: '"' :: ("Implementation for ".toList ++ (g1v ++ (defSegEnd ++ Y)))) h3.symm
  cases Drest with
  | nil =>
    refine main ?_
    rw [← hDeq]
    exact ⟨[], by simp⟩
  | cons dc dt =>
    exfalso
    have hdc : dc = ')' := by
      rw [hTailHead] at hstail_eq
      simpa using ((List.cons.injEq _ _ _ _).mp (by simpa using hstail_eq)).1.symm
    subst hdc
    have hP1D : strDefSp ++ (G1 ++ (strLParen ++ (PAR ++ (strRParenColon ++
        (WS2 ++ strDots))))) = (strDefSp ++ (G1 ++ strLParen)) ++
        (PAR ++ (strRParenColon ++ (WS2 ++ strDots))) := by
      simp only [List.append_assoc]
    have hApreD : (cr ++ (strDefSp ++ (g1v ++ strLParen))) <+:
        strDefSp ++ (G1 ++ (strLParen ++ (PAR ++ (strRParenColon ++ (WS2 ++ strDots))))) :=
      ⟨')' :: dt, hDeq⟩
    have hP1pre : (strDefSp ++ (G1 ++ strLParen)) <+:
        strDefSp ++ (G1 ++ (strLParen ++ (PAR ++ (strRParenColon ++ (WS2 ++ strDots))))) :=
      ⟨PAR ++ (strRParenColon ++ (WS2 ++ strDots)), hP1D.symm⟩
    have hAform : cr ++ (strDefSp ++ (g1v ++ strLParen)) =
        (cr ++ (strDefSp ++ g1v)) ++ ['('] := by
      rw [hLP]
      simp only [List.append_assoc]
    rcases List.prefix_or_prefix_of_prefix hApreD hP1pre with hA_P1 | hP1_A
    · obtain ⟨w, hwP⟩ := hA_P1
      cases w with
      | nil =>
        have hAeqP1 : cr ++ (strDefSp ++ (g1v ++ strLParen)) =
            strDefSp ++ (G1 ++ strLParen) := by
          simpa using hwP
        have hcat2 : (cr ++ (strDefSp ++ (g1v ++ strLParen))) ++ (')' :: dt) =
            (cr ++ (strDefSp ++ (g1v ++ strLParen))) ++
              (PAR ++ (strRParenColon ++ (WS2 ++ strDots))) := by
          rw [hDeq, hAeqP1]
          exact hP1D
        have hcanc := List.append_cancel_left hcat2
        cases PAR with
        | cons p0 pt =>
          have hp0 : p0 = ')' := by
            simp only [List.cons_append] at hcanc
            exact ((List.cons.injEq _ _ _ _).mp hcanc).1.symm
          have := hPAR p0 (List.mem_cons_self p0 pt)
          rw [hp0] at this
          simp at this
        | nil =>
          exact hmarch (by simpa using hcanc)
      | cons w0 wt =>
        have hsufP : ('(' :: (w0 :: wt)) <:+ strDefSp ++ (G1 ++ strLParen) := by
          refine ⟨cr ++ (strDefSp ++ g1v), ?_⟩
          rw [← hwP, hAform]
          simp only [List.append_assoc, List.singleton_append, List.cons_append,
            List.nil_append]
        have hw_suf : (w0 :: wt) <:+ strDefSp ++ (G1 ++ strLParen) :=
          suffix_tail_of hsufP
        have hparen_suf : ['('] <:+ strDefSp ++ (G1 ++ strLParen) := by
          refine ⟨strDefSp ++ G1, ?_⟩
          rw [hLP]
          simp only [List.append_assoc]
        rcases List.suffix_or_suffix_of_suffix hparen_suf hw_suf with h1 | h2
        · have hmem : ('(' : Char) ∈ w0 :: wt := head_mem_of_suffix h1
          have hs : (('(' :: (w0 :: wt)).count '(') ≤
              (strDefSp ++ (G1 ++ strLParen)).count '(' :=
            hsufP.sublist.count_le '('
          have h1c : 1 ≤ (w0 :: wt).count '(' := count_pos_of_mem hmem
          have hc2 : (strDefSp ++ (G1 ++ strLParen)).count '(' = 1 := by
            rw [List.count_append, List.count_append, count_paren_zero hG1p]
            decide
          rw [hc2] at hs
          simp only [List.count_cons, beq_self_eq_true, if_true] at hs h1c
          omega
        · have hxeq : (w0 :: wt) = ['('] := by
            obtain ⟨t, ht⟩ := h2
            cases t with
            | nil => exact ht
            | cons a b => simp at ht
          have hw0 : w0 = '(' := by
            simpa using congrArg (fun l => l.headI) hxeq
          have hgoal : strDefSp ++ (G1 ++ (strLParen ++ (PAR ++ (strRParenColon ++
              (WS2 ++ strDots))))) = (cr ++ (strDefSp ++ (g1v ++ strLParen))) ++
              ((w0 :: wt) ++ (PAR ++ (strRParenColon ++ (WS2 ++ strDots)))) := by
            rw [← hwP] at hP1D
            rw [List.append_assoc] at hP1D
            exact hP1D
          have hcat3 : (cr ++ (strDefSp ++ (g1v ++ strLParen))) ++ (')' :: dt) =
              (cr ++ (strDefSp ++ (g1v ++ strLParen))) ++
              ((w0 :: wt) ++ (PAR ++ (strRParenColon ++ (WS2 ++ strDots)))) :=
            hDeq.trans hgoal
          have hD2 := List.append_cancel_left hcat3
          simp only [List.cons_append] at hD2
          have := ((List.cons.injEq _ _ _ _).mp hD2).1
          rw [hw0] at this
          simp at this
    · obtain ⟨Arest, hwA⟩ := hP1_A
      have hce : Arest ++ (')' :: dt) = PAR ++ (strRParenColon ++ (WS2 ++ strDots)) := by
        have hcat4 : (strDefSp ++ (G1 ++ strLParen)) ++ (Arest ++ (')' :: dt)) =
            (strDefSp ++ (G1 ++ strLParen)) ++
              (PAR ++ (strRParenColon ++ (WS2 ++ strDots))) := by
          rw [← List.append_assoc, hwA, hDeq]
          exact hP1D
        exact List.append_cancel_left hcat4
      have hArest_pre : Arest <+: PAR ++ (strRParenColon ++ (WS2 ++ strDots)) :=
        ⟨')' :: dt, hce⟩
      have hPAR_pre : PAR <+: PAR ++ (strRParenColon ++ (WS2 ++ strDots)) :=
        ⟨strRParenColon ++ (WS2 ++ strDots), rfl⟩
      rcases List.prefix_or_prefix_of_prefix hArest_pre hPAR_pre with hAP2 | hPA2
      · obtain ⟨PARrest, hpr⟩ := hAP2
        have hcat5 : Arest ++ (')' :: dt) =
            Arest ++ (PARrest ++ (strRParenColon ++ (WS2 ++ strDots))) := by
          rw [hce, ← hpr]
          simp only [List.append_assoc]
        have hcanc := List.append_cancel_left hcat5
        cases PARrest with
        | cons p0 pt =>
          have hp0 : p0 = ')' := by
            simp only [List.cons_append] at hcanc
            exact ((List.cons.injEq _ _ _ _).mp hcanc).1.symm
          have hmem : p0 ∈ PAR := by
            rw [← hpr]
            exact List.mem_append_right Arest (List.mem_cons_self p0 pt)
          have := hPAR p0 hmem
          rw [hp0] at this
          simp at this
        | nil =>
          exact hmarch (by simpa using hcanc)
      · obtain ⟨x, hx⟩ := hPA2
        have hxe : x ++ (')' :: dt) = strRParenColon ++ (WS2 ++ strDots) := by
          have hcat6 : PAR ++ (x ++ (')' :: dt)) =
              PAR ++ (strRParenColon ++ (WS2 ++ strDots)) := by
            rw [← List.append_assoc, hx, hce]
          exact List.append_cancel_left hcat6
        cases x with
        | nil =>
          exact hmarch (by simpa using hxe)
        | cons x0 xt =>
          have hx_suf : (x0 :: xt) <:+ cr ++ (strDefSp ++ (g1v ++ strLParen)) := by
            refine ⟨(strDefSp ++ (G1 ++ strLParen)) ++ PAR, ?_⟩
            rw [List.append_assoc, hx, hwA]
          have hpar_suf : ['('] <:+ cr ++ (strDefSp ++ (g1v ++ strLParen)) :=
            ⟨cr ++ (strDefSp ++ g1v), hAform.symm⟩
          rcases List.suffix_or_suffix_of_suffix hpar_suf hx_suf with h1 | h2
          · have hmem : ('(' : Char) ∈ x0 :: xt := head_mem_of_suffix h1
            have hmem2 : ('(' : Char) ∈ strRParenColon ++ (WS2 ++ strDots) := by
              rw [← hxe]
              exact List.mem_append_left _ hmem
            rcases List.mem_append.mp hmem2 with hL | hR
            · simp [strRParenColon] at hL
            · rcases List.mem_append.mp hR with hW | hDt
              · have := hWS2 _ hW
                simp [pyIsSpace] at this
              · simp [strDots] at hDt
          · have hxeq : (x0 :: xt) = ['('] := by
              obtain ⟨t, ht⟩ := h2
              cases t with
              | nil => exact ht
              | cons a b => simp at ht
            have hx0 : x0 = '(' := by
              simpa using congrArg (fun l => l.headI) hxeq
            simp only [List.cons_append] at hxe
            have := ((List.cons.injEq _ _ _ _).mp hxe).1
            rw [hx0] at this
            simp [strRParenColon] at this

/-- A def match that fails at a chunk position of the input also fails at the
corresponding position of the def-scan output: the substitution cannot create
a new match anchored in untouched text. -/
theorem defChunkDead : ∀ (n : Nat) (x : List Char), x.length ≤ n →
    ∀ (cr : List Char), defMatchAt (cr ++ x) = none →
      defMatchAt (cr ++ subScan defMatchAt x) = none := by
  intro n
  induction n with
  | zero =>
    intro x hx cr hnone
    have hnil : x = [] := List.eq_nil_of_length_eq_zero (Nat.le_zero.mp hx)
    subst hnil
    rw [subScan]
    exact hnone
  | succ n ih =>
    intro x hx cr hnone
    cases x with
    | nil =>
      rw [subScan]
      exact hnone
    | cons c rest =>
      have hlen : rest.length ≤ n := by
        simp only [List.length_cons] at hx
        omega
      have htail : defMatchAt (cr ++ (c :: subScan defMatchAt rest)) = none := by
        have hshift : defMatchAt ((cr ++ [c]) ++ rest) = none := by
          simpa [List.append_assoc] using hnone
        have := ih rest hlen (cr ++ [c]) hshift
        simpa [List.append_assoc] using this
      rw [subScan]
      cases hm : defMatchAt (c :: rest) with
      | none => exact htail
      | some pr =>
        obtain ⟨rep, rem⟩ := pr
        dsimp only
        by_cases hg : rem.length < rest.length + 1
        · rw [dif_pos hg]
          obtain ⟨g1, par, ws2, ws3, hrep, heq, -, -, -, -, -⟩ := defMatchAt_parts hm
          dsimp only at hrep heq
          rw [hrep]
          cases hout : defMatchAt (cr ++ (defStub g1 ++ subScan defMatchAt rem)) with
          | none => rfl
          | some r2 =>
            exfalso
            obtain ⟨r3, hr3⟩ := defCure (ws3 ++ rem) (subScan defMatchAt rem) hout
            have hback : cr ++ (c :: rest) = cr ++ (strDefSp ++ (g1 ++ (strLParen ++
                (par ++ (strRParenColon ++ (ws2 ++ (strDots ++ (ws3 ++ rem)))))))) := by
              rw [heq]
            rw [← hback] at hr3
            rw [hr3] at hnone
            exact Option.noConfusion hnone
        · rw [dif_neg hg]
          exact htail

/-- A suffix of a concatenation lies in the right part or covers it with a
nonempty remainder from the left part. -/
theorem suffix_append_cases {d a b : List Char} (h : d <:+ a ++ b) :
    d <:+ b ∨ ∃ e, e <:+ a ∧ e ≠ [] ∧ d = e ++ b := by
  obtain ⟨u, hu⟩ := h
  rcases List.append_eq_append_iff.mp hu with ⟨w, hw1, hw2⟩ | ⟨w, hw1, hw2⟩
  · cases w with
    | nil =>
      left
      rw [hw2, List.nil_append]
    | cons wc wt =>
      right
      exact ⟨wc :: wt, ⟨u, hw1.symm⟩, by simp, hw2⟩
  · left
    exact ⟨w, hw2.symm⟩

/-- A successful def match forces a leading letter d. -/
theorem defMatch_head_d {d B : List Char} {r : List Char × List Char}
    (hm : defMatchAt (d ++ B) = some r) (hdne : d ≠ []) :
    ∃ dt, d = 'd' :: dt := by
  obtain ⟨g1, par, ws2, ws3, -, heq, -, -, -, -, -⟩ := defMatchAt_parts hm
  have hDS : strDefSp = 'd' :: "ef ".toList := by decide
  rw [hDS] at heq
  cases d with
  | nil => exact absurd rfl hdne
  | cons dc dt =>
    simp only [List.cons_append] at heq
    exact ⟨dt, by rw [((List.cons.injEq _ _ _ _).mp heq).1]⟩

/-- Two prefixes that each contain exactly one opening parenthesis and end
with it are equal. -/
theorem parenPrefix_unique {s P Q : List Char}
    (hP : P <+: s) (hQ : Q <+: s)
    (hPc : P.count '(' = 1) (hQc : Q.count '(' = 1)
    (hPl : ∃ P', P = P' ++ ['(']) (hQl : ∃ Q', Q = Q' ++ ['(']) : P = Q := by
  have aux : ∀ {A B : List Char}, A ++ [] = A → True := fun _ => trivial
  clear aux
  have main : ∀ {A C : List Char}, A.count '(' = 1 → C.count '(' = 1 →
      (∃ A', A = A' ++ ['(']) → (∃ C', C = C' ++ ['(']) →
      ∀ w, A ++ w = C → A = C := by
    intro A C hAc hCc hAl ⟨C', hC'⟩ w hw
    cases w with
    | nil => rw [← hw, List.append_nil]
    | cons wc wt =>
      exfalso
      have hw_suf : (wc :: wt) <:+ C := ⟨A, hw⟩
      have hpar_suf : ['('] <:+ C := ⟨C', hC'.symm⟩
      have hcount : C.count '(' = A.count '(' + (wc :: wt).count '(' := by
        rw [← hw, List.count_append]
      rcases List.suffix_or_suffix_of_suffix hpar_suf hw_suf with h1 | h2
      · have hmem : ('(' : Char) ∈ wc :: wt := head_mem_of_suffix h1
        have := count_pos_of_mem hmem
        omega
      · have hxeq : (wc :: wt) = ['('] := by
          obtain ⟨t, ht⟩ := h2
          cases t with
          | nil => exact ht
          | cons a b => simp at ht
        rw [hxeq] at hcount
        simp [List.count_cons] at hcount
        omega
  rcases List.prefix_or_prefix_of_prefix hP hQ with ⟨w, hw⟩ | ⟨w, hw⟩
  · exact main hPc hQc hPl hQl w hw
  · exact (main hQc hPc hQl hPl w hw).symm

/-- The stub's tail after its closing parenthesis cannot continue a def-regex
match: whitespace then an ellipsis never follows the docstring colon. -/
theorem stubTailEndgame {g1v rest' PAR WS2 Z : List Char}
    (hPAR : ∀ c ∈ PAR, (c != ')') = true)
    (hWS2 : ∀ c ∈ WS2, pyIsSpace c = true)
    (heq2 : defSegTail ++ (g1v ++ rest') =
      PAR ++ (strRParenColon ++ (WS2 ++ (strDots ++ Z)))) : False := by
  have hTailHead : defSegTail = ')' :: ':' :: '\n' :: ' ' :: ' ' :: ' ' :: ' ' ::
      '"' :: '"' :: '"' :: "Implementation for ".toList := by decide
  cases PAR with
  | cons p0 pt =>
    rw [hTailHead] at heq2
    simp only [List.cons_append] at heq2
    have hp0 : p0 = ')' := ((List.cons.injEq _ _ _ _).mp heq2).1.symm
    have := hPAR p0 (List.mem_cons_self p0 pt)
    rw [hp0] at this
    simp at this
  | nil =>
    rw [hTailHead] at heq2
    have h2 : ')' :: ':' :: ('\n' :: ' ' :: ' ' :: ' ' :: ' ' :: '"' :: '"' :: '"' ::
        ("Implementation for ".toList ++ (g1v ++ rest'))) =
        ')' :: ':' :: (WS2 ++ (strDots ++ Z)) := by
      simpa only [strRParenColon, List.cons_append, List.nil_append,
        List.append_assoc] using heq2
    have h3 := ((List.cons.injEq _ _ _ _).mp
      (((List.cons.injEq _ _ _ _).mp h2).2)).2
    exact wsDotsContra WS2 hWS2 Z
      ('"' :: '"' :: ("Implementation for ".toList ++ (g1v ++ rest'))) h3.symm

/-- Classification of def matches anchored inside a def stub: the only
surviving anchor is an inner `def` inside the second copy of the captured
name, right before the closing docstring segment. -/
theorem stubSuffix_classes {g1v d B : List Char} {r : List Char × List Char}
    (hg1p : ∀ c ∈ g1v, (c != '(') = true)
    (hd : d <:+ defStub g1v) (hdne : d ≠ [])
    (hm : defMatchAt (d ++ B) = some r) :
    ∃ gpre gs, g1v = gpre ++ gs ∧ gs ≠ [] ∧ d = gs ++ defSegEnd := by
  have hLP : strLParen = ['('] := by decide
  obtain ⟨G1, PAR, WS2, WS3, -, heqP, hG1ne, hG1p, hPAR, hWS2, hWS3⟩ :=
    defMatchAt_parts hm
  obtain ⟨dt0, hdhead⟩ := defMatch_head_d hm hdne
  rw [defStub_seg] at hd
  have hPpre : (strDefSp ++ (G1 ++ strLParen)) <+: d ++ B := by
    refine ⟨PAR ++ (strRParenColon ++ (WS2 ++ (strDots ++ (WS3 ++ r.2)))), ?_⟩
    rw [heqP]
    simp only [List.append_assoc]
  have hPc : (strDefSp ++ (G1 ++ strLParen)).count '(' = 1 := by
    rw [List.count_append, List.count_append, count_paren_zero hG1p]
    decide
  have hPl : ∃ P', strDefSp ++ (G1 ++ strLParen) = P' ++ ['('] := by
    refine ⟨strDefSp ++ G1, ?_⟩
    rw [hLP]
    simp only [List.append_assoc]
  rcases suffix_append_cases hd with hR1 | ⟨e1, he1suf, he1ne, hdeq1⟩
  · rcases suffix_append_cases hR1 with hR2 | ⟨e2, he2suf, he2ne, hdeq2⟩
    · rcases suffix_append_cases hR2 with hR3 | ⟨e3, he3suf, he3ne, hdeq3⟩
      · rcases suffix_append_cases hR3 with hR4 | ⟨e4, he4suf, he4ne, hdeq4⟩
        · rcases suffix_append_cases hR4 with hR5 | ⟨gs, hgssuf, hgsne, hdeq5⟩
          · exfalso
            rw [hdhead] at hR5
            have hmem := head_mem_of_suffix hR5
            have : ('d' : Char) ∉ defSegEnd := by decide
            exact this hmem
          · obtain ⟨gpre, hgpre⟩ := hgssuf
            exact ⟨gpre, gs, hgpre.symm, hgsne, hdeq5⟩
        · exfalso
          cases e4 with
          | nil => exact absurd rfl he4ne
          | cons e0 et =>
            rw [hdhead] at hdeq4
            simp only [List.cons_append] at hdeq4
            have he0 : e0 = 'd' := (((List.cons.injEq _ _ _ _).mp hdeq4).1).symm
            have hmem := head_mem_of_suffix he4suf
            rw [he0] at hmem
            have : ('d' : Char) ∉ defSegTail := by decide
            exact this hmem
      · exfalso
        cases e3 with
        | nil => exact absurd rfl he3ne
        | cons e0 et =>
          rw [hdhead] at hdeq3
          simp only [List.cons_append] at hdeq3
          have he0 : e0 = 'd' := (((List.cons.injEq _ _ _ _).mp hdeq3).1).symm
          have hmem := head_mem_of_suffix he3suf
          rw [he0] at hmem
          have : ('d' : Char) ∉ strLParen := by decide
          exact this hmem
    · -- Anchor in the first name copy: the scan reaches the stub's `():` and
      -- the docstring blocks the ellipsis.
      exfalso
      have he2p : ∀ c ∈ e2, (c != '(') = true :=
        fun c hc => hg1p c (he2suf.sublist.subset hc)
      have hQpre : (e2 ++ strLParen) <+: d ++ B := by
        refine ⟨defSegTail ++ (g1v ++ (defSegEnd ++ B)), ?_⟩
        rw [hdeq2]
        simp only [List.append_assoc]
      have hQc : (e2 ++ strLParen).count '(' = 1 := by
        rw [List.count_append, count_paren_zero he2p]
        decide
      have hQl : ∃ Q', e2 ++ strLParen = Q' ++ ['('] := ⟨e2, by rw [hLP]⟩
      have hPQ := parenPrefix_unique hPpre hQpre hPc hQc hPl hQl
      have hfac1 : d ++ B = (strDefSp ++ (G1 ++ strLParen)) ++
          (PAR ++ (strRParenColon ++ (WS2 ++ (strDots ++ (WS3 ++ r.2))))) := by
        rw [heqP]
        simp only [List.append_assoc]
      have hfac2 : d ++ B = (e2 ++ strLParen) ++
          (defSegTail ++ (g1v ++ (defSegEnd ++ B))) := by
        rw [hdeq2]
        simp only [List.append_assoc]
      rw [← hPQ] at hfac2
      have hcanc := List.append_cancel_left (hfac2.symm.trans hfac1)
      exact stubTailEndgame hPAR hWS2 hcanc
  · -- Anchor at the stub start: same dead end at the stub's `():`.
    exfalso
    have hDS : strDefSp = 'd' :: "ef ".toList := by decide
    have he1eq : e1 = strDefSp := by
      obtain ⟨u, hu⟩ := he1suf
      cases e1 with
      | nil => exact absurd rfl he1ne
      | cons e0 et =>
        have he0 : e0 = 'd' := by
          rw [hdhead] at hdeq1
          simp only [List.cons_append] at hdeq1
          exact (((List.cons.injEq _ _ _ _).mp hdeq1).1).symm
        cases u with
        | nil => simpa using hu
        | cons u0 ut =>
          exfalso
          have hcd : ('d' : Char) ∈ strDefSp := by decide
          have hcount : strDefSp.count 'd' = 1 := by decide
          have hu0 : u0 = 'd' := by
            rw [hDS] at hu
            simp only [List.cons_append] at hu
            exact ((List.cons.injEq _ _ _ _).mp hu).1
          have : strDefSp.count 'd' = (u0 :: ut).count 'd' + (e0 :: et).count 'd' := by
            rw [← hu, List.count_append]
          rw [hcount, hu0, he0] at this
          simp only [List.count_cons, beq_self_eq_true, if_true] at this
          omega
    have hQpre : (strDefSp ++ (g1v ++ strLParen)) <+: d ++ B := by
      refine ⟨defSegTail ++ (g1v ++ (defSegEnd ++ B)), ?_⟩
      rw [hdeq1, he1eq]
      simp only [List.append_assoc]
    have hQc : (strDefSp ++ (g1v ++ strLParen)).count '(' = 1 := by
      rw [List.count_append, List.count_append, count_paren_zero hg1p]
      decide
    have hQl : ∃ Q', strDefSp ++ (g1v ++ strLParen) = Q' ++ ['('] := by
      refine ⟨strDefSp ++ g1v, ?_⟩
      rw [hLP]
      simp only [List.append_assoc]
    have hPQ := parenPrefix_unique hPpre hQpre hPc hQc hPl hQl
    have hfac1 : d ++ B = (strDefSp ++ (G1 ++ strLParen)) ++
        (PAR ++ (strRParenColon ++ (WS2 ++ (strDots ++ (WS3 ++ r.2))))) := by
      rw [heqP]
      simp only [List.append_assoc]
    have hfac2 : d ++ B = (strDefSp ++ (g1v ++ strLParen)) ++
        (defSegTail ++ (g1v ++ (defSegEnd ++ B))) := by
      rw [hdeq1, he1eq]
      simp only [List.append_assoc]
    rw [← hPQ] at hfac2
    have hcanc := List.append_cancel_left (hfac2.symm.trans hfac1)
    exact stubTailEndgame hPAR hWS2 hcanc

/-- The def-scan output satisfies the context invariant. -/
theorem stubStruct_defSub : ∀ (n : Nat) (s : List Char), s.length ≤ n →
    StubStruct (subScan defMatchAt s) := by
  intro n
  induction n with
  | zero =>
    intro s hs pre T r hsplit hmT
    have hnil : s = [] := List.eq_nil_of_length_eq_zero (Nat.le_zero.mp hs)
    subst hnil
    rw [subScan] at hsplit
    exfalso
    have hT : T = [] := by
      cases pre with
      | nil => simpa using hsplit.symm
      | cons a b => simp at hsplit
    rw [hT] at hmT
    obtain ⟨g1, par, ws2, ws3, -, heq, -, -, -, -, -⟩ := defMatchAt_parts hmT
    rcases List.append_eq_nil.mp heq.symm with ⟨h1, -⟩
    exact absurd h1 (by decide)
  | succ n ih =>
    intro s hs pre T r hsplit hmT
    cases s with
    | nil =>
      rw [subScan] at hsplit
      exfalso
      have hT : T = [] := by
        cases pre with
        | nil => simpa using hsplit.symm
        | cons a b => simp at hsplit
      rw [hT] at hmT
      obtain ⟨g1, par, ws2, ws3, -, heq, -, -, -, -, -⟩ := defMatchAt_parts hmT
      rcases List.append_eq_nil.mp heq.symm with ⟨h1, -⟩
      exact absurd h1 (by decide)
    | cons c rest =>
      have hlen : rest.length ≤ n := by
        simp only [List.length_cons] at hs
        omega
      have htail : defMatchAt (c :: rest) = none →
          c :: subScan defMatchAt rest = pre ++ T →
          ∃ E0 gp, (∀ c ∈ gp, (c != '(') = true) ∧ pre = E0 ++ (defSegMid ++ gp) := by
        intro hmc hx
        cases pre with
        | nil =>
          exfalso
          simp only [List.nil_append] at hx
          have hdead : defMatchAt ([c] ++ subScan defMatchAt rest) = none := by
            refine defChunkDead n rest hlen [c] ?_
            simpa using hmc
          rw [← hx] at hmT
          simp only [List.singleton_append] at hdead
          rw [hdead] at hmT
          exact Option.noConfusion hmT
        | cons p0 pt =>
          simp only [List.cons_append, List.cons.injEq] at hx
          obtain ⟨E0, gp, hgp, hpt⟩ := ih rest hlen pt T r hx.2 hmT
          exact ⟨c :: E0, gp, hgp, by rw [hx.1, hpt]; rfl⟩
      rw [subScan] at hsplit
      cases hm : defMatchAt (c :: rest) with
      | none =>
        rw [hm] at hsplit
        exact htail hm hsplit
      | some pr =>
        obtain ⟨rep, rem⟩ := pr
        rw [hm] at hsplit
        dsimp only at hsplit
        obtain ⟨g1, par, ws2, ws3, hrep, heq, hg1ne, hg1p, hpar, hws2, hws3⟩ :=
          defMatchAt_parts hm
        dsimp only at hrep heq
        by_cases hg : rem.length < rest.length + 1
        · rw [dif_pos hg] at hsplit
          rw [hrep] at hsplit
          have hremlen : rem.length ≤ n := by omega
          rcases List.append_eq_append_iff.mp hsplit.symm with ⟨w, hw1, hw2⟩ | ⟨w, hw1, hw2⟩
          · -- The match anchors inside the stub or at its end.
            cases w with
            | nil =>
              exfalso
              have hT' : T = subScan defMatchAt rem := by simpa using hw2
              obtain ⟨E0, gp, -, hbad⟩ :=
                ih rem hremlen [] T r (by rw [hT']; simp) hmT
              rcases List.append_eq_nil.mp hbad.symm with ⟨-, h2⟩
              rcases List.append_eq_nil.mp h2 with ⟨h3, -⟩
              exact absurd h3 (by decide)
            | cons wc wt =>
              have hwsuf : (wc :: wt) <:+ defStub g1 := ⟨pre, hw1.symm⟩
              have hTform : T = (wc :: wt) ++ subScan defMatchAt rem := hw2
              rw [hTform] at hmT
              obtain ⟨gpre, gs, hg1eq, hgsne, hdform⟩ :=
                stubSuffix_classes hg1p hwsuf (by simp) hmT
              refine ⟨strDefSp ++ g1, gpre, ?_, ?_⟩
              · intro ch hch
                exact hg1p ch (by rw [hg1eq]; exact List.mem_append_left gs hch)
              · have hMid : defSegMid = strLParen ++ defSegTail := by decide
                have hstub2 : defStub g1 = ((strDefSp ++ g1) ++ (defSegMid ++ gpre)) ++
                    (gs ++ defSegEnd) := by
                  rw [defStub_seg, hg1eq, hMid]
                  simp only [List.append_assoc]
                have hpre2 : pre ++ (wc :: wt) = defStub g1 := hw1.symm
                rw [hdform, hstub2] at hpre2
                exact List.append_cancel_right hpre2
          · -- The suffix starts beyond the stub: recurse into the rest.
            obtain ⟨E0, gp, hgp, hw⟩ := ih rem hremlen w T r hw2 hmT
            refine ⟨defStub g1 ++ E0, gp, hgp, ?_⟩
            rw [hw1, hw]
            simp only [List.append_assoc]
        · exfalso
          have hlen2 := congrArg List.length heq
          simp only [List.length_cons, List.length_append] at hlen2
          have e1 : strDefSp.length = 4 := by decide
          have e2 : strLParen.length = 1 := by decide
          have e3 : strRParenColon.length = 2 := by decide
          have e4 : strDots.length = 3 := by decide
          rw [e1, e2, e3, e4] at hlen2
          omega

/-- Structure of a successful route match with the class constraints of each
captured component. -/
theorem routeMatchAt_parts {s : List Char} {r : List Char × List Char}
    (h : routeMatchAt s = some r) :
    ∃ g1 g2 g3 ws1 par ws2 ws3,
      s = strAtApp ++ (g1 ++ (strLParenQuote ++ (g2 ++ (strQuoteRParen ++ (ws1 ++
        (strDefSp ++ (g3 ++ (strLParen ++ (par ++ (strRParenColon ++ (ws2 ++
          (strDots ++ (ws3 ++ r.2))))))))))))) ∧
      g2 ≠ [] ∧ (∀ c ∈ g2, (c != '"') = true) ∧
      (∀ c ∈ ws1, pyIsSpace c = true) ∧
      g3 ≠ [] ∧ (∀ c ∈ g3, (c != '(') = true) ∧
      (∀ c ∈ par, (c != ')') = true) ∧ (∀ c ∈ ws2, pyIsSpace c = true) := by
  unfold routeMatchAt at h
  cases h1 : eatLit strAtApp s with
  | none => rw [h1] at h; exact absurd h (by simp)
  | some s1 =>
  rw [h1] at h
  simp only [Option.bind_eq_bind, Option.some_bind] at h
  cases h2 : eatWhile1 (fun c => 'a' ≤ c && c ≤ 'z') s1 with
  | none => rw [h2] at h; exact absurd h (by simp)
  | some gs2 =>
  obtain ⟨g1, s2⟩ := gs2
  rw [h2] at h
  simp only [Option.some_bind] at h
  cases h3 : eatLit strLParenQuote s2 with
  | none => rw [h3] at h; exact absurd h (by simp)
  | some s3 =>
  rw [h3] at h
  simp only [Option.some_bind] at h
  cases h4 : eatWhile1 (fun c => c != '"') s3 with
  | none => rw [h4] at h; exact absurd h (by simp)
  | some gs4 =>
  obtain ⟨g2, s4⟩ := gs4
  rw [h4] at h
  simp only [Option.some_bind] at h
  cases h5 : eatLit strQuoteRParen s4 with
  | none => rw [h5] at h; exact absurd h (by simp)
  | some s5 =>
  rw [h5] at h
  simp only [Option.some_bind] at h
  split_ifs at h with hnl
  swap
  · exact absurd h (by simp)
  simp only [Option.some_bind] at h
  cases h6 : eatLit strDefSp (s5.dropWhile pyIsSpace) with
  | none => rw [h6] at h; exact absurd h (by simp)
  | some s6 =>
  rw [h6] at h
  simp only [Option.some_bind] at h
  cases h7 : eatWhile1 (fun c => c != '(') s6 with
  | none => rw [h7] at h; exact absurd h (by simp)
  | some gs7 =>
  obtain ⟨g3, s8⟩ := gs7
  rw [h7] at h
  simp only [Option.some_bind] at h
  cases h8 : eatLit strLParen s8 with
  | none => rw [h8] at h; exact absurd h (by simp)
  | some s9 =>
  rw [h8] at h
  simp only [Option.some_bind] at h
  cases h9 : eatLit strRParenColon (s9.dropWhile (fun c => c != ')')) with
  | none => rw [h9] at h; exact absurd h (by simp)
  | some s11 =>
  rw [h9] at h
  simp only [Option.some_bind] at h
  cases h10 : eatLit strDots (s11.dropWhile pyIsSpace) with
  | none => rw [h10] at h; exact absurd h (by simp)
  | some s13 =>
  rw [h10] at h
  simp only [Option.some_bind, Option.pure_def, Option.some.injEq] at h
  obtain ⟨e2, hg1ne, hg1all⟩ := eatWhile1_parts h2
  obtain ⟨e4, hg2ne, hg2all⟩ := eatWhile1_parts h4
  obtain ⟨e8, hg3ne, hg3all⟩ := eatWhile1_parts h7
  refine ⟨g1, g2, g3, s5.takeWhile pyIsSpace, s9.takeWhile (fun c => c != ')'),
    s11.takeWhile pyIsSpace, s13.takeWhile pyIsSpace, ?_, hg2ne, hg2all, ?_,
    hg3ne, hg3all, ?_, ?_⟩
  · have e1 : s = strAtApp ++ s1 := eatLit_eq h1
    have e3 : s2 = strLParenQuote ++ s3 := eatLit_eq h3
    have e5 : s4 = strQuoteRParen ++ s5 := eatLit_eq h5
    have e6 : s5 = s5.takeWhile pyIsSpace ++ s5.dropWhile pyIsSpace :=
      (List.takeWhile_append_dropWhile _ _).symm
    have e7 : s5.dropWhile pyIsSpace = strDefSp ++ s6 := eatLit_eq h6
    have e9 : s8 = strLParen ++ s9 := eatLit_eq h8
    have e10 : s9 = s9.takeWhile (fun c => c != ')') ++ s9.dropWhile (fun c => c != ')') :=
      (List.takeWhile_append_dropWhile _ _).symm
    have e11 : s9.dropWhile (fun c => c != ')') = strRParenColon ++ s11 := eatLit_eq h9
    have e12 : s11 = s11.takeWhile pyIsSpace ++ s11.dropWhile pyIsSpace :=
      (List.takeWhile_append_dropWhile _ _).symm
    have e13 : s11.dropWhile pyIsSpace = strDots ++ s13 := eatLit_eq h10
    have e14 : s13 = s13.takeWhile pyIsSpace ++ s13.dropWhile pyIsSpace :=
      (List.takeWhile_append_dropWhile _ _).symm
    have e15 : r.2 = s13.dropWhile pyIsSpace := by rw [← h]
    rw [e1, e2, e3, e4, e5]
    rw [show strQuoteRParen ++ s5 = strQuoteRParen ++ (s5.takeWhile pyIsSpace ++
      s5.dropWhile pyIsSpace) from by rw [← e6]]
    rw [e7, e8, e9]
    rw [show strLParen ++ s9 = strLParen ++ (s9.takeWhile (fun c => c != ')') ++
      s9.dropWhile (fun c => c != ')')) from by rw [← e10]]
    rw [e11]
    rw [show strRParenColon ++ s11 = strRParenColon ++ (s11.takeWhile pyIsSpace ++
      s11.dropWhile pyIsSpace) from by rw [← e12]]
    rw [e13]
    rw [show strDots ++ s13 = strDots ++ (s13.takeWhile pyIsSpace ++
      s13.dropWhile pyIsSpace) from by rw [← e14]]
    rw [e15]
  · intro c hc
    have hx := mem_takeWhile_pred hc
    exact hx
  · intro c hc
    have hx := mem_takeWhile_pred hc
    exact hx
  · intro c hc
    have hx := mem_takeWhile_pred hc
    exact hx

/-- The quoted-path segment of a route match never contains two adjacent
quotes. -/
theorem noDoubleQuote_route {g2 ws1 : List Char} (hg2ne : g2 ≠ [])
    (hg2 : ∀ c ∈ g2, (c != '"') = true) (hws1 : ∀ c ∈ ws1, pyIsSpace c = true) :
    ¬ occursIn ['"', '"'] (strLParenQuote ++ (g2 ++ (strQuoteRParen ++ ws1))) := by
  intro hocc
  have hq2 : ∀ c ∈ g2, c ≠ '"' := fun c hc => by
    have := hg2 c hc
    simpa using this
  have hmemq : ∀ {p1 p2 : List Char}, ['"', '"'] = p1 ++ p2 → ∀ {c : Char},
      c ∈ p2 → c = '"' := by
    intro p1 p2 hsp c hc
    have hin : c ∈ p1 ++ p2 := List.mem_append_right p1 hc
    rw [← hsp] at hin
    simpa using hin
  have hmemp : ∀ {p1 p2 : List Char}, ['"', '"'] = p1 ++ p2 → ∀ {c : Char},
      c ∈ p1 → c = '"' := by
    intro p1 p2 hsp c hc
    have hin : c ∈ p1 ++ p2 := List.mem_append_left p2 hc
    rw [← hsp] at hin
    simpa using hin
  rcases occursIn_append _ _ _ hocc with h1 | h2 | ⟨p1, p2, hsp, hp1, hp2, ⟨u, hu⟩, ⟨v, hv⟩⟩
  · exact absurd ((pyIn_iff _ _).mpr h1) (by decide)
  · rcases occursIn_append _ _ _ h2 with h3 | h4 |
      ⟨p1, p2, hsp, hp1, hp2, ⟨u, hu⟩, ⟨v, hv⟩⟩
    · exact hq2 '"' (occursIn_head_mem h3) rfl
    · rcases occursIn_append _ _ _ h4 with h5 | h6 |
        ⟨p1, p2, hsp, hp1, hp2, ⟨u, hu⟩, ⟨v, hv⟩⟩
      · exact absurd ((pyIn_iff _ _).mpr h5) (by decide)
      · have hmem : ('"' : Char) ∈ ws1 := occursIn_head_mem h6
        have := hws1 _ hmem
        simp [pyIsSpace] at this
      · cases p2 with
        | nil => exact absurd rfl hp2
        | cons q qt =>
          have hq : q = '"' := hmemq hsp (List.mem_cons_self q qt)
          have : q ∈ ws1 := by
            rw [hv]
            exact List.mem_append_left _ (List.mem_cons_self q qt)
          have := hws1 _ this
          rw [hq] at this
          simp [pyIsSpace] at this
    · cases p1 with
      | nil => exact absurd rfl hp1
      | cons q qt =>
        have hq : q = '"' := hmemp hsp (List.mem_cons_self q qt)
        have : q ∈ g2 := by
          rw [hu]
          exact List.mem_append_right u (List.mem_cons_self q qt)
        exact hq2 q this hq
  · cases p2 with
    | nil => exact absurd rfl hp2
    | cons q qt =>
      have hq : q = '"' := hmemq hsp (List.mem_cons_self q qt)
      cases g2 with
      | nil => exact absurd rfl hg2ne
      | cons gc gt =>
        simp only [List.cons_append] at hv
        have hgc : gc = q := ((List.cons.injEq _ _ _ _).mp hv).1
        exact hq2 gc (List.mem_cons_self gc gt) (by rw [hgc, hq])

/-- The stub-context invariant is incompatible with the prefix a route match
requires before its def tail: no position of the output can carry both. -/
theorem routeContextKill {E0 gp X g2 ws1 : List Char}
    (hgp : ∀ c ∈ gp, (c != '(') = true)
    (hg2ne : g2 ≠ []) (hg2 : ∀ c ∈ g2, (c != '"') = true)
    (hws1 : ∀ c ∈ ws1, pyIsSpace c = true)
    (heq : E0 ++ (defSegMid ++ gp) =
      X ++ (strLParenQuote ++ (g2 ++ (strQuoteRParen ++ ws1)))) : False := by
  have hZsuf : (strLParenQuote ++ (g2 ++ (strQuoteRParen ++ ws1))) <:+
      E0 ++ (defSegMid ++ gp) := ⟨X, heq.symm⟩
  have hVsuf : (defSegMid ++ gp) <:+ E0 ++ (defSegMid ++ gp) := ⟨E0, rfl⟩
  have hLQ : strLParenQuote = '(' :: '"' :: [] := by decide
  rcases List.suffix_or_suffix_of_suffix hVsuf hZsuf with hVZ | hZV
  · -- The docstring quotes would sit inside the quote-free route segment.
    have hqq : occursIn ['"', '"'] defSegMid :=
      ⟨"():\n    ".toList, "\"Implementation for ".toList, by decide⟩
    have hqqV : occursIn ['"', '"'] (defSegMid ++ gp) :=
      occursIn_append_left gp hqq
    exact noDoubleQuote_route hg2ne hg2 hws1
      (occursIn_of_suffix hqqV hVZ)
  · rcases suffix_append_cases hZV with hZgp | ⟨e, hesuf, hene, hZeq⟩
    · have hZgp2 : ('(' :: ('"' :: (g2 ++ (strQuoteRParen ++ ws1)))) <:+ gp := by
        rw [hLQ] at hZgp
        simpa using hZgp
      have hmem : ('(' : Char) ∈ gp := head_mem_of_suffix hZgp2
      have := hgp _ hmem
      simp at this
    · -- The leading parenthesis pins the suffix to the whole segment.
      have heeq : e = defSegMid := by
        obtain ⟨u, hu⟩ := hesuf
        cases e with
        | nil => exact absurd rfl hene
        | cons e0 et =>
          have he0 : e0 = '(' := by
            rw [hLQ] at hZeq
            simp only [List.cons_append] at hZeq
            exact (((List.cons.injEq _ _ _ _).mp hZeq).1).symm
          cases u with
          | nil => simpa using hu
          | cons u0 ut =>
            exfalso
            have hcount : defSegMid.count '(' = 1 := by decide
            have hu0 : u0 = '(' := by
              have hM : defSegMid = '(' :: "):\n    \"\"\"Implementation for ".toList := by
                decide
              rw [hM] at hu
              simp only [List.cons_append] at hu
              exact ((List.cons.injEq _ _ _ _).mp hu).1
            have hsum : defSegMid.count '(' =
                (u0 :: ut).count '(' + (e0 :: et).count '(' := by
              rw [← hu, List.count_append]
            rw [hcount, hu0, he0] at hsum
            simp only [List.count_cons, beq_self_eq_true, if_true] at hsum
            omega
      rw [heeq] at hZeq
      rw [hLQ] at hZeq
      have hM2 : defSegMid ++ gp = '(' :: (')' :: (":\n    \"\"\"Implementation for ".toList ++ gp)) := by
        have : defSegMid = '(' :: ')' :: ":\n    \"\"\"Implementation for ".toList := by decide
        rw [this]
        simp
      rw [hM2] at hZeq
      simp only [List.cons_append] at hZeq
      have := (((List.cons.injEq _ _ _ _).mp
        (((List.cons.injEq _ _ _ _).mp hZeq).2)).1)
      simp at this

/-- Under the stub-context invariant no suffix admits a route match: the route
regex is dead code after the def pass. -/
theorem routeDead_of_stubStruct {u : List Char} (hS : StubStruct u)
    (w : List Char) (hw : w <:+ u) : routeMatchAt w = none := by
  cases hmr : routeMatchAt w with
  | none => rfl
  | some r =>
  exfalso
  obtain ⟨g1, g2, g3, ws1, par, ws2, ws3, heqw, hg2ne, hg2f, hws1f, hg3ne, hg3f,
    hparf, hws2f⟩ := routeMatchAt_parts hmr
  obtain ⟨u0, hu0⟩ := hw
  have hdefT := defMatchAt_complete g3 par ws2 (ws3 ++ r.2) hg3ne hg3f hparf hws2f
  have hsplit : u = (u0 ++ (strAtApp ++ (g1 ++ (strLParenQuote ++ (g2 ++
      (strQuoteRParen ++ ws1)))))) ++ (strDefSp ++ (g3 ++ (strLParen ++ (par ++
      (strRParenColon ++ (ws2 ++ (strDots ++ (ws3 ++ r.2)))))))) := by
    rw [← hu0, heqw]
    simp only [List.append_assoc]
  obtain ⟨E0, gp, hgp, hpre⟩ := hS _ _ _ hsplit hdefT
  have hX : E0 ++ (defSegMid ++ gp) = (u0 ++ (strAtApp ++ g1)) ++
      (strLParenQuote ++ (g2 ++ (strQuoteRParen ++ ws1))) := by
    rw [← hpre]
    simp only [List.append_assoc]
  exact routeContextKill hgp hg2ne hg2f hws1f hX

/-- Unfolding a replacement at a pattern occurrence. -/
theorem replaceAll_pat_step {pat rep : List Char} (hp : pat ≠ []) (zr : List Char) :
    replaceAll pat rep (pat ++ zr) = rep ++ replaceAll pat rep zr := by
  cases pat with
  | nil => exact absurd rfl hp
  | cons p0 pt =>
    rw [show (p0 :: pt) ++ zr = p0 :: (pt ++ zr) from rfl, replaceAll]
    rw [dif_pos ⟨hp, (isPre_iff _ _).mpr ⟨zr, rfl⟩⟩]
    have hdrop : (p0 :: (pt ++ zr)).drop (p0 :: pt).length = zr := by
      rw [show p0 :: (pt ++ zr) = (p0 :: pt) ++ zr from rfl]
      exact List.drop_left _ _
    rw [hdrop]

/-- Unfolding a replacement at an untouched character. -/
theorem replaceAll_chunk_step {pat rep : List Char} {c : Char} {zt : List Char}
    (h : ¬ pat.isPrefixOf (c :: zt) = true) :
    replaceAll pat rep (c :: zt) = c :: replaceAll pat rep zt := by
  rw [replaceAll, dif_neg]
  rintro ⟨-, hpre⟩
  exact h hpre

/-- Heads agree between a string and its replacement image when the pattern
and replacement share their first character. -/
theorem replaceAll_headAgree {pat rep : List Char} {c0 : Char} {pt rt : List Char}
    (hpat : pat = c0 :: pt) (hrep : rep = c0 :: rt) :
    ∀ z : List Char, (z = [] ∧ replaceAll pat rep z = []) ∨
      ∃ c zt zt', z = c :: zt ∧ replaceAll pat rep z = c :: zt' := by
  intro z
  cases z with
  | nil => exact Or.inl ⟨rfl, by rw [replaceAll]⟩
  | cons c zt =>
    right
    by_cases hpre : pat.isPrefixOf (c :: zt) = true
    · obtain ⟨t, ht⟩ := (isPre_iff _ _).mp hpre
      have hc : c = c0 := by
        rw [hpat] at ht
        simpa using ((List.cons.injEq _ _ _ _).mp ht).1
      refine ⟨c, zt, rt ++ replaceAll pat rep t, rfl, ?_⟩
      rw [ht, replaceAll_pat_step (by rw [hpat]; simp) t, hrep, hc]
      rfl
    · rw [replaceAll_chunk_step hpre]
      exact ⟨c, zt, replaceAll pat rep zt, rfl, rfl⟩

/-- Transparent run: a character run passes through pattern and replacement
alike, commuting with the replacement image. -/
theorem simDropT {pat rep : List Char} {p : Char → Bool} (hp : pat ≠ [])
    (hpa : ∀ c ∈ pat, p c = true) (hra : ∀ c ∈ rep, p c = true) :
    ∀ (n : Nat) (z : List Char), z.length ≤ n →
      (replaceAll pat rep z).dropWhile p = replaceAll pat rep (z.dropWhile p) := by
  intro n
  induction n with
  | zero =>
    intro z hz
    have hnil : z = [] := List.eq_nil_of_length_eq_zero (Nat.le_zero.mp hz)
    subst hnil
    rw [replaceAll, List.dropWhile_nil, replaceAll]
  | succ n ih =>
    intro z hz
    cases z with
    | nil =>
      rw [replaceAll, List.dropWhile_nil, replaceAll]
    | cons c zt =>
      by_cases hpre : pat.isPrefixOf (c :: zt) = true
      · obtain ⟨t, ht⟩ := (isPre_iff _ _).mp hpre
        have hlt : t.length ≤ n := by
          have := congrArg List.length ht
          simp only [List.length_cons, List.length_append] at this
          have hpl : 1 ≤ pat.length := by
            cases pat with
            | nil => exact absurd rfl hp
            | cons a b => simp
          simp only [List.length_cons] at hz
          omega
        rw [ht, replaceAll_pat_step hp t, dropWhile_all_app _ hra,
          dropWhile_all_app _ hpa, ih t hlt]
      · have hlz : zt.length ≤ n := by
          simp only [List.length_cons] at hz
          omega
        rw [replaceAll_chunk_step hpre]
        cases hcv : p c with
        | true =>
          rw [List.dropWhile_cons, List.dropWhile_cons, hcv]
          simp only [if_pos rfl]
          exact ih zt hlz
        | false =>
          rw [List.dropWhile_cons, List.dropWhile_cons, hcv]
          simp only [Bool.false_eq_true, if_false]
          rw [← replaceAll_chunk_step hpre]

/-- Head-blocked run: when pattern and replacement begin with a blocking
character the run never enters an insertion, commuting with the image. -/
theorem simDropH {pat rep : List Char} {p : Char → Bool} {c0 : Char} {pt rt : List Char}
    (hpat : pat = c0 :: pt) (hrep : rep = c0 :: rt) (hc0 : p c0 = false) :
    ∀ (n : Nat) (z : List Char), z.length ≤ n →
      (replaceAll pat rep z).dropWhile p = replaceAll pat rep (z.dropWhile p) := by
  intro n
  induction n with
  | zero =>
    intro z hz
    have hnil : z = [] := List.eq_nil_of_length_eq_zero (Nat.le_zero.mp hz)
    subst hnil
    rw [replaceAll, List.dropWhile_nil, replaceAll]
  | succ n ih =>
    intro z hz
    cases z with
    | nil =>
      rw [replaceAll, List.dropWhile_nil, replaceAll]
    | cons c zt =>
      by_cases hpre : pat.isPrefixOf (c :: zt) = true
      · obtain ⟨t, ht⟩ := (isPre_iff _ _).mp hpre
        have hc : c = c0 := by
          rw [hpat] at ht
          simpa using ((List.cons.injEq _ _ _ _).mp ht).1
        have hstop1 : (c :: zt).dropWhile p = c :: zt := by
          rw [List.dropWhile_cons, hc, hc0]
          simp
        have hstop2 : (replaceAll pat rep (c :: zt)).dropWhile p =
            replaceAll pat rep (c :: zt) := by
          rw [ht, replaceAll_pat_step (by rw [hpat]; simp) t, hrep]
          rw [List.cons_append, List.dropWhile_cons, hc0]
          simp
        rw [hstop1, hstop2]
      · have hlz : zt.length ≤ n := by
          simp only [List.length_cons] at hz
          omega
        rw [replaceAll_chunk_step hpre]
        cases hcv : p c with
        | true =>
          rw [List.dropWhile_cons, List.dropWhile_cons, hcv]
          simp only [if_pos rfl]
          exact ih zt hlz
        | false =>
          rw [List.dropWhile_cons, List.dropWhile_cons, hcv]
          simp only [Bool.false_eq_true, if_false]
          rw [← replaceAll_chunk_step hpre]

/-- A literal fragment consumed from untouched text is reproduced before the
replacement image. -/
theorem eatLitChunksFwd {pat rep lit : List Char} (hp : pat ≠ [])
    (hcp : ∀ t, t <:+ lit → t ≠ [] → t.isPrefixOf pat = false)
    (hlp : lit.length < pat.length) :
    ∀ (n : Nat) (z : List Char), z.length ≤ n → ∀ lt, lt ≠ [] → lt <:+ lit →
      lt.isPrefixOf z = true →
      ∃ z₂, z = lt ++ z₂ ∧ replaceAll pat rep z = lt ++ replaceAll pat rep z₂ := by
  intro n
  induction n with
  | zero =>
    intro z hz lt hne hsuf hpre
    have hnil : z = [] := List.eq_nil_of_length_eq_zero (Nat.le_zero.mp hz)
    subst hnil
    cases lt with
    | nil => exact absurd rfl hne
    | cons l0 lt' => simp [List.isPrefixOf] at hpre
  | succ n ih =>
    intro z hz lt hne hsuf hpre
    by_cases hpp : pat.isPrefixOf z = true
    · exfalso
      obtain ⟨zr, hzr⟩ := (isPre_iff _ _).mp hpp
      obtain ⟨z₂', hz2⟩ := (isPre_iff _ _).mp hpre
      rw [hzr] at hz2
      have hltpre : lt <+: pat ++ zr := ⟨z₂', hz2.symm⟩
      rcases pre_append_cases hltpre with h1 | h2
      · have := hcp lt hsuf hne
        rw [(isPre_iff _ _).mpr (by obtain ⟨t, ht⟩ := h1; exact ⟨t, ht.symm⟩)] at this
        exact Bool.noConfusion this
      · have hl1 : pat.length ≤ lt.length := h2.length_le
        have hl2 : lt.length ≤ lit.length := hsuf.sublist.length_le
        omega
    · cases z with
      | nil =>
        cases lt with
        | nil => exact absurd rfl hne
        | cons l0 lt' => simp [List.isPrefixOf] at hpre
      | cons c zt =>
        cases lt with
        | nil => exact absurd rfl hne
        | cons l0 lt' =>
          have hstep := @replaceAll_chunk_step pat rep _ _ hpp
          simp only [List.isPrefixOf, Bool.and_eq_true, beq_iff_eq] at hpre
          obtain ⟨hl0, hltpre⟩ := hpre
          cases lt' with
          | nil =>
            refine ⟨zt, ?_, ?_⟩
            · rw [hl0]
              rfl
            · rw [hstep, hl0]
              rfl
          | cons m0 mt =>
            have hlz : zt.length ≤ n := by
              simp only [List.length_cons] at hz
              omega
            have hsuf' : m0 :: mt <:+ lit := suffix_tail_of hsuf
            obtain ⟨z₂, he1, he2⟩ := ih zt hlz (m0 :: mt) (by simp) hsuf' hltpre
            refine ⟨z₂, ?_, ?_⟩
            · rw [hl0, List.cons_append, ← he1]
            · rw [hstep, hl0, List.cons_append, ← he2]

/-- A literal fragment found at the head of the replacement image was already
at the head of the untouched text. -/
theorem eatLitChunksRev {pat rep lit : List Char} (hp : pat ≠ [])
    (hcr : ∀ t, t <:+ lit → t ≠ [] → t.isPrefixOf rep = false)
    (hlr : lit.length < rep.length) :
    ∀ (n : Nat) (z : List Char), z.length ≤ n → ∀ lt, lt ≠ [] → lt <:+ lit →
      lt.isPrefixOf (replaceAll pat rep z) = true →
      ∃ z₂, z = lt ++ z₂ ∧ replaceAll pat rep z = lt ++ replaceAll pat rep z₂ := by
  intro n
  induction n with
  | zero =>
    intro z hz lt hne hsuf hpre
    have hnil : z = [] := List.eq_nil_of_length_eq_zero (Nat.le_zero.mp hz)
    subst hnil
    rw [replaceAll] at hpre
    cases lt with
    | nil => exact absurd rfl hne
    | cons l0 lt' => simp [List.isPrefixOf] at hpre
  | succ n ih =>
    intro z hz lt hne hsuf hpre
    by_cases hpp : pat.isPrefixOf z = true
    · exfalso
      obtain ⟨zr, hzr⟩ := (isPre_iff _ _).mp hpp
      rw [hzr, replaceAll_pat_step hp] at hpre
      obtain ⟨z₂', hz2⟩ := (isPre_iff _ _).mp hpre
      have hltpre : lt <+: rep ++ replaceAll pat rep zr := ⟨z₂', hz2.symm⟩
      rcases pre_append_cases hltpre with h1 | h2
      · have := hcr lt hsuf hne
        rw [(isPre_iff _ _).mpr (by obtain ⟨t, ht⟩ := h1; exact ⟨t, ht.symm⟩)] at this
        exact Bool.noConfusion this
      · have hl1 : rep.length ≤ lt.length := h2.length_le
        have hl2 : lt.length ≤ lit.length := hsuf.sublist.length_le
        omega
    · cases z with
      | nil =>
        rw [replaceAll] at hpre
        cases lt with
        | nil => exact absurd rfl hne
        | cons l0 lt' => simp [List.isPrefixOf] at hpre
      | cons c zt =>
        cases lt with
        | nil => exact absurd rfl hne
        | cons l0 lt' =>
          have hstep := @replaceAll_chunk_step pat rep _ _ hpp
          rw [hstep] at hpre
          simp only [List.isPrefixOf, Bool.and_eq_true, beq_iff_eq] at hpre
          obtain ⟨hl0, hltpre⟩ := hpre
          cases lt' with
          | nil =>
            refine ⟨zt, ?_, ?_⟩
            · rw [hl0]
              rfl
            · rw [hstep, hl0]
              rfl
          | cons m0 mt =>
            have hlz : zt.length ≤ n := by
              simp only [List.length_cons] at hz
              omega
            have hsuf' : m0 :: mt <:+ lit := suffix_tail_of hsuf
            obtain ⟨z₂, he1, he2⟩ := ih zt hlz (m0 :: mt) (by simp) hsuf' hltpre
            refine ⟨z₂, ?_, ?_⟩
            · rw [hl0, List.cons_append, ← he1]
            · rw [hstep, hl0, List.cons_append, ← he2]

/-- Simulation of one `eatLit` phase across a `replaceAll` image: the phase
fails on both sides or succeeds on both with remainders again of the shape
prefix-plus-image. Requires that no nonempty suffix of the literal starts the
pattern or the replacement, and that the literal is shorter than both. -/
theorem simEatLit {pat rep lit : List Char} (hp : pat ≠ [])
    (hcp : ∀ t, t <:+ lit → t ≠ [] → t.isPrefixOf pat = false)
    (hcr : ∀ t, t <:+ lit → t ≠ [] → t.isPrefixOf rep = false)
    (hlp : lit.length < pat.length) (hlr : lit.length < rep.length)
    (z a : List Char) :
    (eatLit lit (a ++ z) = none ∧ eatLit lit (a ++ replaceAll pat rep z) = none) ∨
    (∃ a₂ z₂, eatLit lit (a ++ z) = some (a₂ ++ z₂) ∧
      eatLit lit (a ++ replaceAll pat rep z) = some (a₂ ++ replaceAll pat rep z₂)) := by
  by_cases h1 : lit.isPrefixOf (a ++ z) = true
  · right
    rcases pre_append_cases (List.isPrefixOf_iff_prefix.mp h1) with hi | hii
    · obtain ⟨a₂, ha⟩ := hi
      refine ⟨a₂, z, ?_, ?_⟩
      · rw [← ha, List.append_assoc, eatLit_append]
      · rw [← ha, List.append_assoc, eatLit_append]
    · obtain ⟨lt, hl⟩ := hii
      cases lt with
      | nil =>
        rw [List.append_nil] at hl
        refine ⟨[], z, ?_, ?_⟩
        · rw [← hl, eatLit_append]
          rfl
        · rw [← hl, eatLit_append]
          rfl
      | cons m0 mt =>
        have hltz : (m0 :: mt) <+: z := by
          refine (List.prefix_append_right_inj a).mp ?_
          rw [hl]
          exact List.isPrefixOf_iff_prefix.mp h1
        obtain ⟨z₂, hz1, hz2⟩ := eatLitChunksFwd hp hcp hlp z.length z le_rfl
          (m0 :: mt) (by simp) ⟨a, hl⟩ (List.isPrefixOf_iff_prefix.mpr hltz)
        refine ⟨[], z₂, ?_, ?_⟩
        · rw [hz1, ← List.append_assoc, hl, eatLit_append]
          rfl
        · rw [hz2, ← List.append_assoc, hl, eatLit_append]
          rfl
  · left
    have h2 : ¬ lit.isPrefixOf (a ++ replaceAll pat rep z) = true := by
      intro htrue
      rcases pre_append_cases (List.isPrefixOf_iff_prefix.mp htrue) with hi | hii
      · exact h1 (List.isPrefixOf_iff_prefix.mpr (hi.trans (List.prefix_append a z)))
      · obtain ⟨lt, hl⟩ := hii
        cases lt with
        | nil =>
          rw [List.append_nil] at hl
          refine h1 (List.isPrefixOf_iff_prefix.mpr ?_)
          rw [← hl]
          exact List.prefix_append a z
        | cons m0 mt =>
          have hltz : (m0 :: mt) <+: replaceAll pat rep z := by
            refine (List.prefix_append_right_inj a).mp ?_
            rw [hl]
            exact List.isPrefixOf_iff_prefix.mp htrue
          obtain ⟨z₂, hz1, hz2⟩ := eatLitChunksRev hp hcr hlr z.length z le_rfl
            (m0 :: mt) (by simp) ⟨a, hl⟩ (List.isPrefixOf_iff_prefix.mpr hltz)
          refine h1 (List.isPrefixOf_iff_prefix.mpr ⟨z₂, ?_⟩)
          rw [hz1, ← List.append_assoc, hl]
    exact ⟨by rw [eatLit, if_neg h1], by rw [eatLit, if_neg h2]⟩

/-- dropWhile over an append whose left part ends the run. -/
theorem dropWhile_app_stop {p : Char → Bool} {a : List Char} {d0 : Char} {dt : List Char}
    (h : a.dropWhile p = d0 :: dt) (X : List Char) :
    (a ++ X).dropWhile p = (d0 :: dt) ++ X := by
  induction a with
  | nil => simp at h
  | cons c at' ih =>
    cases hc : p c with
    | true =>
      rw [List.dropWhile_cons_of_pos hc] at h
      rw [List.cons_append, List.dropWhile_cons_of_pos hc]
      exact ih h
    | false =>
      rw [List.dropWhile_cons_of_neg (by simp [hc])] at h
      rw [List.cons_append, List.dropWhile_cons_of_neg (by simp [hc]), ← h]
      rfl

/-- dropWhile over an append whose left part is fully consumed. -/
theorem dropWhile_app_nil {p : Char → Bool} {a : List Char}
    (h : a.dropWhile p = []) (X : List Char) :
    (a ++ X).dropWhile p = X.dropWhile p := by
  induction a with
  | nil => rfl
  | cons c at' ih =>
    cases hc : p c with
    | true =>
      rw [List.dropWhile_cons_of_pos hc] at h
      rw [List.cons_append, List.dropWhile_cons_of_pos hc]
      exact ih h
    | false =>
      rw [List.dropWhile_cons_of_neg (by simp [hc])] at h
      exact absurd h (by simp)

/-- Simulation of a dropWhile phase given a commuting replacement image. -/
theorem simDropOf {pat rep : List Char} {p : Char → Bool}
    (hdw : ∀ w, (replaceAll pat rep w).dropWhile p = replaceAll pat rep (w.dropWhile p))
    (z a : List Char) :
    ∃ a₂ z₂, (a ++ z).dropWhile p = a₂ ++ z₂ ∧
      (a ++ replaceAll pat rep z).dropWhile p = a₂ ++ replaceAll pat rep z₂ := by
  cases ha : a.dropWhile p with
  | nil =>
    exact ⟨[], z.dropWhile p, by rw [dropWhile_app_nil ha]; rfl, by
      rw [dropWhile_app_nil ha, hdw]; rfl⟩
  | cons d0 dt =>
    exact ⟨d0 :: dt, z, dropWhile_app_stop ha z, dropWhile_app_stop ha _⟩

/-- eatWhile1 fails at a blocking head. -/
theorem eatWhile1_cons_neg {p : Char → Bool} {c : Char} (t : List Char)
    (hc : p c = false) : eatWhile1 p (c :: t) = none := by
  simp only [eatWhile1, List.takeWhile_cons, hc]
  rfl

/-- eatWhile1 succeeds at a satisfying head and returns the run split. -/
theorem eatWhile1_cons_pos {p : Char → Bool} {c : Char} (t : List Char)
    (hc : p c = true) :
    eatWhile1 p (c :: t) = some ((c :: t).takeWhile p, (c :: t).dropWhile p) := by
  simp only [eatWhile1, List.takeWhile_cons, hc]
  rfl

/-- Simulation of an eatWhile1 phase across a replacement image with a shared
pattern/replacement head and a commuting dropWhile. -/
theorem simEatWhile1Of {pat rep : List Char} {p : Char → Bool} {c0 : Char}
    {pt rt : List Char} (hpat : pat = c0 :: pt) (hrep : rep = c0 :: rt)
    (hdw : ∀ w, (replaceAll pat rep w).dropWhile p = replaceAll pat rep (w.dropWhile p))
    (z a : List Char) :
    (eatWhile1 p (a ++ z) = none ∧ eatWhile1 p (a ++ replaceAll pat rep z) = none) ∨
    (∃ g g' a₂ z₂, eatWhile1 p (a ++ z) = some (g, a₂ ++ z₂) ∧
      eatWhile1 p (a ++ replaceAll pat rep z) = some (g', a₂ ++ replaceAll pat rep z₂)) := by
  cases a with
  | cons c at' =>
    cases hc : p c with
    | false =>
      exact Or.inl ⟨eatWhile1_cons_neg _ hc, eatWhile1_cons_neg _ hc⟩
    | true =>
      obtain ⟨a₂, z₂, h1, h2⟩ := simDropOf hdw z (c :: at')
      right
      refine ⟨((c :: at') ++ z).takeWhile p,
        ((c :: at') ++ replaceAll pat rep z).takeWhile p, a₂, z₂, ?_, ?_⟩
      · rw [List.cons_append, eatWhile1_cons_pos _ hc, ← List.cons_append, h1]
      · rw [List.cons_append, eatWhile1_cons_pos _ hc, ← List.cons_append, h2]
  | nil =>
    rcases replaceAll_headAgree hpat hrep z with ⟨hz, hR⟩ | ⟨c, zt, zt', hz, hR⟩
    · subst hz
      rw [hR]
      exact Or.inl ⟨rfl, rfl⟩
    · cases hc : p c with
      | false =>
        left
        rw [List.nil_append, List.nil_append, hR, hz]
        exact ⟨eatWhile1_cons_neg _ hc, eatWhile1_cons_neg _ hc⟩
      | true =>
        right
        refine ⟨z.takeWhile p, (replaceAll pat rep z).takeWhile p, [],
          z.dropWhile p, ?_, ?_⟩
        · rw [List.nil_append, List.nil_append, hz, eatWhile1_cons_pos _ hc, ← hz]
        · rw [List.nil_append, List.nil_append, hR, eatWhile1_cons_pos _ hc, ← hR,
            hdw]

/-- Core trichotomy for a dropWhile run across a replacement image whose
pattern and replacement both contain a blocking character: the run exhausts
both strings, stops at a shared literal character, or stops inside a
pattern/replacement copy at their respective first blocking characters. -/
theorem innerDropPair {pat rep X₁ X₂ : List Char} {q : Char → Bool}
    (hp : pat ≠ []) (h1 : pat.dropWhile q = X₁) (h2 : rep.dropWhile q = X₂)
    (hX1 : X₁ ≠ []) (hX2 : X₂ ≠ []) :
    ∀ (n : Nat) (z : List Char), z.length ≤ n →
      (z.dropWhile q = [] ∧ (replaceAll pat rep z).dropWhile q = []) ∨
      (∃ c z₂, q c = false ∧ z.dropWhile q = c :: z₂ ∧
        (replaceAll pat rep z).dropWhile q = c :: replaceAll pat rep z₂) ∨
      (∃ zr, z.dropWhile q = X₁ ++ zr ∧
        (replaceAll pat rep z).dropWhile q = X₂ ++ replaceAll pat rep zr) := by
  intro n
  induction n with
  | zero =>
    intro z hz
    have hnil : z = [] := List.eq_nil_of_length_eq_zero (Nat.le_zero.mp hz)
    subst hnil
    left
    rw [replaceAll]
    exact ⟨rfl, rfl⟩
  | succ n ih =>
    intro z hz
    by_cases hpp : pat.isPrefixOf z = true
    · obtain ⟨zr, hzr⟩ := List.isPrefixOf_iff_prefix.mp hpp
      rw [← hzr]
      right; right
      refine ⟨zr, ?_, ?_⟩
      · cases hX : X₁ with
        | nil => exact absurd hX hX1
        | cons x xt =>
          rw [hX] at h1
          rw [dropWhile_app_stop h1 zr, ← hX]
      · rw [replaceAll_pat_step hp]
        cases hX : X₂ with
        | nil => exact absurd hX hX2
        | cons x xt =>
          rw [hX] at h2
          rw [dropWhile_app_stop h2 _, ← hX]
    · cases z with
      | nil =>
        left
        rw [replaceAll]
        exact ⟨rfl, rfl⟩
      | cons c zt =>
        have hstep := @replaceAll_chunk_step pat rep _ _ hpp
        cases hc : q c with
        | false =>
          right; left
          refine ⟨c, zt, hc, ?_, ?_⟩
          · rw [List.dropWhile_cons_of_neg (by simp [hc])]
          · rw [hstep, List.dropWhile_cons_of_neg (by simp [hc])]
        | true =>
          have hlz : zt.length ≤ n := by
            simp only [List.length_cons] at hz
            omega
          have hzd : (c :: zt).dropWhile q = zt.dropWhile q :=
            List.dropWhile_cons_of_pos hc
          have hRd : (replaceAll pat rep (c :: zt)).dropWhile q =
              (replaceAll pat rep zt).dropWhile q := by
            rw [hstep, List.dropWhile_cons_of_pos hc]
          rcases ih zt hlz with ⟨ha, hb⟩ | ⟨c', z₂, hq, ha, hb⟩ | ⟨zr, ha, hb⟩
          · left
            rw [hzd, hRd]
            exact ⟨ha, hb⟩
          · right; left
            rw [hzd, hRd]
            exact ⟨c', z₂, hq, ha, hb⟩
          · right; right
            rw [hzd, hRd]
            exact ⟨zr, ha, hb⟩

/-- dropWhile phase simulation with a leading shared prefix: the run either
re-aligns (shared remainder head) or stops at the pattern and replacement
first blocking characters. -/
theorem simDropPair {pat rep X₁ X₂ : List Char} {q : Char → Bool}
    (hp : pat ≠ []) (h1 : pat.dropWhile q = X₁) (h2 : rep.dropWhile q = X₂)
    (hX1 : X₁ ≠ []) (hX2 : X₂ ≠ []) (z a : List Char) :
    (∃ a₂ z₂, (a ++ z).dropWhile q = a₂ ++ z₂ ∧
      (a ++ replaceAll pat rep z).dropWhile q = a₂ ++ replaceAll pat rep z₂) ∨
    (∃ zr, (a ++ z).dropWhile q = X₁ ++ zr ∧
      (a ++ replaceAll pat rep z).dropWhile q = X₂ ++ replaceAll pat rep zr) := by
  cases ha : a.dropWhile q with
  | cons d0 dt =>
    exact Or.inl ⟨d0 :: dt, z, dropWhile_app_stop ha z, dropWhile_app_stop ha _⟩
  | nil =>
    rw [dropWhile_app_nil ha, dropWhile_app_nil ha]
    rcases innerDropPair hp h1 h2 hX1 hX2 z.length z le_rfl with
      ⟨hA, hB⟩ | ⟨c, z₂, _, hA, hB⟩ | ⟨zr, hA, hB⟩
    · refine Or.inl ⟨[], [], ?_, ?_⟩
      · rw [hA]
        rfl
      · rw [hB, replaceAll]
        rfl
    · exact Or.inl ⟨[c], z₂, by rw [hA]; rfl, by rw [hB]; rfl⟩
    · exact Or.inr ⟨zr, hA, hB⟩

/-- Reduction of a monadic bind at a present value. -/
theorem optSeqSome {α β : Type} (a : α) (f : α → Option β) :
    ((some a : Option α) >>= f) = f a := rfl

/-- Reduction of Option.bind at a present value. -/
theorem optBindSome {α β : Type} (a : α) (f : α → Option β) :
    (Option.bind (some a) f) = f a := rfl

/-- Decomposition of `defMatchAt` into its two leading phases followed by `defTail3`. -/
theorem defMatchAt_decompose (s : List Char) : defMatchAt s =
    (eatLit strDefSp s).bind fun s1 =>
      (eatWhile1 (fun c => c != '(') s1).bind fun g =>
        (defTail3 g.2).map fun s8 => (defStub g.1, s8) := by
  simp only [defMatchAt, defTail3, defTail5]
  cases eatLit strDefSp s with
  | none => rfl
  | some s1 =>
    rw [optSeqSome, optBindSome]
    cases eatWhile1 (fun c => c != '(') s1 with
    | none => rfl
    | some g =>
      obtain ⟨g1, s2⟩ := g
      rw [optSeqSome, optBindSome]
      cases eatLit strLParen s2 with
      | none => rfl
      | some s3 =>
        rw [optSeqSome, optBindSome]
        cases eatLit strRParenColon (s3.dropWhile (fun c => c != ')')) with
        | none => rfl
        | some s5 =>
          rw [optSeqSome, optSeqSome]
          cases eatLit strDots (s5.dropWhile pyIsSpace) with
          | none => rfl
          | some s7 => rfl

/-- Bool-level form of the nonempty-suffix-no-prefix side conditions. -/
theorem prefCond_of_tails {q pat : List Char}
    (h : q.tails.all (fun p => p.isEmpty || !(p.isPrefixOf pat)) = true) :
    ∀ t, t <:+ q → t ≠ [] → t.isPrefixOf pat = false := by
  intro t ht hne
  have hz := List.all_eq_true.mp h t ((List.mem_tails t q).mpr ht)
  simp only [Bool.or_eq_true, List.isEmpty_iff, Bool.not_eq_true'] at hz
  rcases hz with h1 | h1
  · exact absurd h1 hne
  · exact h1

/-- Simulation of the `defTail5` phase chain across a replacement image. -/
theorem simDefTail5 {pat rep : List Char} (hp : pat ≠ [])
    (hA1 : ∀ t, t <:+ strRParenColon → t ≠ [] → t.isPrefixOf pat = false)
    (hA2 : ∀ t, t <:+ strRParenColon → t ≠ [] → t.isPrefixOf rep = false)
    (hA3 : strRParenColon.length < pat.length)
    (hA4 : strRParenColon.length < rep.length)
    (hB1 : ∀ t, t <:+ strDots → t ≠ [] → t.isPrefixOf pat = false)
    (hB2 : ∀ t, t <:+ strDots → t ≠ [] → t.isPrefixOf rep = false)
    (hB3 : strDots.length < pat.length) (hB4 : strDots.length < rep.length)
    (hdw : ∀ w, (replaceAll pat rep w).dropWhile pyIsSpace =
      replaceAll pat rep (w.dropWhile pyIsSpace))
    (z a : List Char) :
    (defTail5 (a ++ z) = none ∧ defTail5 (a ++ replaceAll pat rep z) = none) ∨
    (∃ y y', defTail5 (a ++ z) = some y ∧
      defTail5 (a ++ replaceAll pat rep z) = some y') := by
  rcases simEatLit hp hA1 hA2 hA3 hA4 z a with ⟨e1, e2⟩ | ⟨a₂, z₂, e1, e2⟩
  · left
    constructor
    · simp only [defTail5]
      rw [e1]
      rfl
    · simp only [defTail5]
      rw [e2]
      rfl
  · obtain ⟨a₃, z₃, d1, d2⟩ := simDropOf hdw z₂ a₂
    rcases simEatLit hp hB1 hB2 hB3 hB4 z₃ a₃ with ⟨f1, f2⟩ | ⟨a₄, z₄, f1, f2⟩
    · left
      constructor
      · simp only [defTail5]
        rw [e1, optSeqSome, d1, f1]
        rfl
      · simp only [defTail5]
        rw [e2, optSeqSome, d2, f2]
        rfl
    · right
      refine ⟨(a₄ ++ z₄).dropWhile pyIsSpace,
        (a₄ ++ replaceAll pat rep z₄).dropWhile pyIsSpace, ?_, ?_⟩
      · simp only [defTail5]
        rw [e1, optSeqSome, d1, f1]
        rfl
      · simp only [defTail5]
        rw [e2, optSeqSome, d2, f2]
        rfl

/-- Simulation of the `defTail3` phase chain across a replacement image,
given a simulation of the parameter-run dropWhile. -/
theorem simDefTail3 {pat rep : List Char} (hp : pat ≠ [])
    (hC1 : ∀ t, t <:+ strLParen → t ≠ [] → t.isPrefixOf pat = false)
    (hC2 : ∀ t, t <:+ strLParen → t ≠ [] → t.isPrefixOf rep = false)
    (hC3 : strLParen.length < pat.length) (hC4 : strLParen.length < rep.length)
    (hparen : ∀ z a, ∃ a₂ z₂,
      (a ++ z).dropWhile (fun c => c != ')') = a₂ ++ z₂ ∧
      (a ++ replaceAll pat rep z).dropWhile (fun c => c != ')') =
        a₂ ++ replaceAll pat rep z₂)
    (hA1 : ∀ t, t <:+ strRParenColon → t ≠ [] → t.isPrefixOf pat = false)
    (hA2 : ∀ t, t <:+ strRParenColon → t ≠ [] → t.isPrefixOf rep = false)
    (hA3 : strRParenColon.length < pat.length)
    (hA4 : strRParenColon.length < rep.length)
    (hB1 : ∀ t, t <:+ strDots → t ≠ [] → t.isPrefixOf pat = false)
    (hB2 : ∀ t, t <:+ strDots → t ≠ [] → t.isPrefixOf rep = false)
    (hB3 : strDots.length < pat.length) (hB4 : strDots.length < rep.length)
    (hdw : ∀ w, (replaceAll pat rep w).dropWhile pyIsSpace =
      replaceAll pat rep (w.dropWhile pyIsSpace))
    (z a : List Char) :
    (defTail3 (a ++ z) = none ∧ defTail3 (a ++ replaceAll pat rep z) = none) ∨
    (∃ y y', defTail3 (a ++ z) = some y ∧
      defTail3 (a ++ replaceAll pat rep z) = some y') := by
  rcases simEatLit hp hC1 hC2 hC3 hC4 z a with ⟨e1, e2⟩ | ⟨a₂, z₂, e1, e2⟩
  · left
    constructor
    · simp only [defTail3]
      rw [e1]
      rfl
    · simp only [defTail3]
      rw [e2]
      rfl
  · obtain ⟨a₃, z₃, d1, d2⟩ := hparen z₂ a₂
    rcases simDefTail5 hp hA1 hA2 hA3 hA4 hB1 hB2 hB3 hB4 hdw z₃ a₃ with
      ⟨f1, f2⟩ | ⟨y, y', f1, f2⟩
    · left
      constructor
      · simp only [defTail3]
        rw [e1, optBindSome, d1]
        exact f1
      · simp only [defTail3]
        rw [e2, optBindSome, d2]
        exact f2
    · right
      refine ⟨y, y', ?_, ?_⟩
      · simp only [defTail3]
        rw [e1, optBindSome, d1]
        exact f1
      · simp only [defTail3]
        rw [e2, optBindSome, d2]
        exact f2

/-- eatWhile1 simulation across a replacement image whose pattern and
replacement both contain blocking characters: failure on both sides,
re-aligned success, or success stopping inside a pattern/replacement copy. -/
theorem simEatWhile1Pair {pat rep X₁ X₂ : List Char} {q : Char → Bool}
    {c0 : Char} {pt rt : List Char}
    (hpat : pat = c0 :: pt) (hrep : rep = c0 :: rt)
    (h1 : pat.dropWhile q = X₁) (h2 : rep.dropWhile q = X₂)
    (hX1 : X₁ ≠ []) (hX2 : X₂ ≠ []) (z a : List Char) :
    (eatWhile1 q (a ++ z) = none ∧ eatWhile1 q (a ++ replaceAll pat rep z) = none) ∨
    (∃ g g' a₂ z₂, eatWhile1 q (a ++ z) = some (g, a₂ ++ z₂) ∧
      eatWhile1 q (a ++ replaceAll pat rep z) = some (g', a₂ ++ replaceAll pat rep z₂)) ∨
    (∃ g g' zr, eatWhile1 q (a ++ z) = some (g, X₁ ++ zr) ∧
      eatWhile1 q (a ++ replaceAll pat rep z) = some (g', X₂ ++ replaceAll pat rep zr)) := by
  have hp : pat ≠ [] := by rw [hpat]; simp
  cases a with
  | cons c at' =>
    cases hc : q c with
    | false =>
      exact Or.inl ⟨eatWhile1_cons_neg _ hc, eatWhile1_cons_neg _ hc⟩
    | true =>
      rcases simDropPair hp h1 h2 hX1 hX2 z (c :: at') with
        ⟨a₂, z₂, d1, d2⟩ | ⟨zr, d1, d2⟩
      · right; left
        refine ⟨((c :: at') ++ z).takeWhile q,
          ((c :: at') ++ replaceAll pat rep z).takeWhile q, a₂, z₂, ?_, ?_⟩
        · rw [List.cons_append, eatWhile1_cons_pos _ hc, ← List.cons_append, d1]
        · rw [List.cons_append, eatWhile1_cons_pos _ hc, ← List.cons_append, d2]
      · right; right
        refine ⟨((c :: at') ++ z).takeWhile q,
          ((c :: at') ++ replaceAll pat rep z).takeWhile q, zr, ?_, ?_⟩
        · rw [List.cons_append, eatWhile1_cons_pos _ hc, ← List.cons_append, d1]
        · rw [List.cons_append, eatWhile1_cons_pos _ hc, ← List.cons_append, d2]
  | nil =>
    rcases replaceAll_headAgree hpat hrep z with ⟨hz, hR⟩ | ⟨c, zt, zt', hz, hR⟩
    · subst hz
      rw [hR]
      exact Or.inl ⟨rfl, rfl⟩
    · cases hc : q c with
      | false =>
        left
        rw [List.nil_append, List.nil_append, hR, hz]
        exact ⟨eatWhile1_cons_neg _ hc, eatWhile1_cons_neg _ hc⟩
      | true =>
        have he1 : eatWhile1 q ([] ++ z) = some (z.takeWhile q, z.dropWhile q) := by
          rw [List.nil_append, hz, eatWhile1_cons_pos _ hc, ← hz]
        have he2 : eatWhile1 q ([] ++ replaceAll pat rep z) =
            some ((replaceAll pat rep z).takeWhile q,
              (replaceAll pat rep z).dropWhile q) := by
          rw [List.nil_append, hR, eatWhile1_cons_pos _ hc, ← hR]
        rcases innerDropPair hp h1 h2 hX1 hX2 z.length z le_rfl with
          ⟨hA, hB⟩ | ⟨c', z₂, _, hA, hB⟩ | ⟨zr, hA, hB⟩
        · right; left
          refine ⟨z.takeWhile q, (replaceAll pat rep z).takeWhile q, [], [], ?_, ?_⟩
          · rw [he1, hA]
            rfl
          · rw [he2, hB, replaceAll]
            rfl
        · right; left
          exact ⟨z.takeWhile q, (replaceAll pat rep z).takeWhile q, [c'], z₂,
            by rw [he1, hA]; rfl, by rw [he2, hB]; rfl⟩
        · right; right
          exact ⟨z.takeWhile q, (replaceAll pat rep z).takeWhile q, zr,
            by rw [he1, hA], by rw [he2, hB]⟩

/-- Simulation of `defMatchAt` across the missing-os-import replacement:
both sides fail or both sides match. -/
theorem simDefMatchDot (z a : List Char) :
    (defMatchAt (a ++ z) = none ∧
      defMatchAt (a ++ replaceAll strImportDotenv strImportOsDotenv z) = none) ∨
    ((∃ r, defMatchAt (a ++ z) = some r) ∧
      (∃ r', defMatchAt (a ++ replaceAll strImportDotenv strImportOsDotenv z) =
        some r')) := by
  have hpat : strImportDotenv = 'i' :: "mport dotenv".toList := by decide
  have hrep : strImportOsDotenv = 'i' :: "mport os\nimport dotenv".toList := by decide
  have hp : strImportDotenv ≠ [] := by decide
  have hdwP : ∀ w, (replaceAll strImportDotenv strImportOsDotenv w).dropWhile
      (fun c => c != '(') =
      replaceAll strImportDotenv strImportOsDotenv
        (w.dropWhile (fun c => c != '(')) :=
    fun w => simDropT hp (by decide) (by decide) w.length w le_rfl
  have hdwR : ∀ w, (replaceAll strImportDotenv strImportOsDotenv w).dropWhile
      (fun c => c != ')') =
      replaceAll strImportDotenv strImportOsDotenv
        (w.dropWhile (fun c => c != ')')) :=
    fun w => simDropT hp (by decide) (by decide) w.length w le_rfl
  have hdwS : ∀ w, (replaceAll strImportDotenv strImportOsDotenv w).dropWhile
      pyIsSpace =
      replaceAll strImportDotenv strImportOsDotenv (w.dropWhile pyIsSpace) :=
    fun w => simDropH hpat hrep (by decide) w.length w le_rfl
  rcases @simEatLit strImportDotenv strImportOsDotenv strDefSp hp
    (prefCond_of_tails (by decide)) (prefCond_of_tails (by decide))
    (by decide) (by decide) z a with ⟨e1, e2⟩ | ⟨a₂, z₂, e1, e2⟩
  · left
    rw [defMatchAt_decompose, e1, defMatchAt_decompose, e2]
    exact ⟨rfl, rfl⟩
  · rcases simEatWhile1Of hpat hrep hdwP z₂ a₂ with ⟨w1, w2⟩ | ⟨g, g', a₃, z₃, w1, w2⟩
    · left
      rw [defMatchAt_decompose, e1, optBindSome, w1,
        defMatchAt_decompose, e2, optBindSome, w2]
      exact ⟨rfl, rfl⟩
    · rcases simDefTail3 hp (prefCond_of_tails (by decide)) (prefCond_of_tails (by decide))
        (by decide) (by decide) (fun z' a' => simDropOf hdwR z' a')
        (prefCond_of_tails (by decide)) (prefCond_of_tails (by decide))
        (by decide) (by decide)
        (prefCond_of_tails (by decide)) (prefCond_of_tails (by decide))
        (by decide) (by decide) hdwS z₃ a₃ with ⟨f1, f2⟩ | ⟨y, y', f1, f2⟩
      · left
        constructor
        · rw [defMatchAt_decompose, e1, optBindSome, w1, optBindSome]
          simp only [f1, Option.map_none']
        · rw [defMatchAt_decompose, e2, optBindSome, w2, optBindSome]
          simp only [f2, Option.map_none']
      · right
        constructor
        · refine ⟨(defStub g, y), ?_⟩
          rw [defMatchAt_decompose, e1, optBindSome, w1, optBindSome]
          simp only [f1, Option.map_some']
        · refine ⟨(defStub g', y'), ?_⟩
          rw [defMatchAt_decompose, e2, optBindSome, w2, optBindSome]
          simp only [f2, Option.map_some']

/-- Simulation of `defMatchAt` across the database-setup replacement: both
sides fail or both sides match.  A run entering a pattern copy re-aligns at
the closing parenthesis shared by pattern and replacement. -/
theorem simDefMatchCreate (z a : List Char) :
    (defMatchAt (a ++ z) = none ∧
      defMatchAt (a ++ replaceAll strCreatePat strCreateRep z) = none) ∨
    ((∃ r, defMatchAt (a ++ z) = some r) ∧
      (∃ r', defMatchAt (a ++ replaceAll strCreatePat strCreateRep z) =
        some r')) := by
  have hpat : strCreatePat =
      'c' :: "reateorcreate(database_url=DATABASE0DB)".toList := by decide
  have hrep : strCreateRep =
      'c' :: "reate_engine(DATABASE_URL or \x27sqlite:///./app.db\x27)".toList := by
    decide
  have hp : strCreatePat ≠ [] := by decide
  have hdwS : ∀ w, (replaceAll strCreatePat strCreateRep w).dropWhile pyIsSpace =
      replaceAll strCreatePat strCreateRep (w.dropWhile pyIsSpace) :=
    fun w => simDropH hpat hrep (by decide) w.length w le_rfl
  have htail5 := fun (z' a' : List Char) =>
    @simDefTail5 strCreatePat strCreateRep hp
      (prefCond_of_tails (by decide)) (prefCond_of_tails (by decide))
      (by decide) (by decide)
      (prefCond_of_tails (by decide)) (prefCond_of_tails (by decide))
      (by decide) (by decide) hdwS z' a'
  have hparen : ∀ z' a', ∃ a₂ z₂,
      (a' ++ z').dropWhile (fun c => c != ')') = a₂ ++ z₂ ∧
      (a' ++ replaceAll strCreatePat strCreateRep z').dropWhile
        (fun c => c != ')') = a₂ ++ replaceAll strCreatePat strCreateRep z₂ := by
    intro z' a'
    rcases @simDropPair strCreatePat strCreateRep [')'] [')'] (fun c => c != ')')
      hp (by decide) (by decide) (by decide) (by decide) z' a' with
      h | ⟨zr, hA, hB⟩
    · exact h
    · exact ⟨[')'], zr, hA, hB⟩
  have htail3 := fun (z' a' : List Char) =>
    @simDefTail3 strCreatePat strCreateRep hp
      (prefCond_of_tails (by decide)) (prefCond_of_tails (by decide))
      (by decide) (by decide) hparen
      (prefCond_of_tails (by decide)) (prefCond_of_tails (by decide))
      (by decide) (by decide)
      (prefCond_of_tails (by decide)) (prefCond_of_tails (by decide))
      (by decide) (by decide) hdwS z' a'
  rcases @simEatLit strCreatePat strCreateRep strDefSp hp
    (prefCond_of_tails (by decide)) (prefCond_of_tails (by decide))
    (by decide) (by decide) z a with ⟨e1, e2⟩ | ⟨a₂, z₂, e1, e2⟩
  · left
    rw [defMatchAt_decompose, e1, defMatchAt_decompose, e2]
    exact ⟨rfl, rfl⟩
  · rcases @simEatWhile1Pair strCreatePat strCreateRep
      "(database_url=DATABASE0DB)".toList
      "(DATABASE_URL or \x27sqlite:///./app.db\x27)".toList
      (fun c => c != '(') 'c'
      "reateorcreate(database_url=DATABASE0DB)".toList
      "reate_engine(DATABASE_URL or \x27sqlite:///./app.db\x27)".toList
      hpat hrep (by decide) (by decide) (by decide) (by decide) z₂ a₂ with
      ⟨w1, w2⟩ | ⟨g, g', a₃, z₃, w1, w2⟩ | ⟨g, g', zr, w1, w2⟩
    · left
      rw [defMatchAt_decompose, e1, optBindSome, w1,
        defMatchAt_decompose, e2, optBindSome, w2]
      exact ⟨rfl, rfl⟩
    · rcases htail3 z₃ a₃ with ⟨f1, f2⟩ | ⟨y, y', f1, f2⟩
      · left
        constructor
        · rw [defMatchAt_decompose, e1, optBindSome, w1, optBindSome]
          simp only [f1, Option.map_none']
        · rw [defMatchAt_decompose, e2, optBindSome, w2, optBindSome]
          simp only [f2, Option.map_none']
      · right
        constructor
        · refine ⟨(defStub g, y), ?_⟩
          rw [defMatchAt_decompose, e1, optBindSome, w1, optBindSome]
          simp only [f1, Option.map_some']
        · refine ⟨(defStub g', y'), ?_⟩
          rw [defMatchAt_decompose, e2, optBindSome, w2, optBindSome]
          simp only [f2, Option.map_some']
    · have hE1 : eatLit strLParen ("(database_url=DATABASE0DB)".toList ++ zr) =
          some (("database_url=DATABASE0DB".toList ++ [')']) ++ zr) := by
        rw [show "(database_url=DATABASE0DB)".toList =
          strLParen ++ ("database_url=DATABASE0DB".toList ++ [')']) from by decide,
          List.append_assoc, eatLit_append]
      have hE2 : eatLit strLParen
          ("(DATABASE_URL or \x27sqlite:///./app.db\x27)".toList ++
            replaceAll strCreatePat strCreateRep zr) =
          some (("DATABASE_URL or \x27sqlite:///./app.db\x27".toList ++ [')']) ++
            replaceAll strCreatePat strCreateRep zr) := by
        rw [show "(DATABASE_URL or \x27sqlite:///./app.db\x27)".toList =
          strLParen ++ ("DATABASE_URL or \x27sqlite:///./app.db\x27".toList ++ [')'])
          from by decide, List.append_assoc, eatLit_append]
      have hD1 : (("database_url=DATABASE0DB".toList ++ [')']) ++ zr).dropWhile
          (fun c => c != ')') = [')'] ++ zr := by
        rw [List.append_assoc]
        exact dropWhile_run zr (by decide) (by decide)
      have hD2 : (("DATABASE_URL or \x27sqlite:///./app.db\x27".toList ++ [')']) ++
            replaceAll strCreatePat strCreateRep zr).dropWhile
          (fun c => c != ')') = [')'] ++ replaceAll strCreatePat strCreateRep zr := by
        rw [List.append_assoc]
        exact dropWhile_run _ (by decide) (by decide)
      rcases htail5 zr [')'] with ⟨f1, f2⟩ | ⟨y, y', f1, f2⟩
      · left
        constructor
        · rw [defMatchAt_decompose, e1, optBindSome, w1, optBindSome]
          simp only [defTail3]
          rw [hE1, optBindSome, hD1]
          simp only [f1, Option.map_none']
        · rw [defMatchAt_decompose, e2, optBindSome, w2, optBindSome]
          simp only [defTail3]
          rw [hE2, optBindSome, hD2]
          simp only [f2, Option.map_none']
      · right
        constructor
        · refine ⟨(defStub g, y), ?_⟩
          rw [defMatchAt_decompose, e1, optBindSome, w1, optBindSome]
          simp only [defTail3]
          rw [hE1, optBindSome, hD1]
          simp only [f1, Option.map_some']
        · refine ⟨(defStub g', y'), ?_⟩
          rw [defMatchAt_decompose, e2, optBindSome, w2, optBindSome]
          simp only [defTail3]
          rw [hE2, optBindSome, hD2]
          simp only [f2, Option.map_some']

/-- Every split of a replacement image falls at a scan boundary or strictly
inside an inserted replacement copy. -/
theorem replaceAll_split {pat rep : List Char} (hp : pat ≠ []) :
    ∀ (n : Nat) (s : List Char), s.length ≤ n → ∀ pre' T',
      replaceAll pat rep s = pre' ++ T' →
      (∃ s₁ s₂, s = s₁ ++ s₂ ∧ pre' = replaceAll pat rep s₁ ∧
        T' = replaceAll pat rep s₂) ∨
      (∃ s₁ s₂ r₁ r₂, s = s₁ ++ (pat ++ s₂) ∧ rep = r₁ ++ r₂ ∧ r₁ ≠ [] ∧
        r₂ ≠ [] ∧ pre' = replaceAll pat rep s₁ ++ r₁ ∧
        T' = r₂ ++ replaceAll pat rep s₂) := by
  intro n
  induction n with
  | zero =>
    intro s hs pre' T' hEq
    have hnil : s = [] := List.eq_nil_of_length_eq_zero (Nat.le_zero.mp hs)
    subst hnil
    rw [replaceAll] at hEq
    obtain ⟨h1, h2⟩ := List.append_eq_nil.mp hEq.symm
    subst h1
    subst h2
    left
    exact ⟨[], [], rfl, by rw [replaceAll], by rw [replaceAll]⟩
  | succ n ih =>
    intro s hs pre' T' hEq
    by_cases hpp : pat.isPrefixOf s = true
    · obtain ⟨zr, hzr⟩ := List.isPrefixOf_iff_prefix.mp hpp
      subst hzr
      rw [replaceAll_pat_step hp] at hEq
      have hlz : zr.length ≤ n := by
        have := List.length_append pat zr
        have hple : 1 ≤ pat.length := by
          cases pat with
          | nil => exact absurd rfl hp
          | cons x xt => simp
        omega
      rcases List.append_eq_append_iff.mp hEq with ⟨w, hc, hb⟩ | ⟨w, ha, hd⟩
      · rcases ih zr hlz w T' hb with
          ⟨z₁, z₂, hz, hw, hT⟩ | ⟨z₁, z₂, r₁, r₂, hz, hr, hr1, hr2, hw, hT⟩
        · left
          refine ⟨pat ++ z₁, z₂, by rw [hz, List.append_assoc], ?_, hT⟩
          rw [hc, hw, replaceAll_pat_step hp]
        · right
          refine ⟨pat ++ z₁, z₂, r₁, r₂, by rw [hz]; simp [List.append_assoc],
            hr, hr1, hr2, ?_, hT⟩
          rw [hc, hw, replaceAll_pat_step hp, List.append_assoc]
      · cases w with
        | nil =>
          rw [List.append_nil] at ha
          left
          refine ⟨pat, zr, rfl, ?_, by rw [hd]; rfl⟩
          have hps : replaceAll pat rep pat = rep := by
            have := @replaceAll_pat_step pat rep hp []
            rw [List.append_nil] at this
            rw [this, replaceAll, List.append_nil]
          rw [hps, ha]
        | cons w0 wt =>
          cases pre' with
          | nil =>
            left
            refine ⟨[], pat ++ zr, rfl, by rw [replaceAll], ?_⟩
            rw [replaceAll_pat_step hp, hEq]
            rfl
          | cons p0 pt' =>
            right
            refine ⟨[], zr, p0 :: pt', w0 :: wt, rfl, ha, by simp, by simp, ?_, hd⟩
            rw [replaceAll]
            rfl
    · cases s with
      | nil =>
        rw [replaceAll] at hEq
        obtain ⟨h1, h2⟩ := List.append_eq_nil.mp hEq.symm
        subst h1
        subst h2
        left
        exact ⟨[], [], rfl, by rw [replaceAll], by rw [replaceAll]⟩
      | cons c zt =>
        rw [replaceAll_chunk_step hpp] at hEq
        cases pre' with
        | nil =>
          left
          refine ⟨[], c :: zt, rfl, by rw [replaceAll], ?_⟩
          rw [replaceAll_chunk_step hpp, hEq]
          rfl
        | cons p0 pt' =>
          simp only [List.cons_append, List.cons.injEq] at hEq
          obtain ⟨hcp, hrest⟩ := hEq
          have hlz : zt.length ≤ n := by
            simp only [List.length_cons] at hs
            omega
          have hkill : ∀ z₁ z₂ : List Char, zt = z₁ ++ z₂ →
              ¬ pat.isPrefixOf (c :: z₁) = true := by
            intro z₁ z₂ hz hk
            refine hpp (List.isPrefixOf_iff_prefix.mpr ?_)
            refine (List.isPrefixOf_iff_prefix.mp hk).trans ⟨z₂, ?_⟩
            rw [hz]
            rfl
          rcases ih zt hlz pt' T' hrest with
            ⟨z₁, z₂, hz, hw, hT⟩ | ⟨z₁, z₂, r₁, r₂, hz, hr, hr1, hr2, hw, hT⟩
          · left
            refine ⟨c :: z₁, z₂, by rw [hz]; rfl, ?_, hT⟩
            rw [replaceAll_chunk_step (hkill z₁ z₂ hz), hcp, hw]
          · right
            refine ⟨c :: z₁, z₂, r₁, r₂, by rw [hz]; rfl, hr, hr1, hr2, ?_, hT⟩
            rw [replaceAll_chunk_step (hkill z₁ (pat ++ z₂) hz), hcp, hw]
            rfl

/-- Bool-level form of the suffix mesh conditions against a literal. -/
theorem meshCond_of_tails {rep lit : List Char}
    (h : rep.tails.all (fun t => t.isEmpty ||
      (!(lit.isPrefixOf t) && !(t.isPrefixOf lit))) = true) :
    ∀ t, t <:+ rep → t ≠ [] →
      lit.isPrefixOf t = false ∧ t.isPrefixOf lit = false := by
  intro t ht hne
  have hz := List.all_eq_true.mp h t ((List.mem_tails t rep).mpr ht)
  simp only [Bool.or_eq_true, List.isEmpty_iff, Bool.and_eq_true,
    Bool.not_eq_true'] at hz
  rcases hz with h1 | h1
  · exact absurd h1 hne
  · exact h1

/-- A def match cannot begin strictly inside an inserted replacement copy
whose suffixes do not mesh with the literal `"def "`. -/
theorem defMatch_repMid_none {rep : List Char}
    (hks : ∀ t, t <:+ rep → t ≠ [] →
      strDefSp.isPrefixOf t = false ∧ t.isPrefixOf strDefSp = false)
    (r₂ Y : List Char) (hs : r₂ <:+ rep) (hne : r₂ ≠ []) :
    defMatchAt (r₂ ++ Y) = none := by
  rw [defMatchAt_decompose]
  have he : eatLit strDefSp (r₂ ++ Y) = none := by
    rw [eatLit, if_neg]
    intro hk
    rcases pre_append_cases (List.isPrefixOf_iff_prefix.mp hk) with hi | hii
    · exact absurd (List.isPrefixOf_iff_prefix.mpr hi)
        (by simp [(hks r₂ hs hne).1])
    · exact absurd (List.isPrefixOf_iff_prefix.mpr hii)
        (by simp [(hks r₂ hs hne).2])
  rw [he]
  rfl

/-- replaceAll distributes over an append across which no pattern occurrence
can straddle. -/
theorem replaceAll_append_noCross {pat rep B : List Char} (hp : pat ≠ []) :
    ∀ (n : Nat) (A : List Char), A.length ≤ n →
      (∀ p1 p2, pat = p1 ++ p2 → p1 ≠ [] → p2 ≠ [] → p1 <:+ A → ¬ p2 <+: B) →
      replaceAll pat rep (A ++ B) =
        replaceAll pat rep A ++ replaceAll pat rep B := by
  intro n
  induction n with
  | zero =>
    intro A hA hcross
    have hnil : A = [] := List.eq_nil_of_length_eq_zero (Nat.le_zero.mp hA)
    subst hnil
    rw [replaceAll]
    rfl
  | succ n ih =>
    intro A hA hcross
    by_cases hpp : pat.isPrefixOf A = true
    · obtain ⟨A₂, hA2⟩ := List.isPrefixOf_iff_prefix.mp hpp
      subst hA2
      have hple : 1 ≤ pat.length := by
        cases pat with
        | nil => exact absurd rfl hp
        | cons x xt => simp
      have hlen : A₂.length ≤ n := by
        have := List.length_append pat A₂
        simp only [List.length_append] at hA
        omega
      have hcross₂ : ∀ p1 p2, pat = p1 ++ p2 → p1 ≠ [] → p2 ≠ [] →
          p1 <:+ A₂ → ¬ p2 <+: B := by
        intro p1 p2 hsp h1 h2 hsub
        exact hcross p1 p2 hsp h1 h2 (hsub.trans ⟨pat, rfl⟩)
      rw [List.append_assoc, replaceAll_pat_step hp, replaceAll_pat_step hp,
        ih A₂ hlen hcross₂, List.append_assoc]
    · cases A with
      | nil =>
        rw [replaceAll]
        rfl
      | cons c At =>
        have hppB : ¬ pat.isPrefixOf ((c :: At) ++ B) = true := by
          intro hk
          rcases pre_append_cases (List.isPrefixOf_iff_prefix.mp hk) with hi | hii
          · exact hpp (List.isPrefixOf_iff_prefix.mpr hi)
          · obtain ⟨rest, hrest⟩ := hii
            cases rest with
            | nil =>
              rw [List.append_nil] at hrest
              exact hpp (List.isPrefixOf_iff_prefix.mpr (by rw [← hrest]))
            | cons r0 rt =>
              obtain ⟨t, ht⟩ := List.isPrefixOf_iff_prefix.mp hk
              rw [← hrest, List.append_assoc] at ht
              have hBt : (r0 :: rt) ++ t = B := List.append_cancel_left ht
              exact hcross (c :: At) (r0 :: rt) hrest.symm (by simp) (by simp)
                (List.suffix_refl _) ⟨t, hBt⟩
        have hlen : At.length ≤ n := by
          simp only [List.length_cons] at hA
          omega
        have hcross₂ : ∀ p1 p2, pat = p1 ++ p2 → p1 ≠ [] → p2 ≠ [] →
            p1 <:+ At → ¬ p2 <+: B := by
          intro p1 p2 hsp h1 h2 hsub
          exact hcross p1 p2 hsp h1 h2 (hsub.trans (suffix_tail_of (List.suffix_refl _)))
        rw [List.cons_append, @replaceAll_chunk_step pat rep c (At ++ B) hppB,
          @replaceAll_chunk_step pat rep c At hpp, ih At hlen hcross₂]
        rfl

/-- Range-checked kill of pattern straddles by their right piece. -/
theorem crossKillDrop {pat M : List Char}
    (h : (List.range (pat.length + 1)).all (fun k =>
      (pat.drop k).isEmpty ||
      (!((pat.drop k).isPrefixOf M) && !(M.isPrefixOf (pat.drop k)))) = true) :
    ∀ p1 p2 (Y : List Char), pat = p1 ++ p2 → p2 ≠ [] → ¬ p2 <+: M ++ Y := by
  intro p1 p2 Y hsp hne hpre
  have hp2 : pat.drop p1.length = p2 := by
    rw [hsp]
    exact List.drop_left _ _
  have hk : p1.length ∈ List.range (pat.length + 1) := by
    rw [List.mem_range, hsp, List.length_append]
    omega
  have hz := List.all_eq_true.mp h _ hk
  rw [hp2] at hz
  simp only [Bool.or_eq_true, List.isEmpty_iff, Bool.and_eq_true,
    Bool.not_eq_true'] at hz
  rcases hz with h1 | ⟨h1, h2⟩
  · exact hne h1
  · rcases pre_append_cases hpre with hi | hii
    · exact absurd (List.isPrefixOf_iff_prefix.mpr hi) (by simp [h1])
    · exact absurd (List.isPrefixOf_iff_prefix.mpr hii) (by simp [h2])

/-- Range-checked kill of pattern straddles by their left piece. -/
theorem crossKillTake {pat M : List Char}
    (h : (List.range (pat.length + 1)).all (fun k =>
      (pat.take k).isEmpty || !((pat.take k).isSuffixOf M)) = true) :
    ∀ p1 p2 (B : List Char), pat = p1 ++ p2 → p1 ≠ [] → p1 <:+ M →
      ¬ p2 <+: B := by
  intro p1 p2 B hsp hne hsuf _
  have hp1 : pat.take p1.length = p1 := by
    rw [hsp]
    exact List.take_left _ _
  have hk : p1.length ∈ List.range (pat.length + 1) := by
    rw [List.mem_range, hsp, List.length_append]
    omega
  have hz := List.all_eq_true.mp h _ hk
  rw [hp1] at hz
  simp only [Bool.or_eq_true, List.isEmpty_iff, Bool.not_eq_true'] at hz
  rcases hz with h1 | h1
  · exact hne h1
  · exact absurd (List.isSuffixOf_iff_suffix.mpr hsuf) (by simp [h1])

/-- Characters of an occurring token are characters of the haystack. -/
theorem occursIn_chars {p s : List Char} (h : occursIn p s) :
    ∀ c ∈ p, c ∈ s := by
  obtain ⟨u, v, rfl⟩ := h
  intro c hc
  simp [hc]

/-- Characters of a replacement image come from the string or the
replacement text. -/
theorem replaceAll_mem {pat rep : List Char} (hp : pat ≠ []) :
    ∀ (n : Nat) (s : List Char), s.length ≤ n →
      ∀ c, c ∈ replaceAll pat rep s → c ∈ s ∨ c ∈ rep := by
  intro n
  induction n with
  | zero =>
    intro s hs c hc
    have hnil : s = [] := List.eq_nil_of_length_eq_zero (Nat.le_zero.mp hs)
    subst hnil
    rw [replaceAll] at hc
    simp at hc
  | succ n ih =>
    intro s hs c hc
    by_cases hpp : pat.isPrefixOf s = true
    · obtain ⟨zr, hzr⟩ := List.isPrefixOf_iff_prefix.mp hpp
      subst hzr
      rw [replaceAll_pat_step hp] at hc
      have hple : 1 ≤ pat.length := by
        cases pat with
        | nil => exact absurd rfl hp
        | cons x xt => simp
      have hlen : zr.length ≤ n := by
        simp only [List.length_append] at hs
        omega
      rcases List.mem_append.mp hc with h1 | h1
      · exact Or.inr h1
      · rcases ih zr hlen c h1 with h2 | h2
        · exact Or.inl (by simp [h2])
        · exact Or.inr h2
    · cases s with
      | nil =>
        rw [replaceAll] at hc
        simp at hc
      | cons c0 zt =>
        rw [@replaceAll_chunk_step pat rep c0 zt hpp] at hc
        have hlen : zt.length ≤ n := by
          simp only [List.length_cons] at hs
          omega
        rcases List.mem_cons.mp hc with h1 | h1
        · exact Or.inl (by simp [h1])
        · rcases ih zt hlen c h1 with h2 | h2
          · exact Or.inl (by simp [h2])
          · exact Or.inr h2

/-- The context invariant survives the database-setup replacement. -/
theorem stubStruct_create {u : List Char} (hS : StubStruct u) :
    StubStruct (replaceAll strCreatePat strCreateRep u) := by
  intro pre' T' r' hsplit hm'
  have hp : strCreatePat ≠ [] := by decide
  rcases replaceAll_split hp u.length u le_rfl pre' T' hsplit with
    ⟨s₁, s₂, hu, hpre, hT⟩ | ⟨s₁, s₂, r₁, r₂, hu, hr, hr1, hr2, hpre, hT⟩
  · subst hT
    have hms : ∃ r, defMatchAt s₂ = some r := by
      rcases simDefMatchCreate s₂ [] with ⟨h1, h2⟩ | ⟨h1, h2⟩
      · rw [List.nil_append] at h2
        rw [h2] at hm'
        exact Option.noConfusion hm'
      · simpa using h1
    obtain ⟨r, hmr⟩ := hms
    obtain ⟨E0, gp, hgp, hs₁⟩ := hS s₁ s₂ r hu hmr
    have hgpfree : ¬ occursIn strCreatePat gp := by
      intro hocc
      have hin := occursIn_chars hocc '(' (by decide)
      have := hgp '(' hin
      simp at this
    have hnc1 : replaceAll strCreatePat strCreateRep (E0 ++ (defSegMid ++ gp)) =
        replaceAll strCreatePat strCreateRep E0 ++
          replaceAll strCreatePat strCreateRep (defSegMid ++ gp) :=
      replaceAll_append_noCross hp E0.length E0 le_rfl
        (fun p1 p2 hsp _ h2 _ => crossKillDrop (by decide) p1 p2 gp hsp h2)
    have hnc2 : replaceAll strCreatePat strCreateRep (defSegMid ++ gp) =
        replaceAll strCreatePat strCreateRep defSegMid ++
          replaceAll strCreatePat strCreateRep gp :=
      replaceAll_append_noCross hp defSegMid.length defSegMid le_rfl
        (fun p1 p2 hsp h1 _ hsuf => crossKillTake (by decide) p1 p2 gp hsp h1 hsuf)
    have hmid : replaceAll strCreatePat strCreateRep defSegMid = defSegMid :=
      replaceAll_id (not_occ_of_pyIn (by decide))
    have hgpid : replaceAll strCreatePat strCreateRep gp = gp :=
      replaceAll_id hgpfree
    refine ⟨replaceAll strCreatePat strCreateRep E0, gp, hgp, ?_⟩
    rw [hpre, hs₁, hnc1, hnc2, hmid, hgpid]
  · subst hT
    have hnone := defMatch_repMid_none (meshCond_of_tails (by decide)) r₂
      (replaceAll strCreatePat strCreateRep s₂) ⟨r₁, hr.symm⟩ hr2
    rw [hnone] at hm'
    exact Option.noConfusion hm'

/-- The context invariant survives the missing-os-import replacement. -/
theorem stubStruct_dotenv {u : List Char} (hS : StubStruct u) :
    StubStruct (replaceAll strImportDotenv strImportOsDotenv u) := by
  intro pre' T' r' hsplit hm'
  have hp : strImportDotenv ≠ [] := by decide
  rcases replaceAll_split hp u.length u le_rfl pre' T' hsplit with
    ⟨s₁, s₂, hu, hpre, hT⟩ | ⟨s₁, s₂, r₁, r₂, hu, hr, hr1, hr2, hpre, hT⟩
  · subst hT
    have hms : ∃ r, defMatchAt s₂ = some r := by
      rcases simDefMatchDot s₂ [] with ⟨h1, h2⟩ | ⟨h1, h2⟩
      · rw [List.nil_append] at h2
        rw [h2] at hm'
        exact Option.noConfusion hm'
      · simpa using h1
    obtain ⟨r, hmr⟩ := hms
    obtain ⟨E0, gp, hgp, hs₁⟩ := hS s₁ s₂ r hu hmr
    have hnc1 : replaceAll strImportDotenv strImportOsDotenv
          (E0 ++ (defSegMid ++ gp)) =
        replaceAll strImportDotenv strImportOsDotenv E0 ++
          replaceAll strImportDotenv strImportOsDotenv (defSegMid ++ gp) :=
      replaceAll_append_noCross hp E0.length E0 le_rfl
        (fun p1 p2 hsp _ h2 _ => crossKillDrop (by decide) p1 p2 gp hsp h2)
    have hnc2 : replaceAll strImportDotenv strImportOsDotenv (defSegMid ++ gp) =
        replaceAll strImportDotenv strImportOsDotenv defSegMid ++
          replaceAll strImportDotenv strImportOsDotenv gp :=
      replaceAll_append_noCross hp defSegMid.length defSegMid le_rfl
        (fun p1 p2 hsp h1 _ hsuf => crossKillTake (by decide) p1 p2 gp hsp h1 hsuf)
    have hmid : replaceAll strImportDotenv strImportOsDotenv defSegMid =
        defSegMid := replaceAll_id (not_occ_of_pyIn (by decide))
    have hgp' : ∀ c ∈ replaceAll strImportDotenv strImportOsDotenv gp,
        (c != '(') = true := by
      intro c hc
      rcases replaceAll_mem hp gp.length gp le_rfl c hc with h1 | h1
      · exact hgp c h1
      · revert h1
        have : ∀ c ∈ strImportOsDotenv, (c != '(') = true := by decide
        exact this c
    refine ⟨replaceAll strImportDotenv strImportOsDotenv E0,
      replaceAll strImportDotenv strImportOsDotenv gp, hgp', ?_⟩
    rw [hpre, hs₁, hnc1, hnc2, hmid]
  · subst hT
    have hnone := defMatch_repMid_none (meshCond_of_tails (by decide)) r₂
      (replaceAll strImportDotenv strImportOsDotenv s₂) ⟨r₁, hr.symm⟩ hr2
    rw [hnone] at hm'
    exact Option.noConfusion hm'

/-- On a def-scan shaped string the route scan is the identity. -/
theorem routeSub_id_of_stub {u : List Char} (hS : StubStruct u) :
    subScan routeMatchAt u = u :=
  subScan_id (fun t ht => routeDead_of_stubStruct hS t ht)

/-- The import-pairing invariant of the repairer: a Python output containing
"import dotenv" also contains "import os" (claim C6, second obligation). -/
theorem fix_dotenv_implies_os (s f : List Char) (hpy : extOf f = strPy)
    (h1 : s ≠ []) (h2 : hasPlaceholders s = true) :
    occursIn strImportDotenv (fix_incomplete_code s f) →
    occursIn strImportOs (fix_incomplete_code s f) := by
  simp only [fix_incomplete_code]
  rw [if_neg h1, if_neg (by simp [h2]), bracket_pass_id,
    if_pos (py_mem_exts hpy), if_pos hpy]
  have hSu : StubStruct (subScan defMatchAt s) := stubStruct_defSub s.length s le_rfl
  have hSb : StubStruct (if pyIn strCreateOrCreate (subScan defMatchAt s) = true then
      replaceAll strCreatePat strCreateRep (subScan defMatchAt s)
    else subScan defMatchAt s) := by
    split_ifs with hc
    · exact stubStruct_create hSu
    · exact hSu
  generalize hbeq : (if pyIn strCreateOrCreate (subScan defMatchAt s) = true then
      replaceAll strCreatePat strCreateRep (subScan defMatchAt s)
    else subScan defMatchAt s) = b at hSb ⊢
  by_cases hd : pyIn strImportDotenv b = true ∧ ¬ pyIn strImportOs b = true
  · rw [if_pos hd, routeSub_id_of_stub (stubStruct_dotenv hSb)]
    intro _
    have hdv : occursIn strImportDotenv b := (pyIn_iff _ _).mp hd.1
    have hrep : occursIn strImportOsDotenv
        (replaceAll strImportDotenv strImportOsDotenv b) :=
      replaceAll_inserts b.length b le_rfl hdv (by decide)
    have hosc : occursIn strImportOs
        (replaceAll strImportDotenv strImportOsDotenv b) :=
      occursIn_trans ⟨[], "\nimport dotenv".toList, by decide⟩ hrep
    exact replaceAll_occ_preserve (by decide) _ _ le_rfl hosc
  · rw [if_neg hd, routeSub_id_of_stub hSb]
    by_cases hos : pyIn strImportOs b = true
    · intro _
      exact replaceAll_occ_preserve (by decide) _ _ le_rfl ((pyIn_iff _ _).mp hos)
    · have hndv : ¬ occursIn strImportDotenv b := by
        intro hdv
        exact hd ⟨(pyIn_iff _ _).mpr hdv, hos⟩
      intro hante
      exact absurd hante (replaceAll_absent (by decide)
        (not_occ_of_pyIn (by decide)) (cond_of_tails (by decide))
        (cond_of_inits (by decide)) (not_occ_of_pyIn (by decide)) _ _
        le_rfl hndv)

/-- C6 (confirmed): the repairer is idempotent — for every input string and
filename, repairing the repaired output returns it unchanged; and on content
free of all recognized placeholder markers a single run is already the
identity.  The second run is the identity because the first leaves no ellipsis
token (pipeline_clean), no database pattern (fix_no_createpat), and pairs the
dotenv import with an os import (fix_dotenv_implies_os, which rests on the
route regex being dead code on the def-scan output). -/
theorem C6_repair_idempotent (s f : List Char) :
    fix_incomplete_code (fix_incomplete_code s f) f = fix_incomplete_code s f ∧
    (hasPlaceholders s = false → fix_incomplete_code s f = s) := by
  constructor
  · by_cases h1 : s = []
    · have h0 : fix_incomplete_code s f = s := by
        simp only [fix_incomplete_code]
        rw [if_pos h1]
      rw [h0]
      exact h0
    · by_cases h2 : hasPlaceholders s = true
      · refine fix_id_of_clean _ _ ?_ ?_ ?_
        · simp only [fix_incomplete_code]
          rw [if_neg h1, if_neg (by simp [h2])]
          exact not_occ_of_pyIn (pipeline_clean _).1
        · intro hpy
          exact fix_no_createpat s f hpy h1 h2
        · intro hpy
          exact fix_dotenv_implies_os s f hpy h1 h2
      · have h0 : fix_incomplete_code s f = s := by
          simp only [fix_incomplete_code]
          rw [if_neg h1, if_pos (by simp [h2])]
        rw [h0]
        exact h0
  · intro hcl
    simp only [fix_incomplete_code]
    by_cases h1 : s = []
    · rw [if_pos h1]
    · rw [if_neg h1, if_pos (by simp [hcl])]

/-- Witness for C6: concrete placeholder-free content on which the repairer is
checked to be the identity via the theorem. -/
theorem C6_repair_idempotent_witness :
    hasPlaceholders "x = 1\n".toList = false ∧
    fix_incomplete_code "x = 1\n".toList "a.py".toList = "x = 1\n".toList :=
  ⟨by decide, (C6_repair_idempotent "x = 1\n".toList "a.py".toList).2 (by decide)⟩
